import Mathlib

/-!
Verification of the Gato-X workflow analysis core
(`gatox/workflow_parser/workflow_parser.py` and
`gatox/workflow_parser/components/job.py`) against its natural-language
specification.  The Python code is shallowly embedded: every analysis
method is translated to an executable Lean function over explicit data
types; the mutable guard-memoization state of `Job`/`Step` objects is
threaded explicitly; Python recursion that can blow the stack is given an
explicit fuel argument where `none` models a `RecursionError`.

String primitives are implemented over `List Char` so that every
definition reduces inside the kernel (plain structural recursion).
-/

/-! ## Python-semantics string helpers -/

/-- Does the second list start with the first one?  (Executable prefix
test written out structurally so the kernel can evaluate it.) -/
def listStarts : List Char → List Char → Bool
  | [], _ => true
  | _ :: _, [] => false
  | p :: ps, c :: cs => p = c && listStarts ps cs

/-- Python substring test `p in s` on strings. -/
def containsSub (s p : String) : Bool :=
  go p.toList s.toList
where
  go (p : List Char) : List Char → Bool
    | [] => listStarts p []
    | c :: cs => listStarts p (c :: cs) || go p cs

/-- Python `s.startswith(p)`. -/
def strStarts (s p : String) : Bool :=
  listStarts p.toList s.toList

/-- Python `s.lower()`. -/
def strLower (s : String) : String :=
  String.mk (s.toList.map Char.toLower)

/-- Python `s.split(sep)` for a one-character separator, on char lists. -/
def splitOnChar (sep : Char) : List Char → List (List Char)
  | [] => [[]]
  | c :: cs =>
      let rest := splitOnChar sep cs
      if c = sep then [] :: rest
      else match rest with
           | [] => [[c]]
           | r :: rs => (c :: r) :: rs

/-- Python `s.split(sep)` (one-character separator) as strings. -/
def strSplit (s : String) (sep : Char) : List String :=
  (splitOnChar sep s.toList).map String.mk

/-- Python `s.split(sep)[0]`. -/
def headSplit (s : String) (sep : Char) : String :=
  (strSplit s sep).headD ""

/-- Python `s.split(sep)[-1]`. -/
def lastSplit (s : String) (sep : Char) : String :=
  (strSplit s sep).getLastD ""

/-- Truthiness of a Python value that is either `None` or a `str`
(`None` and the empty string are falsy). -/
def truthyOS : Option String → Bool
  | none => false
  | some s => s ≠ ""

/-- `x.startswith(p)` applied through an `Option` (`none` maps to `false`;
the Python call sites guard with truthiness first, so the `none` case is
never semantically relevant). -/
def startsWithOS (p : String) : Option String → Bool
  | none => false
  | some s => strStarts s p

/-- Python dict assignment `d[k] = v` on an association list: replaces the
value at an existing key in place, otherwise appends the new binding. -/
def dictUpsert {β : Type} (k : String) (v : β) : List (String × β) → List (String × β)
  | [] => [(k, v)]
  | (k0, v0) :: rest =>
      if k0 = k then (k, v) :: rest else (k0, v0) :: dictUpsert k v rest

/-- Key-membership in an association list (Python `k in d`). -/
def dictHas {β : Type} (k : String) (d : List (String × β)) : Bool :=
  d.any (fun kv => kv.1 = k)

/-- Lookup in an association list (Python `d[k]`, first binding wins). -/
def dictGet {β : Type} (k : String) : List (String × β) → Option β
  | [] => none
  | (k0, v0) :: rest => if k0 = k then some v0 else dictGet k rest

example : containsSub "abc def" "c d" = true := by decide
example : containsSub "abc" "cb" = false := by decide
example : headSplit "$\x7b\x7b matrix.os \x7d\x7d" '.' = "$\x7b\x7b matrix" := by decide
example : lastSplit "./.github/workflows/reuse.yml" '/' = "reuse.yml" := by decide
example : strLower "GitHub.Event" = "github.event" := by decide
example : strStarts "RESTRICTED: x" "RESTRICTED" = true := by decide

/-! ## Expression parser / evaluator model

`gatox/workflow_parser/expression_parser.py` and
`expression_evaluator.py` are not part of the sources under review; per
the spec they parse a raw `if`-expression and decide whether an adversary
can satisfy it, failing with one of the exception kinds that
`Job.evaluateIf` catches.  They are modelled as a deterministic oracle
from the raw condition text to an outcome. -/

/-- Exception kinds caught by `Job.evaluateIf` / `Step.evaluateIf`. -/
inductive ExcKind
  | valueError
  | notImplementedError
  | syntaxError
  | indexError
deriving DecidableEq, Repr

/-- Modelled from the spec: outcome of `ExpressionParser` +
`ExpressionEvaluator.evaluate` on a raw condition string — either a
boolean verdict (truthy means the adversary can satisfy the guard) or one
of the caught exception kinds. -/
inductive EvalOutcome
  | ok (b : Bool)
  | exc (e : ExcKind)
deriving DecidableEq, Repr

/-- The parser/evaluator pipeline, abstracted as a deterministic function
of the raw condition text. -/
def EvalOracle : Type := String → EvalOutcome

/-- The annotation string `Job.evaluateIf` stores back into
`self.if_condition` (source lines 94-107 of `job.py`). -/
def annotStr (ora : EvalOracle) (c : String) : String :=
  match ora c with
  | .ok true => "EVALUATED: " ++ c
  | .ok false => "RESTRICTED: " ++ c
  | .exc .valueError => "ERROR: " ++ c ++ " - ValueError"
  | .exc .notImplementedError => "ERROR: " ++ c ++ " - NotImplementedError"
  | .exc .syntaxError => "ERROR: " ++ c ++ " - SyntaxError"
  | .exc .indexError => "ERROR: " ++ c ++ " - IndexError"

/-! ## Data model: environment values, needs, steps, jobs -/

/-- A YAML scalar sitting in an `env:` table (`check_injection` only
distinguishes numbers from strings: numeric values never carry an
embedded expression). -/
inductive EnvVal
  | str (s : String)
  | num (n : Int)
deriving DecidableEq, Repr

/-- A job's `needs:` declaration: a single job name or a list of job
names (Python: `str` or `list`; an absent key becomes the default `[]`).
List elements are modelled as strings, the only shape the source format
produces. -/
inductive Needs
  | str (s : String)
  | list (xs : List String)
deriving DecidableEq, Repr

/-- Python truthiness of a `needs` value (`if job.needs:`). -/
def truthyNeeds : Needs → Bool
  | .str s => s ≠ ""
  | .list xs => !xs.isEmpty

/-- The job names a `needs` value refers to. -/
def needsNames : Needs → List String
  | .str s => [s]
  | .list xs => xs

/-- Modelled from the spec: `gatox/workflow_parser/components/step.py` is
not under the sources reviewed; per spec §4.3 a `Step` computes its kind
classification, metadata, token list and `step_data` once at
construction and carries the same lazily-memoized guard state as `Job`.
The classification flags and extracted data are therefore modelled as
plain fields, and `evaluateIf` mirrors `Job.evaluateIf`. -/
structure Step where
  name : String
  type_ : String := ""
  uses : Option String := none
  is_gate : Bool := false
  is_checkout : Bool := false
  is_script : Bool := false
  is_sink : Bool := false
  metadata : String := ""
  tokens : List String := []
  env : Option (List (String × EnvVal)) := none
  if_condition : Option String := none
  evaluated : Bool := false
deriving DecidableEq, Repr

/-- Modelled from the spec: `Step.evaluate_guard` — identical
memoization pattern to `Job.evaluateIf` (spec §4.3 and §9 note the
duplicated evaluate-and-memoize routine). -/
def Step.evaluateIf (ora : EvalOracle) (s : Step) : Option String × Step :=
  match s.if_condition with
  | none => (none, s)
  | some c =>
      if c ≠ "" && !s.evaluated then
        let ann := annotStr ora c
        (some ann, { s with if_condition := some ann, evaluated := true })
      else (some c, s)

/-- `Step.getTokens` (spec §4.3: returns the distinct context-variable
references extracted at construction). -/
def Step.getTokens (s : Step) : List String :=
  s.tokens

/-- Raw strategy/matrix declaration of a job, as read by
`WorkflowParser._check_matrix_runner`: the named matrix keys with their
candidate label lists, plus optional `include` entries (each a mapping
supplying values for matrix keys). -/
structure MatrixDecl where
  entries : List (String × List String) := []
  include_ : Option (List (List (String × String))) := none
deriving DecidableEq, Repr

/-- The `strategy:` block of a job declaration. -/
structure StrategyDecl where
  matrix : Option MatrixDecl := none
deriving DecidableEq, Repr

/-- A `runs-on:` value: a single label or a list of labels. -/
inductive RunsOn
  | str (s : String)
  | list (xs : List String)
deriving DecidableEq, Repr

/-- The parsed declaration of one job (the dict `job_data` that
`Job.__init__` receives).  `environment` is a scalar-or-list, matching
the two shapes `Job.__init__` distinguishes. -/
structure JobData where
  environment : Option (Sum String (List String)) := none
  env : Option (List (String × EnvVal)) := none
  permissions : List String := []
  if_ : Option String := none
  needs : Option Needs := none
  uses : Option String := none
  runs_on : Option RunsOn := none
  steps : Option (List Step) := none
  strategy : Option StrategyDecl := none
deriving DecidableEq, Repr

/-- Wrapper object for one workflow job (`Job` in `job.py`).
`if_condition` and `evaluated` are the mutable memoization fields; all
other fields are set once by the constructor. -/
structure Job where
  job_name : String
  job_data : JobData
  needs : Needs
  steps : List Step
  env : List (String × EnvVal)
  permissions : List String
  deployments : List String
  if_condition : Option String
  uses : Option String
  caller : Bool
  external_caller : Bool
  has_gate : Bool
  evaluated : Bool
deriving DecidableEq, Repr

/-- `Job.__init__` (job.py lines 31-86): field normalization from the
raw declaration. -/
def mkJob (job_data : JobData) (job_name : String) : Job :=
  let deployments : List String :=
    match job_data.environment with
    | none => []
    | some (.inr xs) => xs
    | some (.inl x) => [x]
  let uses := job_data.uses
  let caller := match uses with
    | some u => strStarts u "./"
    | none => false
  let external_caller := match uses with
    | some u => !strStarts u "./"
    | none => false
  let steps := (job_data.steps).getD []
  { job_name := job_name
    job_data := job_data
    needs := (job_data.needs).getD (.list [])
    steps := steps
    env := (job_data.env).getD []
    permissions := job_data.permissions
    deployments := deployments
    if_condition := job_data.if_
    uses := uses
    caller := caller
    external_caller := external_caller
    has_gate := steps.any (fun s => s.is_gate)
    evaluated := false }

/-- `Job.evaluateIf` (job.py lines 88-111): evaluate the `if` expression
once, memoize the annotation into `if_condition`, and return it.  All
four caught exception kinds degrade to an `ERROR:` annotation; the
`finally` clause sets `evaluated` in every branch of the `try`. -/
def Job.evaluateIf (ora : EvalOracle) (j : Job) : Option String × Job :=
  match j.if_condition with
  | none => (none, j)
  | some c =>
      if c ≠ "" && !j.evaluated then
        let ann := annotStr ora c
        (some ann, { j with if_condition := some ann, evaluated := true })
      else (some c, j)

/-- The value `Job.evaluateIf` returns, as a pure function of the job's
current state (the call is deterministic given the oracle). -/
def Job.evalPure (ora : EvalOracle) (j : Job) : Option String :=
  match j.if_condition with
  | none => none
  | some c => if c ≠ "" && !j.evaluated then some (annotStr ora c) else some c

/-- The job state after a call to `Job.evaluateIf`. -/
def Job.memoFix (ora : EvalOracle) (j : Job) : Job :=
  match j.if_condition with
  | none => j
  | some c =>
      if c ≠ "" && !j.evaluated then
        { j with if_condition := some (annotStr ora c), evaluated := true }
      else j

/-- Pure value of `Step.evaluateIf`. -/
def Step.evalPure (ora : EvalOracle) (s : Step) : Option String :=
  match s.if_condition with
  | none => none
  | some c => if c ≠ "" && !s.evaluated then some (annotStr ora c) else some c

/-- The step state after a call to `Step.evaluateIf`. -/
def Step.memoFix (ora : EvalOracle) (s : Step) : Step :=
  match s.if_condition with
  | none => s
  | some c =>
      if c ≠ "" && !s.evaluated then
        { s with if_condition := some (annotStr ora c), evaluated := true }
      else s

theorem Job.evaluateIf_eq (ora : EvalOracle) (j : Job) :
    j.evaluateIf ora = (j.evalPure ora, j.memoFix ora) := by
  cases h : j.if_condition with
  | none => simp [Job.evaluateIf, Job.evalPure, Job.memoFix, h]
  | some c =>
      by_cases hc : c = "" <;> by_cases he : j.evaluated <;>
        simp [Job.evaluateIf, Job.evalPure, Job.memoFix, h, hc, he]

theorem stepEvaluateIf_eq (ora : EvalOracle) (s : Step) :
    s.evaluateIf ora = (s.evalPure ora, s.memoFix ora) := by
  cases h : s.if_condition with
  | none => simp [Step.evaluateIf, Step.evalPure, Step.memoFix, h]
  | some c =>
      by_cases hc : c = "" <;> by_cases he : s.evaluated <;>
        simp [Step.evaluateIf, Step.evalPure, Step.memoFix, h, hc, he]

/-- A memoized job answers every further `evaluateIf` with the stored
annotation, under any oracle, and does not change state. -/
theorem Job.evaluateIf_memoFix (ora ora' : EvalOracle) (j : Job) :
    (j.memoFix ora).evaluateIf ora' = (j.evalPure ora, j.memoFix ora) := by
  cases h : j.if_condition with
  | none => simp [Job.evaluateIf, Job.evalPure, Job.memoFix, h]
  | some c =>
      by_cases hc : c = "" <;> by_cases he : j.evaluated <;>
        simp [Job.evaluateIf, Job.evalPure, Job.memoFix, h, hc, he]

theorem stepEvaluateIf_memoFix (ora ora' : EvalOracle) (s : Step) :
    (s.memoFix ora).evaluateIf ora' = (s.evalPure ora, s.memoFix ora) := by
  cases h : s.if_condition with
  | none => simp [Step.evaluateIf, Step.evalPure, Step.memoFix, h]
  | some c =>
      by_cases hc : c = "" <;> by_cases he : s.evaluated <;>
        simp [Step.evaluateIf, Step.evalPure, Step.memoFix, h, hc, he]

/-! ## YAML values and the trigger block -/

/-- A generic parsed-YAML value, used for the `on:` trigger block whose
shape the source inspects dynamically. -/
inductive YVal
  | str (s : String)
  | num (n : Int)
  | bool (b : Bool)
  | null
  | list (xs : List YVal)
  | map (kvs : List (String × YVal))

/-- Python truthiness of a parsed-YAML value. -/
def pyTruthy : YVal → Bool
  | .str s => s ≠ ""
  | .num n => n ≠ 0
  | .bool b => b
  | .null => false
  | .list xs => !xs.isEmpty
  | .map kvs => !kvs.isEmpty

/-- Python membership `needle in v` for a string needle: substring test
on strings, element equality on lists, key membership on dicts; `none`
models the `TypeError` raised on other types. -/
def pyMemStr (needle : String) : YVal → Option Bool
  | .str s => some (containsSub s needle)
  | .list xs =>
      some (xs.any (fun v => match v with | .str x => x = needle | _ => false))
  | .map kvs => some (dictHas needle kvs)
  | _ => none

/-- Python `len(v)`; `none` models the `TypeError` on non-sized values. -/
def pyLen : YVal → Option Nat
  | .str s => some s.length
  | .list xs => some xs.length
  | .map kvs => some kvs.length
  | _ => none

/-- Python `v[k]` for a string key: defined only on dicts (`none` models
`TypeError`/`KeyError`). -/
def pyGetKey (k : String) : YVal → Option YVal
  | .map kvs => dictGet k kvs
  | _ => none

/-- Python `v[0]`: head of a list, first character of a string; `none`
models `IndexError`, the `KeyError` of integer-indexing a dict, and the
`TypeError` on other values. -/
def pyIdx0 : YVal → Option YVal
  | .list xs => xs.head?
  | .str s =>
      match s.toList with
      | [] => none
      | c :: _ => some (.str (String.mk [c]))
  | _ => none

/-- Rendering of a value inside an f-string.  Only reached on `types[0]`
in the labeled-singleton branch, where the value is a string in every
non-crashing execution. -/
def pyFmt : YVal → String
  | .str s => s
  | .num n => toString n
  | .bool true => "True"
  | .bool false => "False"
  | .null => "None"
  | _ => ""

/-- The `risky_triggers` list exactly as the source writes it
(workflow_parser.py lines 158-160).  Note the missing comma between the
adjacent string literals `'discussion'` and `'fork'`, which Python
concatenates into the single element `'discussionfork'`. -/
def riskyTriggersSrc : List String :=
  ["pull_request_target", "workflow_run", "issue_comment", "issues",
   "discussion_comment", "discussionfork", "watch"]

/-- The list-shaped branch of `get_vulnerable_triggers`: append every
element that is a member of the risky list. -/
def vulnListGo (risky : List String) : List YVal → List String
  | [] => []
  | v :: rest =>
      match v with
      | .str s => (if s ∈ risky then [s] else []) ++ vulnListGo risky rest
      | _ => vulnListGo risky rest

/-- One `(trigger, trigger_conditions)` entry of the mapping-shaped
branch (workflow_parser.py lines 172-181); `none` models an uncaught
`TypeError`/`KeyError`/`IndexError` escaping the method. -/
def vulnEntry (risky : List String) (t : String) (cond : YVal) :
    Option (List String) :=
  if t ∈ risky then
    if pyTruthy cond then
      match pyMemStr "types" cond with
      | none => none
      | some false => some [t]
      | some true =>
          match pyGetKey "types" cond with
          | none => none
          | some types =>
              match pyMemStr "labeled" types with
              | none => none
              | some false => some [t]
              | some true =>
                  match pyLen types with
                  | none => none
                  | some n =>
                      if n = 1 then
                        match pyIdx0 types with
                        | none => none
                        | some v0 => some [t ++ ":" ++ pyFmt v0]
                      else some [t]
    else some [t]
  else some []

/-- The mapping-shaped branch: walk the entries in declaration order. -/
def vulnMapGo (risky : List String) : List (String × YVal) → Option (List String)
  | [] => some []
  | (t, cond) :: rest => do
      let l ← vulnEntry risky t cond
      let ls ← vulnMapGo risky rest
      pure (l ++ ls)

/-- `WorkflowParser.get_vulnerable_triggers` (lines 147-183) as a
function of the `on:` block (`none` = the key is absent).  A trigger
block that is neither a list nor a mapping — in particular a bare
single trigger name — falls through both `isinstance` checks and
contributes nothing. -/
def getVulnerableTriggersOn (onBlock : Option YVal) (alternate : Option String) :
    Option (List String) :=
  let risky := if truthyOS alternate then [alternate.getD ""] else riskyTriggersSrc
  match onBlock with
  | none => some []
  | some triggers =>
      match triggers with
      | .list xs => some (vulnListGo risky xs)
      | .map kvs => vulnMapGo risky kvs
      | _ => some []

/-! ## Facts about the trigger walk -/

/-- C2: the spec's risky-trigger set contains `discussion` and `fork` as
separate entries and claims both are returned when declared without a
`types` filter.  In the source (workflow_parser.py lines 158-160) the
missing comma between the adjacent literals `'discussion'` and `'fork'`
concatenates them into the single element `'discussionfork'`, so a
workflow triggered on `fork` (or on `discussion`) yields an empty result
while the other six risky names still work (shown for `issues`). -/
theorem c2_risky_list_concatenation_bug :
    getVulnerableTriggersOn (some (.list [.str "fork"])) none = some [] ∧
    getVulnerableTriggersOn (some (.list [.str "discussion"])) none = some [] ∧
    getVulnerableTriggersOn (some (.list [.str "issues"])) none = some ["issues"] ∧
    getVulnerableTriggersOn (some (.map [("fork", YVal.null)])) none = some [] ∧
    "discussionfork" ∈ riskyTriggersSrc ∧
    "fork" ∉ riskyTriggersSrc ∧ "discussion" ∉ riskyTriggersSrc := by
  refine ⟨rfl, rfl, rfl, rfl, ?_, ?_, ?_⟩ <;> decide

/-- The `jobs:` section of the parsed document, with the three shapes
`WorkflowParser.__init__` distinguishes: key absent, key present but
null, or a mapping of job names to declarations. -/
inductive JobsDecl
  | absent
  | null
  | table (kvs : List (String × JobData))
deriving DecidableEq

/-- The structured parse of a workflow document (`parsed_yml`): the
trigger block, the jobs section, and the optional workflow-level `env`
table read by `check_injection`. -/
structure ParsedYml where
  onBlock : Option YVal := none
  jobs : JobsDecl := .absent
  env : Option (List (String × EnvVal)) := none

/-- Modelled from the spec: `gatox/models/workflow.py` is not under the
sources reviewed; per spec §6 the wrapper exposes the raw text, the
structured parse, repository and file names, optional branch and
special-path qualifiers, and an explicit validity flag
(`isInvalid()`). -/
structure Workflow where
  invalid : Bool
  parsed_yml : ParsedYml
  workflow_contents : String := ""
  repo_name : String := ""
  workflow_name : String := ""
  special_path : Option String := none
  branch : Option String := none

/-- Decomposed reference of a composite action
(`decompose_action_ref` in the utility module, kept abstract). -/
def ActionParts : Type := String × String × String

/-- The type of the abstracted `decompose_action_ref` helper: it
receives the step's `uses` string and the repository name. -/
def DecomposeRef : Type := Option String → String → Option ActionParts

/-- Python exceptions escaping the embedded methods: the `ValueError`
raised deliberately by the constructor, or an uncaught
`TypeError`/`KeyError`/`IndexError` from inspecting a malformed trigger
block. -/
inductive PyErr
  | valueErr (msg : String)
  | typeErr
deriving DecidableEq, Repr

/-- The `WorkflowParser` object: the parsed document, the constructed
`Job` wrappers (whose memoization fields are the mutable state), and
the `callees` accumulator that `analyze_checkouts` appends to. -/
structure WFParser where
  parsed_yml : ParsedYml := {}
  jobs : List Job := []
  raw_yaml : String := ""
  repo_name : String := ""
  wf_name : String := ""
  callees : List String := []
  external_ref : Bool := false
  external_path : Option String := none
  branch : Option String := none
  composites : List (String × ActionParts) := []

/-- `WorkflowParser.extract_referenced_actions` (lines 124-145): collect
the decomposed reference of every `ACTION` step, but only when a risky
trigger is present and a jobs section exists. -/
def extractReferencedActions (dar : DecomposeRef) (py : ParsedYml)
    (jobs : List Job) (repo : String) : Option (List (String × ActionParts)) := do
  let vt ← getVulnerableTriggersOn py.onBlock none
  if vt.isEmpty then
    pure []
  else
    match py.jobs with
    | .absent => pure []
    | _ =>
        pure (jobs.foldl (fun acc job =>
          job.steps.foldl (fun acc step =>
            if step.type_ = "ACTION" then
              match dar step.uses repo with
              | some parts => dictUpsert (step.uses.getD "") parts acc
              | none => acc
            else acc) acc) [])

/-- `WorkflowParser.__init__` (lines 47-82): raise `ValueError` when the
wrapper reports the document invalid; otherwise build the `Job` list
(empty when the jobs section is absent or null), record branch and
reference metadata, and extract composite actions. -/
def WorkflowParser_init (dar : DecomposeRef) (w : Workflow)
    (non_default : Option String) : Except PyErr WFParser :=
  if w.invalid then .error (.valueErr "Received invalid workflow!")
  else
    let jobs := match w.parsed_yml.jobs with
      | .table kvs => kvs.map (fun kv => mkJob kv.2 kv.1)
      | _ => []
    let ext := truthyOS w.special_path
    let external_path := if ext then w.special_path else none
    let branch :=
      if ext then w.branch
      else if truthyOS non_default then non_default
      else none
    match extractReferencedActions dar w.parsed_yml jobs w.repo_name with
    | none => .error .typeErr
    | some comps =>
        .ok { parsed_yml := w.parsed_yml
              jobs := jobs
              raw_yaml := w.workflow_contents
              repo_name := w.repo_name
              wf_name := w.workflow_name
              callees := []
              external_ref := ext
              external_path := external_path
              branch := branch
              composites := comps }

/-- Does construction succeed with an empty job list? -/
def initEmptyJobsOk : Except PyErr WFParser → Bool
  | .ok p => p.jobs.isEmpty
  | .error _ => false

/-- A trivial `decompose_action_ref` stand-in for concrete instances. -/
def darTriv : DecomposeRef := fun _ _ => none

/-- A concrete valid wrapper whose document has no jobs section. -/
def wfNoJobs : Workflow :=
  { invalid := false
    parsed_yml := { onBlock := some (.list [.str "pull_request_target"])
                    jobs := .absent } }

/-- C7 counterexample: a wrapper that reports the document valid but
whose document lacks a jobs section.  `WorkflowParser.__init__` does
not fail: lines 63-66 explicitly tolerate a missing or null `jobs`
section by setting `self.jobs = []`, so a parser instance exists and
further analysis can be attempted on it, contradicting the claim that
construction fails fast in this case. -/
theorem c7_cex_missing_jobs_constructs :
    initEmptyJobsOk (WorkflowParser_init darTriv wfNoJobs none) = true := by
  rfl

/-- C7 (amended): construction fails fast with the validation error
exactly when the wrapper reports the document invalid; a valid document
lacking a parseable jobs section (key absent or null) is accepted, and
— whenever the trigger walk performed during construction completes —
yields a parser instance with an empty job list. -/
theorem c7_construction_amended (dar : DecomposeRef) (w : Workflow)
    (nd : Option String) :
    (w.invalid = true →
      WorkflowParser_init dar w nd = .error (.valueErr "Received invalid workflow!")) ∧
    (w.invalid = false →
      (w.parsed_yml.jobs = .absent ∨ w.parsed_yml.jobs = .null) →
      (getVulnerableTriggersOn w.parsed_yml.onBlock none).isSome →
      initEmptyJobsOk (WorkflowParser_init dar w nd) = true) := by
  constructor
  · intro hinv
    simp [WorkflowParser_init, hinv]
  · intro hinv hjobs hsome
    obtain ⟨vt, hvt⟩ := Option.isSome_iff_exists.mp hsome
    have hextract : extractReferencedActions dar w.parsed_yml
        (match w.parsed_yml.jobs with
          | .table kvs => kvs.map (fun kv => mkJob kv.2 kv.1)
          | _ => []) w.repo_name = some (if vt.isEmpty then [] else
            match w.parsed_yml.jobs with
            | .absent => []
            | _ => []) := by
      rcases hjobs with hj | hj <;>
        · rw [extractReferencedActions, hvt]
          rw [hj]
          by_cases hv : vt.isEmpty <;> simp [hv]
    rcases hjobs with hj | hj <;>
      · simp only [WorkflowParser_init, hinv, Bool.false_eq_true, if_false, hj] at *
        rw [hextract]
        by_cases hv : vt.isEmpty <;> simp [hv, initEmptyJobsOk]

/-- C7 witness: the amended theorem applied to a concrete invalid
wrapper and to a concrete valid wrapper without a jobs section. -/
theorem c7_construction_amended_witness :
    (WorkflowParser_init darTriv { invalid := true, parsed_yml := {} } none =
      .error (.valueErr "Received invalid workflow!")) ∧
    initEmptyJobsOk (WorkflowParser_init darTriv wfNoJobs none) = true := by
  constructor
  · exact (c7_construction_amended darTriv { invalid := true, parsed_yml := {} } none).1 rfl
  · exact (c7_construction_amended darTriv wfNoJobs none).2 rfl (Or.inl rfl) rfl

/-! ## Gate backtracking (`backtrack_gate`) -/

/-- The value of `Job.gated()` (job.py lines 113-116) as a pure function
of the job's state: `has_gate or (evaluateIf() and
evaluateIf().startswith("RESTRICTED"))`. -/
def Job.gatedP (ora : EvalOracle) (j : Job) : Bool :=
  j.has_gate || (truthyOS (j.evalPure ora) && startsWithOS "RESTRICTED" (j.evalPure ora))

/-- Work items of the `backtrack_gate` recursion (workflow_parser.py
lines 185-203): dispatch on a `needs` value, scan the job list for a
named job, or fold Python's short-circuiting `any` over a name list. -/
inductive BtTaskP
  | needs (n : Needs)
  | scan (name : String) (suffix : List Job)
  | anyL (xs : List String)

/-- One fueled interpreter for `backtrack_gate`.  Every recursive call
(including loop steps) consumes one unit of fuel; `none` models the
`RecursionError` of the unbounded Python recursion.  The job list is
fixed: the pure reading is justified because `gated()` only memoizes
guard annotations, which does not change any `gated()` value (see the
stateful refinement below). -/
def btRunP (ora : EvalOracle) (jobs : List Job) : Nat → BtTaskP → Option Bool
  | 0, _ => none
  | fuel+1, .needs n =>
      match n with
      | .list xs => btRunP ora jobs fuel (.anyL xs)
      | .str s => btRunP ora jobs fuel (.scan s jobs)
  | _+1, .anyL [] => some false
  | fuel+1, .anyL (x :: xs) =>
      match btRunP ora jobs fuel (.scan x jobs) with
      | none => none
      | some true => some true
      | some false => btRunP ora jobs fuel (.anyL xs)
  | _+1, .scan _ [] => some false
  | fuel+1, .scan name (j :: rest) =>
      if j.job_name = name then
        if j.gatedP ora then some true
        else if truthyNeeds j.needs then btRunP ora jobs fuel (.needs j.needs)
        else btRunP ora jobs fuel (.scan name rest)
      else btRunP ora jobs fuel (.scan name rest)

/-- `WorkflowParser.backtrack_gate`, fueled. -/
def backtrackGateP (ora : EvalOracle) (jobs : List Job) (fuel : Nat)
    (n : Needs) : Option Bool :=
  btRunP ora jobs fuel (.needs n)

/-- Adding fuel never changes a defined answer. -/
theorem btRunP_mono (ora : EvalOracle) (jobs : List Job) :
    ∀ {fuel fuel' : Nat} {t : BtTaskP} {b : Bool}, fuel ≤ fuel' →
      btRunP ora jobs fuel t = some b → btRunP ora jobs fuel' t = some b := by
  intro fuel
  induction fuel with
  | zero => intro fuel' t b _ h; simp [btRunP] at h
  | succ g ih =>
      intro fuel' t b hle h
      obtain ⟨g', rfl⟩ : ∃ g', fuel' = g' + 1 :=
        ⟨fuel' - 1, by omega⟩
      have hg : g ≤ g' := by omega
      cases t with
      | needs n =>
          cases n with
          | list xs =>
              simp only [btRunP] at h ⊢
              exact ih hg h
          | str s =>
              simp only [btRunP] at h ⊢
              exact ih hg h
      | anyL xs =>
          cases xs with
          | nil => exact h
          | cons x rest =>
              simp only [btRunP] at h ⊢
              cases hx : btRunP ora jobs g (.scan x jobs) with
              | none => rw [hx] at h; cases h
              | some bx =>
                  rw [hx] at h
                  rw [ih hg hx]
                  cases bx with
                  | true => exact h
                  | false => exact ih hg h
      | scan name suffix =>
          cases suffix with
          | nil => exact h
          | cons j rest =>
              simp only [btRunP] at h ⊢
              by_cases hn : j.job_name = name
              · rw [if_pos hn] at h ⊢
                by_cases hgat : j.gatedP ora = true
                · rw [if_pos hgat] at h ⊢; exact h
                · rw [if_neg hgat] at h ⊢
                  by_cases ht : truthyNeeds j.needs = true
                  · rw [if_pos ht] at h ⊢; exact ih hg h
                  · rw [if_neg ht] at h ⊢; exact ih hg h
              · rw [if_neg hn] at h ⊢; exact ih hg h

/-- The spec-level reachability predicate for `backtrack_gate`:
a `needs` value leads to a gate iff some named job is gated, or some
named job's own dependencies recursively lead to a gate. -/
inductive GatedReach (ora : EvalOracle) (jobs : List Job) : Needs → Prop
  | hit (j : Job) (name : String) :
      j ∈ jobs → j.job_name = name → j.gatedP ora = true →
      GatedReach ora jobs (.str name)
  | step (j : Job) (name : String) :
      j ∈ jobs → j.job_name = name → truthyNeeds j.needs = true →
      GatedReach ora jobs j.needs → GatedReach ora jobs (.str name)
  | mem (xs : List String) (x : String) :
      x ∈ xs → GatedReach ora jobs (.str x) → GatedReach ora jobs (.list xs)

/-- Reachability restated per work item. -/
def TaskReachP (ora : EvalOracle) (jobs : List Job) : BtTaskP → Prop
  | .needs n => GatedReach ora jobs n
  | .scan name suffix =>
      ∃ j, j ∈ suffix ∧ j.job_name = name ∧
        (j.gatedP ora = true ∨
          (truthyNeeds j.needs = true ∧ GatedReach ora jobs j.needs))
  | .anyL xs => ∃ x, x ∈ xs ∧ GatedReach ora jobs (.str x)

/-- Soundness: a `true` answer of the interpreter exhibits a reachable
gate. -/
theorem btRunP_sound (ora : EvalOracle) (jobs : List Job) :
    ∀ {fuel : Nat} {t : BtTaskP}, btRunP ora jobs fuel t = some true →
      TaskReachP ora jobs t := by
  intro fuel
  induction fuel with
  | zero => intro t h; simp [btRunP] at h
  | succ g ih =>
      intro t h
      cases t with
      | needs n =>
          cases n with
          | str s =>
              simp only [btRunP] at h
              obtain ⟨j, hmem, hname, hcase⟩ := ih h
              rcases hcase with hg | ⟨ht, hr⟩
              · exact .hit j s hmem hname hg
              · exact .step j s hmem hname ht hr
          | list xs =>
              simp only [btRunP] at h
              obtain ⟨x, hx, hr⟩ := ih h
              exact .mem xs x hx hr
      | anyL xs =>
          cases xs with
          | nil => simp [btRunP] at h
          | cons x rest =>
              simp only [btRunP] at h
              cases hx : btRunP ora jobs g (.scan x jobs) with
              | none => rw [hx] at h; cases h
              | some bx =>
                  rw [hx] at h
                  cases bx with
                  | true =>
                      obtain ⟨j, hmem, hname, hcase⟩ := ih hx
                      refine ⟨x, List.mem_cons_self x rest, ?_⟩
                      rcases hcase with hg | ⟨ht, hr⟩
                      · exact .hit j x hmem hname hg
                      · exact .step j x hmem hname ht hr
                  | false =>
                      obtain ⟨y, hy, hr⟩ := ih h
                      exact ⟨y, List.mem_cons_of_mem x hy, hr⟩
      | scan name suffix =>
          cases suffix with
          | nil => simp [btRunP] at h
          | cons j rest =>
              simp only [btRunP] at h
              by_cases hn : j.job_name = name
              · rw [if_pos hn] at h
                by_cases hgat : j.gatedP ora = true
                · exact ⟨j, List.mem_cons_self j rest, hn, Or.inl hgat⟩
                · rw [if_neg hgat] at h
                  by_cases ht : truthyNeeds j.needs = true
                  · rw [if_pos ht] at h
                    exact ⟨j, List.mem_cons_self j rest, hn, Or.inr ⟨ht, ih h⟩⟩
                  · rw [if_neg ht] at h
                    obtain ⟨k, hk, hkn, hkc⟩ := ih h
                    exact ⟨k, List.mem_cons_of_mem j hk, hkn, hkc⟩
              · rw [if_neg hn] at h
                obtain ⟨k, hk, hkn, hkc⟩ := ih h
                exact ⟨k, List.mem_cons_of_mem j hk, hkn, hkc⟩

/-- Scan walk, completeness side: if the suffix has pairwise-distinct
job names and contains a job named `name` whose handling forces a
`true` answer, then any defined scan answer is `true`. -/
theorem btRunP_scan_force (ora : EvalOracle) (jobs : List Job)
    {name : String} {j : Job} :
    ∀ {suffix : List Job} {fuel : Nat} {b : Bool},
      (suffix.map Job.job_name).Nodup → j ∈ suffix → j.job_name = name →
      (j.gatedP ora = true ∨
        (truthyNeeds j.needs = true ∧
          ∀ f b', btRunP ora jobs f (.needs j.needs) = some b' → b' = true)) →
      btRunP ora jobs fuel (.scan name suffix) = some b → b = true := by
  intro suffix
  induction suffix with
  | nil => intro fuel b _ hj _ _ _; cases hj
  | cons k rest ih =>
      intro fuel b hnd hj hname hforce h
      cases fuel with
      | zero => simp [btRunP] at h
      | succ g =>
          simp only [btRunP] at h
          by_cases hkn : k.job_name = name
          · rw [if_pos hkn] at h
            have hkj : j = k := by
              rcases List.mem_cons.mp hj with rfl | hjr
              · rfl
              · exfalso
                have : k.job_name ∈ rest.map Job.job_name := by
                  rw [hkn, ← hname]
                  exact List.mem_map_of_mem Job.job_name hjr
                exact (List.nodup_cons.mp hnd).1 this
            subst hkj
            rcases hforce with hg | ⟨ht, hf⟩
            · rw [if_pos hg] at h
              exact (Option.some.inj h).symm
            · by_cases hg : j.gatedP ora = true
              · rw [if_pos hg] at h
                exact (Option.some.inj h).symm
              · rw [if_neg hg, if_pos ht] at h
                exact hf g b h
          · rw [if_neg hkn] at h
            have hjr : j ∈ rest := by
              rcases List.mem_cons.mp hj with rfl | hjr
              · exact absurd hname hkn
              · exact hjr
            exact ih (List.nodup_cons.mp hnd).2 hjr hname hforce h

/-- `any` walk, completeness side: if some listed name's scan is forced
to `true`, any defined answer of the fold is `true`. -/
theorem btRunP_anyL_force (ora : EvalOracle) (jobs : List Job) {x : String} :
    ∀ {xs : List String} {fuel : Nat} {b : Bool},
      btRunP ora jobs fuel (.anyL xs) = some b → x ∈ xs →
      (∀ f bx, btRunP ora jobs f (.scan x jobs) = some bx → bx = true) →
      b = true := by
  intro xs
  induction xs with
  | nil => intro fuel b _ hx _; cases hx
  | cons y rest ih =>
      intro fuel b h hx hforce
      cases fuel with
      | zero => simp [btRunP] at h
      | succ g =>
          simp only [btRunP] at h
          cases hy : btRunP ora jobs g (.scan y jobs) with
          | none => rw [hy] at h; cases h
          | some by_ =>
              rw [hy] at h
              cases by_ with
              | true => exact (Option.some.inj h).symm
              | false =>
                  rcases List.mem_cons.mp hx with rfl | hxr
                  · exact absurd (hforce g false hy) (by simp)
                  · exact ih h hxr hforce

/-- Completeness: when a gate is reachable, every defined interpreter
answer is `true` (requires pairwise-distinct job names, which Python
guarantees because jobs come from a dict). -/
theorem btRunP_complete (ora : EvalOracle) (jobs : List Job)
    (hnd : (jobs.map Job.job_name).Nodup) :
    ∀ {n : Needs}, GatedReach ora jobs n →
      ∀ fuel b, btRunP ora jobs fuel (.needs n) = some b → b = true := by
  intro n hreach
  induction hreach with
  | hit j name hmem hname hgat =>
      intro fuel b h
      cases fuel with
      | zero => simp [btRunP] at h
      | succ g =>
          simp only [btRunP] at h
          exact btRunP_scan_force ora jobs hnd hmem hname (Or.inl hgat) h
  | step j name hmem hname ht _ ihf =>
      intro fuel b h
      cases fuel with
      | zero => simp [btRunP] at h
      | succ g =>
          simp only [btRunP] at h
          exact btRunP_scan_force ora jobs hnd hmem hname (Or.inr ⟨ht, ihf⟩) h
  | mem xs x hx _ ihf =>
      intro fuel b h
      cases fuel with
      | zero => simp [btRunP] at h
      | succ g =>
          simp only [btRunP] at h
          refine btRunP_anyL_force ora jobs h hx ?_
          intro f bx hbx
          exact ihf (f + 1) bx (by simpa [btRunP] using hbx)

/-- Termination on acyclic graphs: if a rank function witnesses the
acyclicity of the `needs` edges (every dependency's rank is strictly
below the depending job's rank), the interpreter answers with some
finite fuel on every query. -/
theorem btRunP_term (ora : EvalOracle) (jobs : List Job) (rk : String → Nat)
    (hrank : ∀ j ∈ jobs, ∀ m ∈ needsNames j.needs, rk m < rk j.job_name) :
    ∀ (r : Nat) (n : Needs), (∀ m ∈ needsNames n, rk m < r) →
      ∃ fuel b, btRunP ora jobs fuel (.needs n) = some b := by
  intro r
  induction r using Nat.strong_induction_on with
  | _ r ih =>
      have hscan : ∀ s, rk s < r → ∀ suffix : List Job,
          (∀ j ∈ suffix, j ∈ jobs) →
          ∃ fuel b, btRunP ora jobs fuel (.scan s suffix) = some b := by
        intro s hs suffix
        induction suffix with
        | nil => exact fun _ => ⟨1, false, rfl⟩
        | cons k rest ihs =>
            intro hsub
            have hkmem : k ∈ jobs := hsub k (List.mem_cons_self k rest)
            have hrest : ∀ j ∈ rest, j ∈ jobs :=
              fun j hj => hsub j (List.mem_cons_of_mem k hj)
            by_cases hkn : k.job_name = s
            · by_cases hg : k.gatedP ora = true
              · refine ⟨1, true, ?_⟩
                simp only [btRunP]
                rw [if_pos hkn, if_pos hg]
              · by_cases ht : truthyNeeds k.needs = true
                · have hbound : ∀ m ∈ needsNames k.needs, rk m < rk s := by
                    intro m hm
                    have := hrank k hkmem m hm
                    rwa [hkn] at this
                  obtain ⟨f, b, hf⟩ := ih (rk s) hs k.needs hbound
                  refine ⟨f + 1, b, ?_⟩
                  simp only [btRunP]
                  rw [if_pos hkn, if_neg hg, if_pos ht]
                  exact hf
                · obtain ⟨f, b, hf⟩ := ihs hrest
                  refine ⟨f + 1, b, ?_⟩
                  simp only [btRunP]
                  rw [if_pos hkn, if_neg hg, if_neg ht]
                  exact hf
            · obtain ⟨f, b, hf⟩ := ihs hrest
              refine ⟨f + 1, b, ?_⟩
              simp only [btRunP]
              rw [if_neg hkn]
              exact hf
      intro n hb
      cases n with
      | str s =>
          have hs : rk s < r := hb s (by simp [needsNames])
          obtain ⟨f, b, hf⟩ := hscan s hs jobs (fun j hj => hj)
          exact ⟨f + 1, b, by simpa [btRunP] using hf⟩
      | list xs =>
          have hany : ∀ ys : List String, (∀ x ∈ ys, rk x < r) →
              ∃ fuel b, btRunP ora jobs fuel (.anyL ys) = some b := by
            intro ys
            induction ys with
            | nil => exact fun _ => ⟨1, false, rfl⟩
            | cons x rest iha =>
                intro hbnd
                obtain ⟨f1, b1, h1⟩ :=
                  hscan x (hbnd x (List.mem_cons_self x rest)) jobs (fun j hj => hj)
                obtain ⟨f2, b2, h2⟩ :=
                  iha (fun y hy => hbnd y (List.mem_cons_of_mem x hy))
                refine ⟨max f1 f2 + 1, if b1 then true else b2, ?_⟩
                have h1' := btRunP_mono ora jobs (le_max_left f1 f2) h1
                have h2' := btRunP_mono ora jobs (le_max_right f1 f2) h2
                cases b1 with
                | true => simp only [btRunP]; rw [h1']; simp
                | false => simp only [btRunP]; rw [h1']; simpa using h2'
          have hbx : ∀ x ∈ xs, rk x < r := by
            intro x hx
            exact hb x (by simpa [needsNames] using hx)
          obtain ⟨f, b, hf⟩ := hany xs hbx
          exact ⟨f + 1, b, by simpa [btRunP] using hf⟩

/-- A fixed concrete oracle for concrete instances. -/
def oraConst : EvalOracle := fun _ => .ok false

/-- A job that needs itself — the malformed/self-referential graph of
the claim. -/
def selfLoopJob : Job := mkJob { needs := some (.str "a") } "a"

/-- The one-job self-referential graph. -/
def jobsLoop : List Job := [selfLoopJob]

theorem c1_loop_aux : ∀ f : Nat,
    btRunP oraConst jobsLoop f (.needs (.str "a")) = none ∧
    btRunP oraConst jobsLoop f (.scan "a" jobsLoop) = none := by
  intro f
  induction f with
  | zero => exact ⟨rfl, rfl⟩
  | succ g ihg =>
      refine ⟨?_, ?_⟩
      · show btRunP oraConst jobsLoop g (.scan "a" jobsLoop) = none
        exact ihg.2
      · show btRunP oraConst jobsLoop g (.needs (.str "a")) = none
        exact ihg.1

/-- The backtrack recursion on the self-loop graph exhausts every
recursion budget: no amount of fuel produces an answer. -/
def selfLoopDiverges : Prop :=
  ∀ fuel : Nat, backtrackGateP oraConst jobsLoop fuel (.str "a") = none

/-- C1 counterexample: on the self-referential graph (job `a` with
`needs: a`, not gated), `backtrack_gate` has no visited set — the
embedded recursion returns no answer at any recursion budget, modelling
the unbounded Python recursion (`RecursionError`), where the claim
requires termination with an already-visited job treated as
non-gating. -/
theorem c1_cex_self_loop : selfLoopDiverges :=
  fun fuel => (c1_loop_aux fuel).1

theorem lt_foldr_maxRank (rk : String → Nat) :
    ∀ (l : List String) (m : String), m ∈ l →
      rk m < l.foldr (fun x a => max (rk x + 1) a) 0 := by
  intro l
  induction l with
  | nil => intro m hm; cases hm
  | cons x xs ihl =>
      intro m hm
      rcases List.mem_cons.mp hm with rfl | hm'
      · simp only [List.foldr]
        exact lt_of_lt_of_le (Nat.lt_succ_self _) (le_max_left _ _)
      · simp only [List.foldr]
        exact lt_of_lt_of_le (ihl m hm') (le_max_right _ _)

/-- C1 (amended): on every acyclic job graph — acyclicity witnessed by
a rank function strictly decreasing along `needs` edges — and with the
pairwise-distinct job names that Python's job dict guarantees,
`backtrack_gate` terminates (some fuel yields an answer) and answers
`true` exactly when the named job (for a list argument: at least one
named job) is gated or some job reachable from it along `needs` edges
is gated.  On a self-referential graph, by contrast, the recursion
never terminates (see the counterexample): the source has no visited
set. -/
theorem c1_backtrack_amended (ora : EvalOracle) (jobs : List Job)
    (rk : String → Nat)
    (hrank : ∀ j ∈ jobs, ∀ m ∈ needsNames j.needs, rk m < rk j.job_name)
    (hnd : (jobs.map Job.job_name).Nodup) (n : Needs) :
    ∃ fuel b, backtrackGateP ora jobs fuel n = some b ∧
      (b = true ↔ GatedReach ora jobs n) := by
  have hbnd : ∀ m ∈ needsNames n, rk m <
      (needsNames n).foldr (fun x a => max (rk x + 1) a) 0 :=
    fun m hm => lt_foldr_maxRank rk (needsNames n) m hm
  obtain ⟨fuel, b, hf⟩ := btRunP_term ora jobs rk hrank _ n hbnd
  refine ⟨fuel, b, hf, ?_, ?_⟩
  · intro hb
    subst hb
    exact btRunP_sound ora jobs hf
  · intro hreach
    exact btRunP_complete ora jobs hnd hreach fuel b hf

/-- Job `b`, gated by a contained gate step. -/
def jobGateB : Job := mkJob { steps := some [{ name := "approval", is_gate := true }] } "b"

/-- Job `a` depending on `b`. -/
def jobNeedA : Job := mkJob { needs := some (.str "b") } "a"

/-- A two-job acyclic graph: `a` needs `b`, `b` is gated. -/
def jobsAB : List Job := [jobNeedA, jobGateB]

/-- A rank function witnessing acyclicity of `jobsAB`. -/
def rkAB : String → Nat := fun s => if s = "b" then 0 else 1

/-- C1 witness: the amended theorem applied to the concrete acyclic
two-job graph, with the rank and distinctness hypotheses discharged by
computation. -/
theorem c1_backtrack_amended_witness :
    ∃ fuel b, backtrackGateP oraConst jobsAB fuel (.str "a") = some b ∧
      (b = true ↔ GatedReach oraConst jobsAB (.str "a")) :=
  c1_backtrack_amended oraConst jobsAB rkAB (by decide) (by decide) (.str "a")

/-! ## Checkout / pwn-request analysis (`analyze_checkouts`, `check_pwn_request`) -/

/-- Python substring test through an `Option String` (the call sites
guard with truthiness first). -/
def containsSubOS (o : Option String) (p : String) : Bool :=
  match o with
  | none => false
  | some s => containsSub s p

/-- The pinned-ref test of `analyze_checkouts` (lines 243-245):
`'github.event.pull_request.head.sha' in step.metadata.lower() or
('sha' in ... and 'env.' in ...)`. -/
def pinnedMeta (m : String) : Bool :=
  containsSub (strLower m) "github.event.pull_request.head.sha" ||
    (containsSub (strLower m) "sha" && containsSub (strLower m) "env.")

/-- One appended checkout observation (line 257). -/
structure CheckDetail where
  ref : String
  if_check : Option String
  step_name : String
deriving DecidableEq, Repr

/-- The running per-job state of the step scan of `analyze_checkouts`:
the accumulated `step_details`, the `bump_confidence` flag, the
job-level `gated` flag, and the confidence label. -/
structure CkSt where
  details : List CheckDetail
  bump : Bool
  gated : Bool
  conf : String
deriving DecidableEq, Repr

/-- `Job.gated()` restricted to the restricted-guard half (used for the
initial value of the `gated` flag, line 231). -/
def jobRestricted (ora : EvalOracle) (j : Job) : Bool :=
  truthyOS (j.evalPure ora) && startsWithOS "RESTRICTED" (j.evalPure ora)

/-- The step loop of `analyze_checkouts` (lines 234-265), pure reading:
a gate step sets `gated`; a checkout step recomputes `gated` from
`backtrack_gate` when the job has `needs`, breaks out of the job when
gated-and-pinned, otherwise appends an observation and updates
`bump_confidence`; a sink step after at least one observation rewrites
the confidence label.  `none` propagates a `RecursionError` from
`backtrack_gate`. -/
def ackStepsP (ora : EvalOracle) (jobs : List Job) (fuel : Nat) (jobNeeds : Needs)
    (jobIf : Option String) : List Step → CkSt → Option CkSt
  | [], st => some st
  | s :: rest, st =>
      if s.is_gate then
        ackStepsP ora jobs fuel jobNeeds jobIf rest { st with gated := true }
      else if s.is_checkout then
        match (if truthyNeeds jobNeeds then backtrackGateP ora jobs fuel jobNeeds
               else some st.gated) with
        | none => none
        | some g =>
            if g && pinnedMeta s.metadata then some { st with gated := g }
            else
              let sIf := s.evalPure ora
              let bump' :=
                if truthyOS sIf && startsWithOS "EVALUATED" sIf then true
                else if truthyOS sIf && containsSubOS sIf "RESTRICTED" then false
                else st.bump
              ackStepsP ora jobs fuel jobNeeds jobIf rest
                { details := st.details ++ [⟨s.metadata, sIf, s.name⟩]
                  bump := bump'
                  gated := g
                  conf := st.conf }
      else if !st.details.isEmpty && s.is_sink then
        let sIf := s.evalPure ora
        let conf' :=
          if (truthyOS jobIf && startsWithOS "EVALUATED" jobIf)
              || (st.bump && !truthyOS jobIf)
              || (!truthyOS jobIf && (!truthyOS sIf || startsWithOS "EVALUATED" sIf))
          then "HIGH" else "MEDIUM"
        ackStepsP ora jobs fuel jobNeeds jobIf rest { st with conf := conf' }
      else ackStepsP ora jobs fuel jobNeeds jobIf rest st

/-- The per-job record `analyze_checkouts` stores (lines 217-222,
267-268). -/
structure JobCk where
  check_steps : List CheckDetail
  if_check : Option String
  confidence : String
  gated : Bool
deriving DecidableEq, Repr

/-- One job of `analyze_checkouts` (lines 216-268), pure reading: the
job guard annotation, the `callees` additions for caller jobs, the
restricted-guard initial gating, then the step scan. -/
def ackJobP (ora : EvalOracle) (jobs : List Job) (fuel : Nat) (j : Job) :
    Option (JobCk × List String) :=
  match ackStepsP ora jobs fuel j.needs (j.evalPure ora) j.steps
      ⟨[], false, jobRestricted ora j, "UNKNOWN"⟩ with
  | none => none
  | some st =>
      some (⟨st.details, j.evalPure ora, st.conf, st.gated⟩,
        if j.caller then [lastSplit (j.uses.getD "") '/']
        else if j.external_caller then [j.uses.getD ""] else [])

/-- The job fold of `analyze_checkouts`, keyed by job name with dict
semantics. -/
def ackAllP (ora : EvalOracle) (jobs : List Job) (fuel : Nat) :
    List Job → List (String × JobCk) → Option (List (String × JobCk))
  | [], acc => some acc
  | j :: rest, acc =>
      match ackJobP ora jobs fuel j with
      | none => none
      | some (r, _) => ackAllP ora jobs fuel rest (dictUpsert j.job_name r acc)

/-- `WorkflowParser.analyze_checkouts` (lines 205-270), pure reading of
the returned `job_checkouts` mapping. -/
def analyzeCheckoutsP (ora : EvalOracle) (P : WFParser) (fuel : Nat) :
    Option (List (String × JobCk)) :=
  match P.parsed_yml.jobs with
  | .absent => some []
  | _ => ackAllP ora P.jobs fuel P.jobs []

/-- One pwn-request candidate (lines 295-302). -/
structure PwnCand where
  confidence : String
  gated : Bool
  steps : List CheckDetail
  if_check : String
deriving DecidableEq, Repr

/-- The candidate fold of `check_pwn_request` (lines 290-302). -/
def pwnCandFold : List (String × JobCk) → List (String × PwnCand) →
    List (String × PwnCand)
  | [], acc => acc
  | (nm, jc) :: rest, acc =>
      if !jc.check_steps.isEmpty then
        pwnCandFold rest (dictUpsert nm
          ⟨jc.confidence, jc.gated, jc.check_steps,
            if truthyOS jc.if_check then jc.if_check.getD "" else ""⟩ acc)
      else pwnCandFold rest acc

/-- `WorkflowParser.check_pwn_request` (lines 272-308).  The Python
method returns the dict `{}` or `{'candidates': ..., 'triggers': ...}`;
the two reserved keys are modelled as the two components of the pair,
with `([], [])` standing for the empty dict. -/
def checkPwnRequestP (ora : EvalOracle) (P : WFParser) (fuel : Nat)
    (bypass : Bool) : Option (List (String × PwnCand) × List String) :=
  match getVulnerableTriggersOn P.parsed_yml.onBlock none with
  | none => none
  | some vt =>
      if vt.isEmpty && !bypass then some ([], [])
      else
        match analyzeCheckoutsP ora P fuel with
        | none => none
        | some info =>
            let cands := pwnCandFold info []
            if cands.isEmpty then some ([], []) else some (cands, vt)

/-- Does the pwn-request result name the job among its candidates? -/
def pwnHasJob (r : Option (List (String × PwnCand) × List String))
    (nm : String) : Bool :=
  match r with
  | none => false
  | some (cands, _) => dictHas nm cands

/-- The `check_steps` list of a per-job analysis result (empty when the
analysis did not complete). -/
def ckStepsOfJob (o : Option (JobCk × List String)) : List CheckDetail :=
  match o with
  | none => []
  | some (r, _) => r.check_steps

/-! ## C3: gated jobs with pinned checkouts -/

/-- Is a gate step seen before the first checkout step of the list?
(Vacuously true when no checkout occurs.) -/
def firstCheckoutGated : List Step → Bool
  | [] => true
  | s :: rest =>
      if s.is_gate then true
      else if s.is_checkout then false
      else firstCheckoutGated rest

theorem mem_dictUpsert {β : Type} {k : String} {v : β} {p : String × β} :
    ∀ {d : List (String × β)}, p ∈ dictUpsert k v d → p = (k, v) ∨ p ∈ d := by
  intro d
  induction d with
  | nil =>
      intro h
      simp only [dictUpsert] at h
      rcases List.mem_singleton.mp h with rfl
      exact Or.inl rfl
  | cons kv rest ih =>
      intro h
      obtain ⟨k0, v0⟩ := kv
      simp only [dictUpsert] at h
      by_cases hk : k0 = k
      · rw [if_pos hk] at h
        rcases List.mem_cons.mp h with rfl | hr
        · exact Or.inl rfl
        · exact Or.inr (List.mem_cons_of_mem _ hr)
      · rw [if_neg hk] at h
        rcases List.mem_cons.mp h with rfl | hr
        · exact Or.inr (List.mem_cons_self _ _)
        · rcases ih hr with h1 | h2
          · exact Or.inl h1
          · exact Or.inr (List.mem_cons_of_mem _ h2)

theorem dictHas_upsert {β : Type} (k nm : String) (v : β) :
    ∀ d : List (String × β),
      dictHas nm (dictUpsert k v d) = (decide (k = nm) || dictHas nm d) := by
  intro d
  induction d with
  | nil => simp [dictUpsert, dictHas]
  | cons kv rest ih =>
      obtain ⟨k0, v0⟩ := kv
      simp only [dictUpsert]
      by_cases hk : k0 = k
      · subst hk
        simp [dictHas]
      · rw [if_neg hk]
        simp only [dictHas, List.any_cons] at ih ⊢
        rw [ih]
        cases h0 : (decide (k0 = nm)) <;> simp [h0]

/-- Scan lemma, dependency-gated case: when the job has truthy `needs`
whose backtrack answers `true`, and every checkout of the job is
pinned, the scan breaks at the first checkout and appends no
observation. -/
theorem ackStepsP_pinned_needs (ora : EvalOracle) (jobs : List Job) (fuel : Nat)
    {jobNeeds : Needs} (jobIf : Option String)
    (h1 : truthyNeeds jobNeeds = true)
    (h2 : backtrackGateP ora jobs fuel jobNeeds = some true) :
    ∀ (steps : List Step) (st : CkSt),
      (∀ s ∈ steps, s.is_checkout = true → pinnedMeta s.metadata = true) →
      ∃ st', ackStepsP ora jobs fuel jobNeeds jobIf steps st = some st' ∧
        st'.details = st.details := by
  intro steps
  induction steps with
  | nil => exact fun st _ => ⟨st, rfl, rfl⟩
  | cons s rest ih =>
      intro st hpin
      have hrest : ∀ s' ∈ rest, s'.is_checkout = true → pinnedMeta s'.metadata = true :=
        fun s' hs' => hpin s' (List.mem_cons_of_mem s hs')
      by_cases hg : s.is_gate = true
      · obtain ⟨st', hst', hd⟩ := ih { st with gated := true } hrest
        exact ⟨st', by simp only [ackStepsP, hg, if_pos]; exact hst', hd⟩
      · by_cases hc : s.is_checkout = true
        · have hpins : pinnedMeta s.metadata = true := hpin s (List.mem_cons_self s rest) hc
          refine ⟨{ st with gated := true }, ?_, rfl⟩
          simp only [ackStepsP, hg, hc, if_pos, if_neg, Bool.false_eq_true, if_false,
            if_true, if_pos h1]
          rw [h2]
          simp [hpins]
        · by_cases hs : (!st.details.isEmpty && s.is_sink) = true
          · simp only [ackStepsP, hg, hc, Bool.false_eq_true, if_false, hs, if_true]
            exact ih _ hrest
          · simp only [ackStepsP, hg, hc, Bool.false_eq_true, if_false, hs]
            exact ih st hrest

/-- Scan lemma, direct-gating case: when the job declares no (truthy)
`needs`, every checkout is pinned, and the job is already gated when
the first checkout is reached (restricted guard, or a gate step seen
first), the scan appends no observation. -/
theorem ackStepsP_pinned_direct (ora : EvalOracle) (jobs : List Job) (fuel : Nat)
    {jobNeeds : Needs} (jobIf : Option String)
    (h1 : truthyNeeds jobNeeds = false) :
    ∀ (steps : List Step) (st : CkSt),
      (∀ s ∈ steps, s.is_checkout = true → pinnedMeta s.metadata = true) →
      (st.gated = true ∨ firstCheckoutGated steps = true) →
      ∃ st', ackStepsP ora jobs fuel jobNeeds jobIf steps st = some st' ∧
        st'.details = st.details := by
  intro steps
  induction steps with
  | nil => exact fun st _ _ => ⟨st, rfl, rfl⟩
  | cons s rest ih =>
      intro st hpin hgate
      have hrest : ∀ s' ∈ rest, s'.is_checkout = true → pinnedMeta s'.metadata = true :=
        fun s' hs' => hpin s' (List.mem_cons_of_mem s hs')
      by_cases hg : s.is_gate = true
      · obtain ⟨st', hst', hd⟩ := ih { st with gated := true } hrest (Or.inl rfl)
        exact ⟨st', by simp only [ackStepsP, hg, if_pos]; exact hst', hd⟩
      · by_cases hc : s.is_checkout = true
        · have hpins : pinnedMeta s.metadata = true := hpin s (List.mem_cons_self s rest) hc
          have hstg : st.gated = true := by
            rcases hgate with h | h
            · exact h
            · exfalso
              simp only [firstCheckoutGated, hg, Bool.false_eq_true, if_false, hc,
                if_true] at h
          refine ⟨{ st with gated := st.gated }, ?_, rfl⟩
          simp only [ackStepsP, hg, hc, Bool.false_eq_true, if_false, if_true, h1]
          simp [hstg, hpins]
        · have hfc : st.gated = true ∨ firstCheckoutGated rest = true := by
            rcases hgate with h | h
            · exact Or.inl h
            · simp only [firstCheckoutGated, hg, Bool.false_eq_true, if_false, hc] at h
              exact Or.inr h
          by_cases hs : (!st.details.isEmpty && s.is_sink) = true
          · simp only [ackStepsP, hg, hc, Bool.false_eq_true, if_false, hs, if_true]
            exact ih _ hrest hfc
          · simp only [ackStepsP, hg, hc, Bool.false_eq_true, if_false, hs]
            exact ih st hrest hfc

/-- If every job of the fold that carries a given name yields an empty
observation list, every result entry under that name is empty. -/
theorem ackAllP_name_empty (ora : EvalOracle) (jobs : List Job) (fuel : Nat)
    {nm : String} :
    ∀ (l : List Job) (acc out : List (String × JobCk)),
      (∀ k ∈ l, k.job_name = nm → ckStepsOfJob (ackJobP ora jobs fuel k) = []) →
      (∀ jc, (nm, jc) ∈ acc → jc.check_steps = []) →
      ackAllP ora jobs fuel l acc = some out →
      ∀ jc, (nm, jc) ∈ out → jc.check_steps = [] := by
  intro l
  induction l with
  | nil =>
      intro acc out _ hacc h
      have : acc = out := Option.some.inj h
      subst this
      exact hacc
  | cons j0 rest ih =>
      intro acc out hl hacc h
      simp only [ackAllP] at h
      cases hjob : ackJobP ora jobs fuel j0 with
      | none => rw [hjob] at h; cases h
      | some rp =>
          obtain ⟨r, adds⟩ := rp
          rw [hjob] at h
          refine ih _ out (fun k hk => hl k (List.mem_cons_of_mem j0 hk)) ?_ h
          intro jc hjc
          rcases mem_dictUpsert hjc with heq | hmem
          · have hname : nm = j0.job_name := congrArg Prod.fst heq
            have hval : jc = r := congrArg Prod.snd heq
            subst hval
            have hempty := hl j0 (List.mem_cons_self j0 rest) hname.symm
            rw [hjob] at hempty
            simpa [ckStepsOfJob] using hempty
          · exact hacc jc hmem

/-- If every info entry under a name has an empty observation list, the
candidate fold never records that name. -/
theorem pwnCandFold_no_name {nm : String} :
    ∀ (info : List (String × JobCk)) (acc : List (String × PwnCand)),
      (∀ jc, (nm, jc) ∈ info → jc.check_steps = []) →
      dictHas nm (pwnCandFold info acc) = dictHas nm acc := by
  intro info
  induction info with
  | nil => intro acc _; rfl
  | cons e rest ih =>
      intro acc hinfo
      obtain ⟨nm', jc'⟩ := e
      simp only [pwnCandFold]
      by_cases hne : jc'.check_steps.isEmpty = true
      · rw [if_neg (by simp [hne])]
        exact ih acc (fun jc hjc => hinfo jc (List.mem_cons_of_mem _ hjc))
      · rw [if_pos (by simp [hne])]
        have hnm : ¬nm' = nm := by
          intro hcontr
          subst hcontr
          exact hne (by simp [hinfo jc' (List.mem_cons_self _ _)])
        rw [ih _ (fun jc hjc => hinfo jc (List.mem_cons_of_mem _ hjc)),
          dictHas_upsert]
        simp [hnm]

/-- When every job carrying a given name yields an empty observation
list, `check_pwn_request` does not list that name among its candidates
(for either value of the bypass flag). -/
theorem checkPwnRequestP_no_name (ora : EvalOracle) (P : WFParser) (fuel : Nat)
    {nm : String}
    (hall : ∀ k ∈ P.jobs, k.job_name = nm →
      ckStepsOfJob (ackJobP ora P.jobs fuel k) = []) :
    ∀ bypass, pwnHasJob (checkPwnRequestP ora P fuel bypass) nm = false := by
  intro bypass
  unfold checkPwnRequestP
  cases hvt : getVulnerableTriggersOn P.parsed_yml.onBlock none with
  | none => simp [pwnHasJob]
  | some vt =>
      by_cases hempty : (vt.isEmpty && !bypass) = true
      · simp [hempty, pwnHasJob, dictHas]
      · simp only [hempty, Bool.false_eq_true, if_false]
        cases hinfo : analyzeCheckoutsP ora P fuel with
        | none => simp [hinfo, pwnHasJob]
        | some info =>
            have hentries : ∀ jc, (nm, jc) ∈ info → jc.check_steps = [] := by
              unfold analyzeCheckoutsP at hinfo
              cases hj : P.parsed_yml.jobs with
              | absent =>
                  rw [hj] at hinfo
                  have : ([] : List (String × JobCk)) = info := Option.some.inj hinfo
                  subst this
                  intro jc hjc
                  cases hjc
              | null =>
                  rw [hj] at hinfo
                  exact ackAllP_name_empty ora P.jobs fuel P.jobs [] info hall
                    (fun jc h => by cases h) hinfo
              | table kvs =>
                  rw [hj] at hinfo
                  exact ackAllP_name_empty ora P.jobs fuel P.jobs [] info hall
                    (fun jc h => by cases h) hinfo
            have hfold := pwnCandFold_no_name info [] hentries
            by_cases hc : (pwnCandFold info []).isEmpty = true
            · simp [hinfo, hc, pwnHasJob, dictHas]
            · simp only [hinfo, hc, Bool.false_eq_true, if_false]
              simpa [pwnHasJob, dictHas] using hfold

/-- C3 (amended): for a job all of whose checkout steps carry pinned
ref metadata, if the job is gated *at the moment each checkout is
examined* — that is, the job declares truthy `needs` whose
`backtrack_gate` answers `true` (this recomputation overwrites any
gating established earlier in the job), or the job declares no truthy
`needs` and is gated directly (restricted guard, or a gate step seen
before the first checkout) — then the step scan breaks before
appending any observation, the job's `check_steps` list is empty, and
the job does not appear among `check_pwn_request`'s candidates. -/
theorem c3_pinned_gated_amended (ora : EvalOracle) (P : WFParser) (fuel : Nat)
    (j : Job) (hj : j ∈ P.jobs)
    (hnd : (P.jobs.map Job.job_name).Nodup)
    (hpin : ∀ s ∈ j.steps, s.is_checkout = true → pinnedMeta s.metadata = true)
    (hgate : (truthyNeeds j.needs = true ∧
        backtrackGateP ora P.jobs fuel j.needs = some true) ∨
      (truthyNeeds j.needs = false ∧
        (jobRestricted ora j = true ∨ firstCheckoutGated j.steps = true))) :
    ckStepsOfJob (ackJobP ora P.jobs fuel j) = [] ∧
    pwnHasJob (checkPwnRequestP ora P fuel false) j.job_name = false ∧
    pwnHasJob (checkPwnRequestP ora P fuel true) j.job_name = false := by
  have hjob : ckStepsOfJob (ackJobP ora P.jobs fuel j) = [] := by
    have hscan : ∃ st', ackStepsP ora P.jobs fuel j.needs (j.evalPure ora) j.steps
        ⟨[], false, jobRestricted ora j, "UNKNOWN"⟩ = some st' ∧
        st'.details = ([] : List CheckDetail) := by
      rcases hgate with ⟨ht, hb⟩ | ⟨hf, hd⟩
      · exact ackStepsP_pinned_needs ora P.jobs fuel (j.evalPure ora) ht hb j.steps _ hpin
      · exact ackStepsP_pinned_direct ora P.jobs fuel (j.evalPure ora) hf j.steps _ hpin hd
    obtain ⟨st', hst', hdet⟩ := hscan
    unfold ackJobP
    rw [hst']
    simpa [ckStepsOfJob] using hdet
  have hall : ∀ k ∈ P.jobs, k.job_name = j.job_name →
      ckStepsOfJob (ackJobP ora P.jobs fuel k) = [] := by
    intro k hk hkn
    have hkj : k = j := by
      have hinj := List.inj_on_of_nodup_map hnd
      exact hinj hk hj hkn
    subst hkj
    exact hjob
  exact ⟨hjob, checkPwnRequestP_no_name ora P fuel hall false,
    checkPwnRequestP_no_name ora P fuel hall true⟩

/-- A gate step (approval check). -/
def stGateCex : Step := { name := "gate", is_gate := true }

/-- A checkout step pinned to the pull-request head SHA. -/
def stCkPinnedCex : Step :=
  { name := "checkout", is_checkout := true,
    metadata := "$\x7b\x7b github.event.pull_request.head.sha \x7d\x7d" }

/-- Declaration of a job that is gated directly by a gate step, has a
needs edge to an un-gated job, and whose only checkout is pinned. -/
def jdACex : JobData :=
  { needs := some (.str "b"), steps := some [stGateCex, stCkPinnedCex] }

/-- The job built from `jdACex`. -/
def jobACex : Job := mkJob jdACex "a"

/-- An un-gated dependency job. -/
def jobBCex : Job := mkJob {} "b"

/-- The parser holding the two jobs, with a risky trigger. -/
def P3cex : WFParser :=
  { parsed_yml := { onBlock := some (.list [.str "pull_request_target"])
                    jobs := .table [("a", jdACex), ("b", {})] }
    jobs := [jobACex, jobBCex] }

/-- C3 counterexample: job `a` is gated directly (its first step is a
gate, `has_gate` is true), its sole checkout is pinned to the
pull-request head SHA, yet because `a` declares `needs: b` the checkout
branch *overwrites* the gated flag with `backtrack_gate('b') = False`
(line 241) — so the pinned checkout is appended as an observation and
the job appears among `check_pwn_request`'s candidates, where the claim
says it contributes no observation and does not appear. -/
theorem c3_cex_gate_overwritten_by_needs :
    jobACex.has_gate = true ∧
    pinnedMeta stCkPinnedCex.metadata = true ∧
    backtrackGateP oraConst P3cex.jobs 10 jobACex.needs = some false ∧
    (ckStepsOfJob (ackJobP oraConst P3cex.jobs 10 jobACex)).isEmpty = false ∧
    pwnHasJob (checkPwnRequestP oraConst P3cex 10 false) "a" = true := by
  decide

/-- Declaration of a job whose sole step is a pinned checkout and whose
dependency is gated. -/
def jdAW : JobData := { needs := some (.str "b"), steps := some [stCkPinnedCex] }

/-- The job built from `jdAW`. -/
def jobAW : Job := mkJob jdAW "a"

/-- Parser for the witness: `a` needs the gated job `b`. -/
def P3w : WFParser :=
  { parsed_yml := { onBlock := some (.list [.str "pull_request_target"])
                    jobs := .table [("a", jdAW)] }
    jobs := [jobAW, jobGateB] }

/-- C3 witness: the amended theorem applied to a job whose sole step is
a checkout pinned to the pull-request head SHA and whose dependency is
gated — the job yields no observation and is not a candidate. -/
theorem c3_pinned_gated_amended_witness :
    ckStepsOfJob (ackJobP oraConst P3w.jobs 10 jobAW) = [] ∧
    pwnHasJob (checkPwnRequestP oraConst P3w 10 false) jobAW.job_name = false ∧
    pwnHasJob (checkPwnRequestP oraConst P3w 10 true) jobAW.job_name = false :=
  c3_pinned_gated_amended oraConst P3w 10 jobAW
    (List.mem_cons_self _ _) (by decide) (by decide)
    (Or.inl ⟨by decide, by decide⟩)

/-! ## Script-injection analysis (`check_injection`) -/

/-- The inner `check_token` of `check_injection` (lines 356-364): a
token naming an `env.`-variable whose declared value is a literal
without an embedded `$\x7b\x7b` marker (or a number) is dropped; every
other token is kept. -/
def checkToken (token : String) (envT : List (String × EnvVal)) : Bool :=
  if strStarts token "env." then
    match dictGet ((strSplit token '.').getD 1 "") envT with
    | none => true
    | some (.str s) => s ≠ "" && containsSub s "$\x7b\x7b"
    | some (.num _) => false
  else true

/-- One pass of the `env_sources` filter loop (lines 368-371): a source
without an `env` table, or an already-empty token list, leaves the
tokens unchanged. -/
def filterEnvSource (tokens : List String)
    (src : Option (List (String × EnvVal))) : List String :=
  match src with
  | none => tokens
  | some envT =>
      if tokens.isEmpty then tokens
      else tokens.filter (fun t => checkToken t envT)

/-- The surviving tainted tokens of one script step: `filter_tokens`
(abstracted — it lives in the utility module) followed by the three
environment scopes in order. -/
def stepInjTokens (filtT : List String → List String)
    (wfEnv : Option (List (String × EnvVal))) (j : Job) (s : Step) :
    List String :=
  filterEnvSource
    (filterEnvSource (filterEnvSource (filtT s.getTokens) wfEnv) j.job_data.env)
    s.env

/-- One step's entry in the injection result (lines 381-385). -/
structure StepInj where
  vars : List String
  if_checks : Option String
deriving DecidableEq, Repr

/-- One job's entry in the injection result (lines 377-385). -/
structure JobInj where
  if_check : Option String
  steps : List (String × StepInj)
deriving DecidableEq, Repr

/-- Record one offending step into the job's entry, creating the entry
(and capturing the job guard annotation) on first use. -/
def addInjEntry (ora : EvalOracle) (j : Job) (s : Step) (tokens : List String)
    (cur : Option JobInj) : Option JobInj :=
  let base : JobInj :=
    match cur with
    | none => { if_check := j.evalPure ora, steps := [] }
    | some e => e
  some { base with steps :=
    (dictUpsert s.name
      (StepInj.mk tokens.eraseDups
        (if truthyOS (s.evalPure ora) then s.evalPure ora else none))
      base.steps) }

/-- The step loop of `check_injection` for one job (lines 344-385),
pure reading: a gate step breaks; a script step's tokens are filtered;
if tainted tokens remain and the job's truthy `needs` are gated the job
is abandoned (break before recording anything); otherwise the step is
recorded.  The outer `none` propagates a `RecursionError` of
`backtrack_gate`. -/
def injStepsP (ora : EvalOracle) (jobs : List Job) (fuel : Nat)
    (filtT : List String → List String)
    (wfEnv : Option (List (String × EnvVal))) (j : Job) :
    List Step → Option JobInj → Option (Option JobInj)
  | [], cur => some cur
  | s :: rest, cur =>
      if s.is_gate then some cur
      else if s.is_script then
        let tokens := stepInjTokens filtT wfEnv j s
        if !tokens.isEmpty then
          if truthyNeeds j.needs then
            match backtrackGateP ora jobs fuel j.needs with
            | none => none
            | some true => some cur
            | some false =>
                injStepsP ora jobs fuel filtT wfEnv j rest
                  (addInjEntry ora j s tokens cur)
          else
            injStepsP ora jobs fuel filtT wfEnv j rest
              (addInjEntry ora j s tokens cur)
        else injStepsP ora jobs fuel filtT wfEnv j rest cur
      else injStepsP ora jobs fuel filtT wfEnv j rest cur

/-- The job fold of `check_injection`; a job with the same name as an
earlier one extends the existing entry (Python dict semantics). -/
def injAllP (ora : EvalOracle) (jobs : List Job) (fuel : Nat)
    (filtT : List String → List String)
    (wfEnv : Option (List (String × EnvVal))) :
    List Job → List (String × JobInj) → Option (List (String × JobInj))
  | [], acc => some acc
  | j :: rest, acc =>
      match injStepsP ora jobs fuel filtT wfEnv j j.steps (dictGet j.job_name acc) with
      | none => none
      | some none => injAllP ora jobs fuel filtT wfEnv rest acc
      | some (some e) =>
          injAllP ora jobs fuel filtT wfEnv rest (dictUpsert j.job_name e acc)

/-- The injection result: the per-job entries plus the `triggers` key
that Python stores into the same dict when anything was found. -/
structure InjResult where
  entries : List (String × JobInj)
  triggers : List String
deriving DecidableEq, Repr

/-- `WorkflowParser.check_injection` (lines 326-389). -/
def checkInjectionP (ora : EvalOracle) (P : WFParser) (fuel : Nat)
    (filtT : List String → List String) (bypass : Bool) : Option InjResult :=
  match getVulnerableTriggersOn P.parsed_yml.onBlock none with
  | none => none
  | some vt =>
      if vt.isEmpty && !bypass then some ⟨[], []⟩
      else
        match injAllP ora P.jobs fuel filtT P.parsed_yml.env P.jobs [] with
        | none => none
        | some entries =>
            if entries.isEmpty then some ⟨entries, []⟩ else some ⟨entries, vt⟩

/-- Does the injection result name the job among its entries? -/
def injHasJob (r : Option InjResult) (nm : String) : Bool :=
  match r with
  | none => false
  | some res => dictHas nm res.entries

theorem dictGet_none_of_not_has {β : Type} {nm : String} :
    ∀ {d : List (String × β)}, dictHas nm d = false → dictGet nm d = none := by
  intro d
  induction d with
  | nil => intro _; rfl
  | cons kv rest ih =>
      intro h
      obtain ⟨k0, v0⟩ := kv
      simp only [dictHas, List.any_cons, Bool.or_eq_false_iff] at h
      simp only [dictGet]
      rw [if_neg (by simpa using h.1)]
      exact ih (by simpa [dictHas] using h.2)

/-- The step loop of `check_injection` never looks past the first gate
step: processing the full step list and processing its longest
gate-free prefix are the same computation. -/
theorem injStepsP_takeWhile (ora : EvalOracle) (jobs : List Job) (fuel : Nat)
    (filtT : List String → List String)
    (wfEnv : Option (List (String × EnvVal))) (j : Job) :
    ∀ (steps : List Step) (cur : Option JobInj),
      injStepsP ora jobs fuel filtT wfEnv j steps cur =
        injStepsP ora jobs fuel filtT wfEnv j
          (steps.takeWhile (fun s => !s.is_gate)) cur := by
  intro steps
  induction steps with
  | nil => intro cur; rfl
  | cons s rest ih =>
      intro cur
      by_cases hg : s.is_gate = true
      · simp only [injStepsP, hg, if_pos, List.takeWhile_cons, Bool.not_true,
          Bool.false_eq_true, if_false]
      · have hng : (!s.is_gate) = true := by simp [hg]
        simp only [List.takeWhile_cons, hng, if_true]
        simp only [injStepsP, hg, Bool.false_eq_true, if_false]
        by_cases hs : s.is_script = true
        · simp only [hs, if_true]
          by_cases htk : (stepInjTokens filtT wfEnv j s).isEmpty = true
          · simp only [htk, Bool.not_true, Bool.false_eq_true, if_false]
            exact ih cur
          · simp only [htk, Bool.not_false, if_true]
            by_cases hn : truthyNeeds j.needs = true
            · simp only [hn, if_true]
              cases hb : backtrackGateP ora jobs fuel j.needs with
              | none => rfl
              | some b =>
                  cases b with
                  | true => rfl
                  | false => exact ih _
            · simp only [hn, Bool.false_eq_true, if_false]
              exact ih _
        · simp only [hs, Bool.false_eq_true, if_false]
          exact ih cur

/-- When the job's truthy `needs` are gated, the step loop abandons the
job before recording anything. -/
theorem injStepsP_skip_gated (ora : EvalOracle) (jobs : List Job) (fuel : Nat)
    (filtT : List String → List String)
    (wfEnv : Option (List (String × EnvVal))) (j : Job)
    (hn : truthyNeeds j.needs = true)
    (hb : backtrackGateP ora jobs fuel j.needs = some true) :
    ∀ (steps : List Step) (cur : Option JobInj),
      injStepsP ora jobs fuel filtT wfEnv j steps cur = some cur := by
  intro steps
  induction steps with
  | nil => intro cur; rfl
  | cons s rest ih =>
      intro cur
      by_cases hg : s.is_gate = true
      · simp [injStepsP, hg]
      · simp only [injStepsP, hg, Bool.false_eq_true, if_false]
        by_cases hs : s.is_script = true
        · simp only [hs, if_true]
          by_cases htk : (stepInjTokens filtT wfEnv j s).isEmpty = true
          · simp only [htk, Bool.not_true, Bool.false_eq_true, if_false]
            exact ih cur
          · simp only [htk, Bool.not_false, if_true, hn, hb]
        · simp only [hs, Bool.false_eq_true, if_false]
          exact ih cur

/-- Lifting: when every job of a given name is abandoned unchanged, the
fold records no entry under that name. -/
theorem injAllP_no_name (ora : EvalOracle) (jobs : List Job) (fuel : Nat)
    (filtT : List String → List String)
    (wfEnv : Option (List (String × EnvVal))) {nm : String} :
    ∀ (l : List Job) (acc out : List (String × JobInj)),
      (∀ k ∈ l, k.job_name = nm → ∀ cur,
        injStepsP ora jobs fuel filtT wfEnv k k.steps cur = some cur) →
      dictHas nm acc = false →
      injAllP ora jobs fuel filtT wfEnv l acc = some out →
      dictHas nm out = false := by
  intro l
  induction l with
  | nil =>
      intro acc out _ hacc h
      have : acc = out := Option.some.inj h
      subst this
      exact hacc
  | cons k rest ih =>
      intro acc out hl hacc h
      simp only [injAllP] at h
      cases hk : injStepsP ora jobs fuel filtT wfEnv k k.steps (dictGet k.job_name acc) with
      | none => rw [hk] at h; cases h
      | some o =>
          rw [hk] at h
          cases o with
          | none =>
              exact ih acc out (fun k' hk' => hl k' (List.mem_cons_of_mem k hk')) hacc h
          | some e =>
              have hkn : ¬k.job_name = nm := by
                intro hcontr
                have := hl k (List.mem_cons_self k rest) hcontr (dictGet k.job_name acc)
                rw [hk] at this
                have heq := Option.some.inj this
                rw [hcontr, dictGet_none_of_not_has hacc] at heq
                cases heq
              refine ih _ out (fun k' hk' => hl k' (List.mem_cons_of_mem k hk')) ?_ h
              rw [dictHas_upsert]
              simp [hkn, hacc]

/-- C8: in `check_injection`, (a) processing a job's steps is identical
to processing only the prefix before its first gate step — no step at
or after the first gate contributes anything; and (b) when the job's
truthy `needs` dependency set is gated according to `backtrack_gate`,
the job's step loop is abandoned without recording anything, and —
given the pairwise-distinct job names Python's job dict guarantees —
the job's name does not appear among the result's entries, for either
value of the bypass flag. -/
theorem c8_injection_gates (ora : EvalOracle) (P : WFParser) (fuel : Nat)
    (filtT : List String → List String) (j : Job) (hj : j ∈ P.jobs) :
    (∀ cur, injStepsP ora P.jobs fuel filtT P.parsed_yml.env j j.steps cur =
      injStepsP ora P.jobs fuel filtT P.parsed_yml.env j
        (j.steps.takeWhile (fun s => !s.is_gate)) cur) ∧
    (truthyNeeds j.needs = true →
      backtrackGateP ora P.jobs fuel j.needs = some true →
      (∀ cur, injStepsP ora P.jobs fuel filtT P.parsed_yml.env j j.steps cur =
        some cur) ∧
      ((P.jobs.map Job.job_name).Nodup →
        injHasJob (checkInjectionP ora P fuel filtT false) j.job_name = false ∧
        injHasJob (checkInjectionP ora P fuel filtT true) j.job_name = false)) := by
  refine ⟨injStepsP_takeWhile ora P.jobs fuel filtT P.parsed_yml.env j j.steps, ?_⟩
  intro hn hb
  have hskip := injStepsP_skip_gated ora P.jobs fuel filtT P.parsed_yml.env j hn hb j.steps
  refine ⟨hskip, ?_⟩
  intro hnd
  have hall : ∀ k ∈ P.jobs, k.job_name = j.job_name → ∀ cur,
      injStepsP ora P.jobs fuel filtT P.parsed_yml.env k k.steps cur = some cur := by
    intro k hk hkn
    have hkj : k = j := List.inj_on_of_nodup_map hnd hk hj hkn
    subst hkj
    exact hskip
  have hlift : ∀ bypass,
      injHasJob (checkInjectionP ora P fuel filtT bypass) j.job_name = false := by
    intro bypass
    unfold checkInjectionP
    cases hvt : getVulnerableTriggersOn P.parsed_yml.onBlock none with
    | none => simp [injHasJob]
    | some vt =>
        by_cases hempty : (vt.isEmpty && !bypass) = true
        · simp [hempty, injHasJob, dictHas]
        · simp only [hempty, Bool.false_eq_true, if_false]
          cases hout : injAllP ora P.jobs fuel filtT P.parsed_yml.env P.jobs [] with
          | none => simp [injHasJob]
          | some entries =>
              have hno := injAllP_no_name ora P.jobs fuel filtT P.parsed_yml.env
                P.jobs [] entries hall rfl hout
              by_cases he : entries.isEmpty = true
              · simp [he, injHasJob, hno]
              · simp [he, injHasJob, hno]
  exact ⟨hlift false, hlift true⟩

/-- A script step with one adversarial token. -/
def stScriptW : Step :=
  { name := "run", is_script := true,
    tokens := ["github.event.comment.body"] }

/-- Declaration of a job whose script step carries a tainted token and
whose dependency is gated. -/
def jdInjW : JobData := { needs := some (.str "b"), steps := some [stScriptW] }

/-- The job built from `jdInjW`. -/
def jobInjW : Job := mkJob jdInjW "a"

/-- Parser for the C8 witness. -/
def PinjW : WFParser :=
  { parsed_yml := { onBlock := some (.list [.str "issue_comment"])
                    jobs := .table [("a", jdInjW)] }
    jobs := [jobInjW, jobGateB] }

/-- C8 witness: the theorem applied to the concrete parser — the
gate-prefix identity at the empty accumulator, the skip of the
dependency-gated job, and the absence of the job from the result. -/
theorem c8_injection_gates_witness :
    (injStepsP oraConst PinjW.jobs 10 id PinjW.parsed_yml.env jobInjW
        jobInjW.steps none =
      injStepsP oraConst PinjW.jobs 10 id PinjW.parsed_yml.env jobInjW
        (jobInjW.steps.takeWhile (fun s => !s.is_gate)) none) ∧
    injStepsP oraConst PinjW.jobs 10 id PinjW.parsed_yml.env jobInjW
        jobInjW.steps none = some none ∧
    injHasJob (checkInjectionP oraConst PinjW 10 id false) jobInjW.job_name = false := by
  have h := c8_injection_gates oraConst PinjW 10 id jobInjW (List.mem_cons_self _ _)
  have h2 := h.2 (by decide) (by decide)
  exact ⟨h.1 none, h2.1 none, (h2.2 (by decide)).1⟩

/-! ## Self-hosted runner detection (`self_hosted`) -/

/-- `\w` or `-`, the character class of the matrix-key capture group. -/
def isWordCh (c : Char) : Bool :=
  c.isAlphanum || c = '_' || c = '-'

/-- Python regex `\s`. -/
def isSpaceCh (c : Char) : Bool :=
  c = ' ' || c = '\t' || c = '\n' || c = '\r' || c = '\x0b' || c = '\x0c'

/-- Match `MATRIX_KEY_EXTRACTION_REGEX`
(`\x7b\x7b\s*matrix\.([\w-]+)\s*\x7d\x7d`) at the head of the char
list, returning the captured key.  The greedy `[\w-]+` never needs
backtracking against the following `\s*\x7d\x7d`, so maximal-munch is
exact. -/
def matchMatrixAt : List Char → Option String
  | '\x7b' :: '\x7b' :: rest =>
      let r1 := rest.dropWhile isSpaceCh
      if listStarts "matrix.".toList r1 then
        let r2 := r1.drop 7
        let key := r2.takeWhile isWordCh
        if key.isEmpty then none
        else
          match (r2.dropWhile isWordCh).dropWhile isSpaceCh with
          | '\x7d' :: '\x7d' :: _ => some (String.mk key)
          | _ => none
      else none
  | _ => none

/-- `MATRIX_KEY_EXTRACTION_REGEX.search(label)` with its first capture
group: leftmost match wins. -/
def findMatrixKeyAux : List Char → Option String
  | [] => none
  | c :: cs =>
      match matchMatrixAt (c :: cs) with
      | some k => some k
      | none => findMatrixKeyAux cs

/-- The matrix-variable placeholder search over a runner label. -/
def findMatrixKey (s : String) : Option String :=
  findMatrixKeyAux s.toList

/-- Work items of the mutually recursive runner checks
(`_check_single_runner` / `_check_matrix_runner`, lines 426-461). -/
inductive RunTask
  | single (label : String)
  | matrix (label : String)
  | anyOf (labels : List String)

/-- The runner checks, fueled (a matrix whose candidate labels again
contain matrix placeholders recurses; `none` models the resulting
`RecursionError`).  `hosted` is the configured
`GITHUB_HOSTED_LABELS` allow-list and `sku` abstracts
`LARGER_RUNNER_REGEX_LIST.match` — both external configuration.
Line 460's `os_list.extend` is rendered here by its single-invocation
value `os_list ++ ...`; in Python the extend is an in-place mutation
of the aliased `strategy.matrix[key]` list — the stateful semantics is
`runChkSt` (used by claim C9), and on the C4 inputs the two readings
agree (examples after `selfHostedSt`). -/
def runChk (hosted : List String) (sku : String → Bool) (jobs : List Job) :
    Nat → RunTask → Option Bool
  | 0, _ => none
  | fuel+1, .single label =>
      if containsSub label "self-hosted" then some true
      else
        match findMatrixKey label with
        | some _ => runChk hosted sku jobs fuel (.matrix label)
        | none => some (!(label ∈ hosted : Bool) && !sku label)
  | fuel+1, .matrix label =>
      match findMatrixKey label with
      | none => some false
      | some matrix_key =>
          match jobs.find? (fun j => j.job_name = headSplit label '.') with
          | none => some false
          | some jd =>
              match jd.job_data.strategy with
              | none => some false
              | some strat =>
                  match strat.matrix with
                  | none => some false
                  | some m =>
                      let os_list := (dictGet matrix_key m.entries).getD []
                      let os_list :=
                        match m.include_ with
                        | none => os_list
                        | some incl =>
                            os_list ++ incl.filterMap (fun inc => dictGet matrix_key inc)
                      runChk hosted sku jobs fuel (.anyOf os_list)
  | _+1, .anyOf [] => some false
  | fuel+1, .anyOf (l :: rest) =>
      match runChk hosted sku jobs fuel (.single l) with
      | none => none
      | some true => some true
      | some false => runChk hosted sku jobs fuel (.anyOf rest)

/-- `WorkflowParser._is_self_hosted` (lines 411-424). -/
def isSelfHostedRO (hosted : List String) (sku : String → Bool) (jobs : List Job)
    (fuel : Nat) : RunsOn → Option Bool
  | .str s => runChk hosted sku jobs fuel (.single s)
  | .list xs => runChk hosted sku jobs fuel (.anyOf xs)

/-- The per-job fold of `self_hosted` (lines 403-407). -/
def shGo (hosted : List String) (sku : String → Bool) (jobs : List Job)
    (fuel : Nat) : List (String × JobData) → Option (List (String × JobData))
  | [] => some []
  | (nm, jd) :: rest =>
      match jd.runs_on with
      | none => shGo hosted sku jobs fuel rest
      | some ro =>
          match isSelfHostedRO hosted sku jobs fuel ro with
          | none => none
          | some true =>
              match shGo hosted sku jobs fuel rest with
              | none => none
              | some r => some ((nm, jd) :: r)
          | some false => shGo hosted sku jobs fuel rest

/-- `WorkflowParser.self_hosted` (lines 391-409): the list of
`(jobname, job_details)` pairs using self-hosted runners; `[]` when the
document or its jobs section is missing or empty. -/
def selfHostedP (hosted : List String) (sku : String → Bool) (P : WFParser)
    (fuel : Nat) : Option (List (String × JobData)) :=
  match P.parsed_yml.jobs with
  | .table kvs =>
      if kvs.isEmpty then some []
      else shGo hosted sku P.jobs fuel kvs
  | _ => some []

/-- The job declaration of the claim: `runs-on: $\x7b\x7b matrix.os \x7d\x7d`
with `strategy.matrix.os: [ubuntu-latest, self-hosted-builder]`. -/
def jdMatrix : JobData :=
  { runs_on := some (.str "$\x7b\x7b matrix.os \x7d\x7d")
    strategy := some { matrix := some { entries :=
      [("os", ["ubuntu-latest", "self-hosted-builder"])] } } }

/-- Parser holding the matrix job of the claim. -/
def P4 : WFParser :=
  { parsed_yml := { jobs := .table [("build", jdMatrix)] }
    jobs := [mkJob jdMatrix "build"] }

/-- C4: the matrix placeholder is recognized and the key `os` is
extracted, but `_check_matrix_runner` (line 454) looks up a job whose
*name* equals the label's text before the first dot —
`"$\x7b\x7b matrix"` — which matches no job, so the matrix is never
resolved, `_check_matrix_runner` returns `False`, and the claim's
example job with a `self-hosted-builder` candidate is *not* reported
self-hosted. -/
theorem c4_matrix_resolution_bug :
    findMatrixKey "$\x7b\x7b matrix.os \x7d\x7d" = some "os" ∧
    headSplit "$\x7b\x7b matrix.os \x7d\x7d" '.' = "$\x7b\x7b matrix" ∧
    (P4.jobs.find? (fun j =>
      j.job_name = headSplit "$\x7b\x7b matrix.os \x7d\x7d" '.')) = none ∧
    selfHostedP ["ubuntu-latest"] (fun _ => false) P4 10 = some [] := by
  refine ⟨rfl, rfl, rfl, rfl⟩

/-- Control check for the embedding: if a job were literally named
`"$\x7b\x7b matrix"` — the only way line 454's lookup can succeed —
the matrix candidates *are* resolved and the `self-hosted-builder`
candidate is reported, confirming that only the job lookup (not the
candidate testing) blocks the claim. -/
def P4control : WFParser :=
  { parsed_yml := { jobs := .table [("$\x7b\x7b matrix", jdMatrix)] }
    jobs := [mkJob jdMatrix "$\x7b\x7b matrix"] }

example : selfHostedP ["ubuntu-latest"] (fun _ => false) P4control 10 =
    some [("$\x7b\x7b matrix", jdMatrix)] := by rfl

/-! ## C5 / C10: guard evaluation degradation and memoization -/

theorem listStarts_append (p l : List Char) : listStarts p (p ++ l) = true := by
  induction p with
  | nil => rfl
  | cons c cs ih => simp [listStarts, ih]

theorem containsSub_go_of_starts {p l : List Char} (h : listStarts p l = true) :
    ∀ pre : List Char, containsSub.go p (pre ++ l) = true := by
  intro pre
  induction pre with
  | nil =>
      cases l with
      | nil => simpa [containsSub.go] using h
      | cons c cs => simp [containsSub.go, h]
  | cons c cs ih =>
      simp [containsSub.go, ih]

/-- The raw text survives inside the `ERROR:` annotation. -/
theorem containsSub_error_annot (c sfx : String) :
    containsSub ("ERROR: " ++ c ++ sfx) c = true := by
  have hl : ("ERROR: " ++ c ++ sfx).toList =
      ['E', 'R', 'R', 'O', 'R', ':', ' '] ++ (c.toList ++ sfx.toList) := rfl
  unfold containsSub
  rw [hl]
  exact containsSub_go_of_starts (listStarts_append c.toList sfx.toList) _

/-- C5: for a `Job` (or `Step`) whose raw `if`-condition is non-empty,
not yet evaluated, and on which the expression parser/evaluator fails
with any of the four caught exception kinds, `evaluateIf` returns
normally with the degraded annotation: it is the `ERROR:`-tagged
string, the raw condition text is retained unmodified inside it, and it
asserts neither the `EVALUATED` nor the `RESTRICTED` verdict.  (The
embedding is total: the four exception kinds are caught at lines
100-107 of job.py and never escape the method.) -/
theorem c5_guard_error_degrades (ora : EvalOracle) (j : Job) (s : Step)
    (c cs : String) (e es : ExcKind)
    (hjc : j.if_condition = some c) (hc : c ≠ "") (hje : j.evaluated = false)
    (hex : ora c = .exc e)
    (hsc : s.if_condition = some cs) (hcs : cs ≠ "") (hse : s.evaluated = false)
    (hsex : ora cs = .exc es) :
    ((j.evaluateIf ora).1 = some (annotStr ora c) ∧
      strStarts (annotStr ora c) "ERROR: " = true ∧
      containsSub (annotStr ora c) c = true ∧
      strStarts (annotStr ora c) "EVALUATED" = false ∧
      strStarts (annotStr ora c) "RESTRICTED" = false) ∧
    ((s.evaluateIf ora).1 = some (annotStr ora cs) ∧
      strStarts (annotStr ora cs) "ERROR: " = true ∧
      containsSub (annotStr ora cs) cs = true ∧
      strStarts (annotStr ora cs) "EVALUATED" = false ∧
      strStarts (annotStr ora cs) "RESTRICTED" = false) := by
  constructor
  · refine ⟨?_, ?_, ?_, ?_, ?_⟩
    · simp [Job.evaluateIf, hjc, hc, hje]
    · cases e <;> simp only [annotStr, hex] <;> rfl
    · cases e <;> simp only [annotStr, hex] <;> exact containsSub_error_annot c _
    · cases e <;> simp only [annotStr, hex] <;> rfl
    · cases e <;> simp only [annotStr, hex] <;> rfl
  · refine ⟨?_, ?_, ?_, ?_, ?_⟩
    · simp [Step.evaluateIf, hsc, hcs, hse]
    · cases es <;> simp only [annotStr, hsex] <;> rfl
    · cases es <;> simp only [annotStr, hsex] <;> exact containsSub_error_annot cs _
    · cases es <;> simp only [annotStr, hsex] <;> rfl
    · cases es <;> simp only [annotStr, hsex] <;> rfl

/-- The always-failing oracle used by the C5 witness. -/
def oraSynErr : EvalOracle := fun _ => .exc .syntaxError

/-- A job with an unparseable guard expression. -/
def jobBadIf : Job := mkJob { if_ := some "bad((" } "j"

/-- A step with an unparseable guard expression. -/
def stepBadIf : Step := { name := "s", if_condition := some "also bad((" }

/-- C5 witness: the theorem applied to a concrete job and step whose
guards fail to parse. -/
theorem c5_guard_error_degrades_witness :
    ((jobBadIf.evaluateIf oraSynErr).1 = some (annotStr oraSynErr "bad((") ∧
      strStarts (annotStr oraSynErr "bad((") "ERROR: " = true ∧
      containsSub (annotStr oraSynErr "bad((") "bad((" = true ∧
      strStarts (annotStr oraSynErr "bad((") "EVALUATED" = false ∧
      strStarts (annotStr oraSynErr "bad((") "RESTRICTED" = false) ∧
    ((stepBadIf.evaluateIf oraSynErr).1 = some (annotStr oraSynErr "also bad((") ∧
      strStarts (annotStr oraSynErr "also bad((") "ERROR: " = true ∧
      containsSub (annotStr oraSynErr "also bad((") "also bad((" = true ∧
      strStarts (annotStr oraSynErr "also bad((") "EVALUATED" = false ∧
      strStarts (annotStr oraSynErr "also bad((") "RESTRICTED" = false) :=
  c5_guard_error_degrades oraSynErr jobBadIf stepBadIf "bad((" "also bad(("
    .syntaxError .syntaxError rfl (by decide) rfl rfl
    rfl (by decide) rfl rfl

/-- C10: calling the guard-evaluation accessor a second time on the
same `Job` (or `Step`) instance returns the identical annotation and
the identical state, and parsing/evaluation is performed at most once —
after the first call the result no longer depends on the
parser/evaluator at all (any oracle yields the same answer on the
memoized instance). -/
theorem c10_guard_memoized_once (ora : EvalOracle) (j : Job) (s : Step) :
    ((j.evaluateIf ora).2.evaluateIf ora =
        ((j.evaluateIf ora).1, (j.evaluateIf ora).2) ∧
      ∀ ora' : EvalOracle, (j.evaluateIf ora).2.evaluateIf ora' =
        ((j.evaluateIf ora).1, (j.evaluateIf ora).2)) ∧
    ((s.evaluateIf ora).2.evaluateIf ora =
        ((s.evaluateIf ora).1, (s.evaluateIf ora).2) ∧
      ∀ ora' : EvalOracle, (s.evaluateIf ora).2.evaluateIf ora' =
        ((s.evaluateIf ora).1, (s.evaluateIf ora).2)) := by
  have hj1 : (j.evaluateIf ora).1 = j.evalPure ora := by rw [Job.evaluateIf_eq]
  have hj2 : (j.evaluateIf ora).2 = j.memoFix ora := by rw [Job.evaluateIf_eq]
  have hs1 : (s.evaluateIf ora).1 = s.evalPure ora := by rw [stepEvaluateIf_eq]
  have hs2 : (s.evaluateIf ora).2 = s.memoFix ora := by rw [stepEvaluateIf_eq]
  refine ⟨⟨?_, fun ora' => ?_⟩, ⟨?_, fun ora' => ?_⟩⟩
  · rw [hj1, hj2]; exact Job.evaluateIf_memoFix ora ora j
  · rw [hj1, hj2]; exact Job.evaluateIf_memoFix ora ora' j
  · rw [hs1, hs2]; exact stepEvaluateIf_memoFix ora ora s
  · rw [hs1, hs2]; exact stepEvaluateIf_memoFix ora ora' s

/-! ## Stateful embedding: memoization order theory

The analyses mutate `Job`/`Step` objects only through the
evaluate-and-memoize routine.  `StepML`/`JobML` relate a pre-state
object to any post-state version of it (unchanged, or with its guard —
and for jobs, some of its steps' guards — memoized). -/

theorem stepEvalPure_memoFix (ora : EvalOracle) (s : Step) :
    (s.memoFix ora).evalPure ora = s.evalPure ora := by
  have h := stepEvaluateIf_memoFix ora ora s
  rw [stepEvaluateIf_eq] at h
  exact congrArg Prod.fst h

theorem stepMemoFix_memoFix (ora : EvalOracle) (s : Step) :
    (s.memoFix ora).memoFix ora = s.memoFix ora := by
  have h := stepEvaluateIf_memoFix ora ora s
  rw [stepEvaluateIf_eq] at h
  exact congrArg Prod.snd h

theorem Job.evalPure_memoFix (ora : EvalOracle) (j : Job) :
    (j.memoFix ora).evalPure ora = j.evalPure ora := by
  have h := Job.evaluateIf_memoFix ora ora j
  rw [Job.evaluateIf_eq] at h
  exact congrArg Prod.fst h

theorem Job.memoFix_memoFix (ora : EvalOracle) (j : Job) :
    (j.memoFix ora).memoFix ora = j.memoFix ora := by
  have h := Job.evaluateIf_memoFix ora ora j
  rw [Job.evaluateIf_eq] at h
  exact congrArg Prod.snd h

/-- `memoFix` touches only the two memo fields of a job. -/
theorem Job.memoFix_fields (ora : EvalOracle) (j : Job) :
    (j.memoFix ora).job_name = j.job_name ∧
    (j.memoFix ora).job_data = j.job_data ∧
    (j.memoFix ora).needs = j.needs ∧
    (j.memoFix ora).steps = j.steps ∧
    (j.memoFix ora).env = j.env ∧
    (j.memoFix ora).permissions = j.permissions ∧
    (j.memoFix ora).deployments = j.deployments ∧
    (j.memoFix ora).uses = j.uses ∧
    (j.memoFix ora).caller = j.caller ∧
    (j.memoFix ora).external_caller = j.external_caller ∧
    (j.memoFix ora).has_gate = j.has_gate := by
  unfold Job.memoFix
  cases h : j.if_condition with
  | none => exact ⟨rfl, rfl, rfl, rfl, rfl, rfl, rfl, rfl, rfl, rfl, rfl⟩
  | some c =>
      by_cases hc : ¬c = "" ∧ j.evaluated = false
      · simp [hc]
      · simp [hc]

/-- `memoFix` touches only the two memo fields of a step. -/
theorem stepMemoFix_fields (ora : EvalOracle) (s : Step) :
    (s.memoFix ora).name = s.name ∧
    (s.memoFix ora).type_ = s.type_ ∧
    (s.memoFix ora).uses = s.uses ∧
    (s.memoFix ora).is_gate = s.is_gate ∧
    (s.memoFix ora).is_checkout = s.is_checkout ∧
    (s.memoFix ora).is_script = s.is_script ∧
    (s.memoFix ora).is_sink = s.is_sink ∧
    (s.memoFix ora).metadata = s.metadata ∧
    (s.memoFix ora).tokens = s.tokens ∧
    (s.memoFix ora).env = s.env := by
  unfold Step.memoFix
  cases h : s.if_condition with
  | none => exact ⟨rfl, rfl, rfl, rfl, rfl, rfl, rfl, rfl, rfl, rfl⟩
  | some c =>
      by_cases hc : ¬c = "" ∧ s.evaluated = false
      · simp [hc]
      · simp [hc]

/-- Relation between a step and any later memo-state of it. -/
def StepML (ora : EvalOracle) (s s' : Step) : Prop :=
  s' = s ∨ s' = s.memoFix ora

/-- Relation between a job and any later memo-state of it: the job
guard possibly memoized, and each step pointwise possibly memoized. -/
def JobML (ora : EvalOracle) (j j' : Job) : Prop :=
  ∃ steps' : List Step,
    List.Forall₂ (StepML ora) j.steps steps' ∧
    (j' = { j with steps := steps' } ∨ j' = { j.memoFix ora with steps := steps' })

theorem stepML_refl (ora : EvalOracle) (s : Step) : StepML ora s s := Or.inl rfl

theorem stepML_trans {ora : EvalOracle} {a b c : Step}
    (h1 : StepML ora a b) (h2 : StepML ora b c) : StepML ora a c := by
  rcases h1 with rfl | rfl
  · exact h2
  · rcases h2 with rfl | rfl
    · exact Or.inr rfl
    · rw [stepMemoFix_memoFix]
      exact Or.inr rfl

theorem JobML.refl (ora : EvalOracle) (j : Job) : JobML ora j j :=
  ⟨j.steps, List.forall₂_same.mpr (fun s _ => stepML_refl ora s), Or.inl rfl⟩

theorem forall2_stepML_trans {ora : EvalOracle} :
    ∀ {a b c : List Step}, List.Forall₂ (StepML ora) a b →
      List.Forall₂ (StepML ora) b c → List.Forall₂ (StepML ora) a c := by
  intro a
  induction a with
  | nil =>
      intro b c h1 h2
      cases h1
      cases h2
      exact List.Forall₂.nil
  | cons x xs ih =>
      intro b c h1 h2
      cases h1 with
      | cons hx hxs =>
          cases h2 with
          | cons hy hys =>
              exact List.Forall₂.cons (stepML_trans hx hy) (ih hxs hys)

theorem Job.memoFix_setSteps (ora : EvalOracle) (a : Job) (s1 : List Step) :
    Job.memoFix ora { a with steps := s1 } = { a.memoFix ora with steps := s1 } := by
  unfold Job.memoFix
  cases h : a.if_condition with
  | none => simp [h]
  | some c =>
      by_cases hc : ¬c = "" ∧ a.evaluated = false <;> simp [h, hc]

theorem JobML.trans {ora : EvalOracle} {a b c : Job}
    (h1 : JobML ora a b) (h2 : JobML ora b c) : JobML ora a c := by
  obtain ⟨s1, hs1, hb⟩ := h1
  obtain ⟨s2, hs2, hc⟩ := h2
  have hbsteps : b.steps = s1 := by
    rcases hb with rfl | rfl
    · rfl
    · rfl
  rw [hbsteps] at hs2
  refine ⟨s2, forall2_stepML_trans hs1 hs2, ?_⟩
  rcases hb with rfl | rfl
  · rcases hc with rfl | rfl
    · exact Or.inl rfl
    · right
      rw [Job.memoFix_setSteps]
  · rcases hc with rfl | rfl
    · exact Or.inr rfl
    · right
      rw [Job.memoFix_setSteps, Job.memoFix_memoFix]

theorem stepML_fields {ora : EvalOracle} {s s' : Step} (h : StepML ora s s') :
    s'.name = s.name ∧ s'.is_gate = s.is_gate ∧ s'.is_checkout = s.is_checkout ∧
    s'.is_script = s.is_script ∧ s'.is_sink = s.is_sink ∧
    s'.metadata = s.metadata ∧ s'.tokens = s.tokens ∧ s'.env = s.env ∧
    s'.evalPure ora = s.evalPure ora := by
  rcases h with rfl | rfl
  · exact ⟨rfl, rfl, rfl, rfl, rfl, rfl, rfl, rfl, rfl⟩
  · obtain ⟨h1, _, _, h4, h5, h6, h7, h8, h9, h10⟩ := stepMemoFix_fields ora s
    exact ⟨h1, h4, h5, h6, h7, h8, h9, h10, stepEvalPure_memoFix ora s⟩

/-- A memo-descendant job agrees with the original on every field the
analyses read. -/
theorem JobML.fields {ora : EvalOracle} {j j' : Job} (h : JobML ora j j') :
    j'.job_name = j.job_name ∧ j'.job_data = j.job_data ∧ j'.needs = j.needs ∧
    j'.env = j.env ∧ j'.deployments = j.deployments ∧ j'.uses = j.uses ∧
    j'.caller = j.caller ∧ j'.external_caller = j.external_caller ∧
    j'.has_gate = j.has_gate ∧ j'.evalPure ora = j.evalPure ora ∧
    List.Forall₂ (StepML ora) j.steps j'.steps := by
  obtain ⟨steps', hsteps, hj⟩ := h
  have hpure : ∀ x : Job, Job.evalPure ora { x with steps := steps' } = x.evalPure ora := by
    intro x
    unfold Job.evalPure
    rfl
  rcases hj with rfl | rfl
  · exact ⟨rfl, rfl, rfl, rfl, rfl, rfl, rfl, rfl, rfl, hpure j, hsteps⟩
  · obtain ⟨h1, h2, h3, _, h5, h6, h7, h8, h9, h10, h11⟩ := Job.memoFix_fields ora j
    refine ⟨h1, h2, h3, h5, h7, h8, h9, h10, h11, ?_, hsteps⟩
    rw [hpure (j.memoFix ora)]
    exact Job.evalPure_memoFix ora j

/-- `gated()` is invariant across memoization. -/
theorem JobML.gatedP_eq {ora : EvalOracle} {j j' : Job} (h : JobML ora j j') :
    j'.gatedP ora = j.gatedP ora := by
  obtain ⟨_, _, _, _, _, _, _, _, h9, h10, _⟩ := h.fields
  unfold Job.gatedP
  rw [h9, h10]

theorem JobML.jobRestricted_eq {ora : EvalOracle} {j j' : Job} (h : JobML ora j j') :
    jobRestricted ora j' = jobRestricted ora j := by
  obtain ⟨_, _, _, _, _, _, _, _, _, h10, _⟩ := h.fields
  unfold jobRestricted
  rw [h10]

theorem JobML.ofMemoFix (ora : EvalOracle) (j : Job) : JobML ora j (j.memoFix ora) := by
  refine ⟨j.steps, List.forall₂_same.mpr (fun s _ => stepML_refl ora s), Or.inr ?_⟩
  obtain ⟨_, _, _, h4, _⟩ := Job.memoFix_fields ora j
  conv_rhs => rw [← h4]

/-- `Job.gated()` with its mutation (job.py line 116): `has_gate`
short-circuits; otherwise `evaluateIf` is called twice, the first call
memoizing. -/
def Job.gatedSt (ora : EvalOracle) (j : Job) : Bool × Job :=
  if j.has_gate then (true, j)
  else
    let r1 := j.evaluateIf ora
    if truthyOS r1.1 then
      let r2 := r1.2.evaluateIf ora
      (startsWithOS "RESTRICTED" r2.1, r2.2)
    else (false, r1.2)

theorem Job.gatedSt_eq (ora : EvalOracle) (j : Job) :
    j.gatedSt ora = (j.gatedP ora, if j.has_gate then j else j.memoFix ora) := by
  have h1 : j.evaluateIf ora = (j.evalPure ora, j.memoFix ora) := Job.evaluateIf_eq ora j
  have h2 : (j.memoFix ora).evaluateIf ora = (j.evalPure ora, j.memoFix ora) :=
    Job.evaluateIf_memoFix ora ora j
  unfold Job.gatedSt Job.gatedP
  by_cases hg : j.has_gate = true
  · simp [hg]
  · by_cases ht : truthyOS (j.evalPure ora) = true
    · simp [hg, h1, h2, ht]
    · simp [hg, h1, h2, ht]

theorem Job.gatedSt_ml (ora : EvalOracle) (j : Job) :
    JobML ora j (j.gatedSt ora).2 := by
  rw [Job.gatedSt_eq]
  by_cases hg : j.has_gate = true
  · simp only [hg, if_true]
    exact JobML.refl ora j
  · simp only [hg, Bool.false_eq_true, if_false]
    exact JobML.ofMemoFix ora j

theorem forall2_jobML_refl (ora : EvalOracle) (l : List Job) :
    List.Forall₂ (JobML ora) l l :=
  List.forall₂_same.mpr (fun j _ => JobML.refl ora j)

theorem forall2_jobML_trans {ora : EvalOracle} :
    ∀ {a b c : List Job}, List.Forall₂ (JobML ora) a b →
      List.Forall₂ (JobML ora) b c → List.Forall₂ (JobML ora) a c := by
  intro a
  induction a with
  | nil =>
      intro b c h1 h2
      cases h1
      cases h2
      exact List.Forall₂.nil
  | cons x xs ih =>
      intro b c h1 h2
      cases h1 with
      | cons hx hxs =>
          cases h2 with
          | cons hy hys => exact List.Forall₂.cons (hx.trans hy) (ih hxs hys)

theorem forall2_jobML_append {ora : EvalOracle} :
    ∀ {a b : List Job}, List.Forall₂ (JobML ora) a b →
      ∀ {c d : List Job}, List.Forall₂ (JobML ora) c d →
      List.Forall₂ (JobML ora) (a ++ c) (b ++ d) := by
  intro a b h1
  induction h1 with
  | nil => intro c d h2; exact h2
  | cons hx _ ih => intro c d h2; exact List.Forall₂.cons hx (ih h2)

theorem forall2_jobML_update (ora : EvalOracle) (A B : List Job) {j j1 : Job}
    (h : JobML ora j j1) :
    List.Forall₂ (JobML ora) (A ++ j :: B) (A ++ j1 :: B) :=
  forall2_jobML_append (forall2_jobML_refl ora A)
    (List.Forall₂.cons h (forall2_jobML_refl ora B))

/-- Work items of the stateful `backtrack_gate` interpreter, carrying
the evolving job list (mutated through `gated()` memoization). -/
inductive BtTask
  | needs (jobs : List Job) (n : Needs)
  | scan (name : String) (acc : List Job) (suffix : List Job)
  | anyL (jobs : List Job) (xs : List String)

/-- The full job-list state a task represents. -/
def btState : BtTask → List Job
  | .needs jobs _ => jobs
  | .scan _ acc suffix => acc.reverse ++ suffix
  | .anyL jobs _ => jobs

/-- Stateful interpreter for `backtrack_gate`: identical control flow
to `btRunP`, but `gated()` memoizes the guard evaluation into the job
list, and recursive calls observe the mutations. -/
def btRun (ora : EvalOracle) : Nat → BtTask → Option (Bool × List Job)
  | 0, _ => none
  | fuel+1, .needs jobs n =>
      match n with
      | .list xs => btRun ora fuel (.anyL jobs xs)
      | .str s => btRun ora fuel (.scan s [] jobs)
  | _+1, .anyL jobs [] => some (false, jobs)
  | fuel+1, .anyL jobs (x :: xs) =>
      match btRun ora fuel (.scan x [] jobs) with
      | none => none
      | some (true, jobs1) => some (true, jobs1)
      | some (false, jobs1) => btRun ora fuel (.anyL jobs1 xs)
  | _+1, .scan _ acc [] => some (false, acc.reverse)
  | fuel+1, .scan name acc (j :: rest) =>
      if j.job_name = name then
        if (j.gatedSt ora).1 then
          some (true, acc.reverse ++ (j.gatedSt ora).2 :: rest)
        else if truthyNeeds (j.gatedSt ora).2.needs then
          btRun ora fuel
            (.needs (acc.reverse ++ (j.gatedSt ora).2 :: rest) (j.gatedSt ora).2.needs)
        else btRun ora fuel (.scan name ((j.gatedSt ora).2 :: acc) rest)
      else btRun ora fuel (.scan name (j :: acc) rest)

/-- `WorkflowParser.backtrack_gate`, stateful. -/
def backtrackGateSt (ora : EvalOracle) (fuel : Nat) (jobs : List Job)
    (n : Needs) : Option (Bool × List Job) :=
  btRun ora fuel (.needs jobs n)

/-- Relation between a stateful work item and a pure work item over the
original (pre-analysis) job list `jp`. -/
def BtRel (ora : EvalOracle) (jp : List Job) : BtTask → BtTaskP → Prop
  | .needs jobs n, .needs np => n = np ∧ List.Forall₂ (JobML ora) jp jobs
  | .scan name acc suffix, .scan nameP suffixP =>
      name = nameP ∧ List.Forall₂ (JobML ora) suffixP suffix ∧
      List.Forall₂ (JobML ora) jp (acc.reverse ++ suffix)
  | .anyL jobs xs, .anyL xsP => xs = xsP ∧ List.Forall₂ (JobML ora) jp jobs
  | _, _ => False

/-- Job-level memoization-only descendant: the job is unchanged or has
had exactly its guard memoized (steps untouched). -/
def JobMF (ora : EvalOracle) (j j' : Job) : Prop :=
  j' = j ∨ j' = j.memoFix ora

/-- Step-level memoization-only descendant. -/
def StepMF (ora : EvalOracle) (s s' : Step) : Prop :=
  s' = s ∨ s' = s.memoFix ora

theorem jobMF_refl (ora : EvalOracle) (j : Job) : JobMF ora j j := Or.inl rfl

theorem stepMF_refl (ora : EvalOracle) (s : Step) : StepMF ora s s := Or.inl rfl

theorem jobMF_trans {ora : EvalOracle} {a b c : Job}
    (h1 : JobMF ora a b) (h2 : JobMF ora b c) : JobMF ora a c := by
  rcases h1 with rfl | rfl
  · exact h2
  · rcases h2 with rfl | rfl
    · exact Or.inr rfl
    · rw [Job.memoFix_memoFix]
      exact Or.inr rfl

theorem stepMF_toML {ora : EvalOracle} {a b : Step} (h : StepMF ora a b) :
    StepML ora a b := h

theorem jobMF_toML {ora : EvalOracle} {a b : Job} (h : JobMF ora a b) :
    JobML ora a b := by
  rcases h with rfl | rfl
  · exact JobML.refl ora _
  · exact JobML.ofMemoFix ora _

theorem JobMF.steps_eq {ora : EvalOracle} {a b : Job} (h : JobMF ora a b) :
    b.steps = a.steps := by
  rcases h with rfl | rfl
  · rfl
  · exact (Job.memoFix_fields ora a).2.2.2.1

theorem forall2_jobMF_refl (ora : EvalOracle) (l : List Job) :
    List.Forall₂ (JobMF ora) l l :=
  List.forall₂_same.mpr (fun j _ => jobMF_refl ora j)

theorem forall2_stepMF_refl (ora : EvalOracle) (l : List Step) :
    List.Forall₂ (StepMF ora) l l :=
  List.forall₂_same.mpr (fun s _ => stepMF_refl ora s)

theorem forall2_jobMF_trans {ora : EvalOracle} :
    ∀ {a b c : List Job}, List.Forall₂ (JobMF ora) a b →
      List.Forall₂ (JobMF ora) b c → List.Forall₂ (JobMF ora) a c := by
  intro a
  induction a with
  | nil =>
      intro b c h1 h2
      cases h1
      cases h2
      exact List.Forall₂.nil
  | cons x xs ih =>
      intro b c h1 h2
      cases h1 with
      | cons hx hxs =>
          cases h2 with
          | cons hy hys => exact List.Forall₂.cons (jobMF_trans hx hy) (ih hxs hys)

theorem forall2_jobMF_toML {ora : EvalOracle} :
    ∀ {a b : List Job}, List.Forall₂ (JobMF ora) a b →
      List.Forall₂ (JobML ora) a b := by
  intro a
  induction a with
  | nil => intro b h; cases h; exact List.Forall₂.nil
  | cons x xs ih =>
      intro b h
      cases h with
      | cons hx hxs => exact List.Forall₂.cons (jobMF_toML hx) (ih hxs)

theorem forall2_stepMF_toML {ora : EvalOracle} :
    ∀ {a b : List Step}, List.Forall₂ (StepMF ora) a b →
      List.Forall₂ (StepML ora) a b := by
  intro a
  induction a with
  | nil => intro b h; cases h; exact List.Forall₂.nil
  | cons x xs ih =>
      intro b h
      cases h with
      | cons hx hxs => exact List.Forall₂.cons (stepMF_toML hx) (ih hxs)

theorem forall2_jobMF_append {ora : EvalOracle} :
    ∀ {a b : List Job}, List.Forall₂ (JobMF ora) a b →
      ∀ {c d : List Job}, List.Forall₂ (JobMF ora) c d →
      List.Forall₂ (JobMF ora) (a ++ c) (b ++ d) := by
  intro a b h1
  induction h1 with
  | nil => intro c d h2; exact h2
  | cons hx _ ih => intro c d h2; exact List.Forall₂.cons hx (ih h2)

theorem forall2_jobMF_update (ora : EvalOracle) (A B : List Job) {j j1 : Job}
    (h : JobMF ora j j1) :
    List.Forall₂ (JobMF ora) (A ++ j :: B) (A ++ j1 :: B) :=
  forall2_jobMF_append (forall2_jobMF_refl ora A)
    (List.Forall₂.cons h (forall2_jobMF_refl ora B))

theorem Job.gatedSt_mf (ora : EvalOracle) (j : Job) :
    JobMF ora j (j.gatedSt ora).2 := by
  rw [Job.gatedSt_eq]
  by_cases hg : j.has_gate = true
  · simp only [hg, if_true]
    exact Or.inl rfl
  · simp only [hg, Bool.false_eq_true, if_false]
    exact Or.inr rfl

/-- Refinement and frame of the stateful backtrack: its answer agrees
with the pure interpreter run over the original job list, and the job
list it returns is a pointwise memo-descendant of the one it started
from (and of the original). -/
theorem btRun_ref (ora : EvalOracle) (jp : List Job) :
    ∀ (fuel : Nat) (t : BtTask) (tp : BtTaskP), BtRel ora jp t tp →
      btRunP ora jp fuel tp = (btRun ora fuel t).map Prod.fst ∧
      (∀ b jobs', btRun ora fuel t = some (b, jobs') →
        List.Forall₂ (JobMF ora) (btState t) jobs' ∧
        List.Forall₂ (JobML ora) jp jobs') := by
  intro fuel
  induction fuel with
  | zero =>
      intro t tp _
      exact ⟨rfl, fun b jobs' h => by cases h⟩
  | succ g ih =>
      intro t tp hrel
      cases t with
      | needs jobs n =>
          cases tp with
          | needs np =>
              obtain ⟨rfl, hjp⟩ := hrel
              cases n with
              | str s =>
                  have hrec := ih (.scan s [] jobs) (.scan s jp) ⟨rfl, hjp, hjp⟩
                  exact ⟨hrec.1, fun b jobs' h => hrec.2 b jobs' h⟩
              | list xs =>
                  have hrec := ih (.anyL jobs xs) (.anyL xs) ⟨rfl, hjp⟩
                  exact ⟨hrec.1, fun b jobs' h => hrec.2 b jobs' h⟩
          | scan _ _ => cases hrel
          | anyL _ => cases hrel
      | anyL jobs xs =>
          cases tp with
          | anyL xsP =>
              obtain ⟨rfl, hjp⟩ := hrel
              cases xs with
              | nil =>
                  refine ⟨rfl, fun b jobs' h => ?_⟩
                  obtain ⟨rfl, rfl⟩ : false = b ∧ jobs = jobs' := by
                    have := Option.some.inj h
                    exact ⟨congrArg Prod.fst this, congrArg Prod.snd this⟩
                  exact ⟨forall2_jobMF_refl ora jobs, hjp⟩
              | cons x rest =>
                  obtain ⟨ihs1, ihs2⟩ :=
                    ih (.scan x [] jobs) (.scan x jp) ⟨rfl, hjp, hjp⟩
                  simp only [btRun, btRunP]
                  cases hst : btRun ora g (.scan x [] jobs) with
                  | none =>
                      rw [hst] at ihs1
                      rw [ihs1]
                      exact ⟨rfl, fun b jobs' h => by simp at h⟩
                  | some br =>
                      obtain ⟨b1, jobs1⟩ := br
                      rw [hst] at ihs1
                      rw [ihs1]
                      obtain ⟨hf1, hjp1⟩ := ihs2 b1 jobs1 hst
                      cases b1 with
                      | true =>
                          refine ⟨rfl, fun b jobs' h => ?_⟩
                          have := Option.some.inj h
                          obtain ⟨rfl, rfl⟩ : (true : Bool) = b ∧ jobs1 = jobs' :=
                            ⟨congrArg Prod.fst this, congrArg Prod.snd this⟩
                          exact ⟨hf1, hjp1⟩
                      | false =>
                          obtain ⟨ihr1, ihr2⟩ :=
                            ih (.anyL jobs1 rest) (.anyL rest) ⟨rfl, hjp1⟩
                          refine ⟨ihr1, fun b jobs' h => ?_⟩
                          obtain ⟨hf2, hjp2⟩ := ihr2 b jobs' h
                          exact ⟨forall2_jobMF_trans hf1 hf2, hjp2⟩
          | needs _ => cases hrel
          | scan _ _ => cases hrel
      | scan name acc suffix =>
          cases tp with
          | scan nameP suffixP =>
              obtain ⟨rfl, hsuf, hjp⟩ := hrel
              cases hsuf with
              | nil =>
                  refine ⟨rfl, fun b jobs' h => ?_⟩
                  have := Option.some.inj h
                  obtain ⟨rfl, rfl⟩ : (false : Bool) = b ∧ acc.reverse = jobs' :=
                    ⟨congrArg Prod.fst this, congrArg Prod.snd this⟩
                  constructor
                  · rw [btState, List.append_nil]
                    exact forall2_jobMF_refl ora acc.reverse
                  · rw [List.append_nil] at hjp
                    exact hjp
              | @cons jP j restP rest hml hrest =>
                  have hname : j.job_name = jP.job_name := (JobML.fields hml).1
                  simp only [btRun, btRunP]
                  by_cases hn : j.job_name = name
                  · rw [if_pos hn, if_pos (hname ▸ hn : jP.job_name = name)]
                    have hgv : (j.gatedSt ora).1 = jP.gatedP ora := by
                      rw [Job.gatedSt_eq]
                      exact JobML.gatedP_eq hml
                    have hml1 : JobML ora jP (j.gatedSt ora).2 :=
                      hml.trans (Job.gatedSt_ml ora j)
                    have hneeds1 : (j.gatedSt ora).2.needs = jP.needs :=
                      (JobML.fields hml1).2.2.1
                    have hupd : List.Forall₂ (JobMF ora)
                        (acc.reverse ++ j :: rest)
                        (acc.reverse ++ (j.gatedSt ora).2 :: rest) :=
                      forall2_jobMF_update ora acc.reverse rest (Job.gatedSt_mf ora j)
                    have hjp1 : List.Forall₂ (JobML ora) jp
                        (acc.reverse ++ (j.gatedSt ora).2 :: rest) :=
                      forall2_jobML_trans hjp (forall2_jobMF_toML hupd)
                    by_cases hgat : (j.gatedSt ora).1 = true
                    · have hgP : jP.gatedP ora = true := hgv ▸ hgat
                      rw [if_pos hgat, if_pos hgP]
                      refine ⟨rfl, fun b jobs' h => ?_⟩
                      have := Option.some.inj h
                      obtain ⟨rfl, rfl⟩ : (true : Bool) = b ∧
                          acc.reverse ++ (j.gatedSt ora).2 :: rest = jobs' :=
                        ⟨congrArg Prod.fst this, congrArg Prod.snd this⟩
                      exact ⟨hupd, hjp1⟩
                    · have hgP : ¬ jP.gatedP ora = true := by
                        rw [← hgv]
                        exact hgat
                      rw [if_neg hgat, if_neg hgP]
                      by_cases ht : truthyNeeds (j.gatedSt ora).2.needs = true
                      · have htP : truthyNeeds jP.needs = true := hneeds1 ▸ ht
                        rw [if_pos ht, if_pos htP]
                        obtain ⟨ihr1, ihr2⟩ := ih
                          (.needs (acc.reverse ++ (j.gatedSt ora).2 :: rest)
                            (j.gatedSt ora).2.needs)
                          (.needs jP.needs) ⟨hneeds1, hjp1⟩
                        refine ⟨ihr1, fun b jobs' h => ?_⟩
                        obtain ⟨hf2, hjp2⟩ := ihr2 b jobs' h
                        rw [btState] at hf2
                        exact ⟨forall2_jobMF_trans hupd hf2, hjp2⟩
                      · have htP : ¬ truthyNeeds jP.needs = true := by
                          rw [← hneeds1]
                          exact ht
                        rw [if_neg ht, if_neg htP]
                        have hstate : ((j.gatedSt ora).2 :: acc).reverse ++ rest =
                            acc.reverse ++ (j.gatedSt ora).2 :: rest := by
                          rw [List.reverse_cons, List.append_assoc]
                          rfl
                        obtain ⟨ihr1, ihr2⟩ := ih
                          (.scan name ((j.gatedSt ora).2 :: acc) rest)
                          (.scan name restP)
                          ⟨rfl, hrest, by rw [hstate]; exact hjp1⟩
                        refine ⟨ihr1, fun b jobs' h => ?_⟩
                        obtain ⟨hf2, hjp2⟩ := ihr2 b jobs' h
                        rw [btState, hstate] at hf2
                        exact ⟨forall2_jobMF_trans hupd hf2, hjp2⟩
                  · rw [if_neg hn, if_neg (by rw [← hname]; exact hn :
                      ¬ jP.job_name = name)]
                    have hstate : (j :: acc).reverse ++ rest =
                        acc.reverse ++ j :: rest := by
                      rw [List.reverse_cons, List.append_assoc]
                      rfl
                    obtain ⟨ihr1, ihr2⟩ := ih (.scan name (j :: acc) rest)
                      (.scan name restP) ⟨rfl, hrest, by rw [hstate]; exact hjp⟩
                    refine ⟨ihr1, fun b jobs' h => ?_⟩
                    obtain ⟨hf2, hjp2⟩ := ihr2 b jobs' h
                    rw [btState, hstate] at hf2
                    exact ⟨hf2, hjp2⟩
          | needs _ => cases hrel
          | anyL _ => cases hrel

/-- Split a job-list state at a position: the prefix, the job at the
position (a placeholder when out of range), and the suffix. -/
def splitState (n : Nat) (l : List Job) : List Job × Job × List Job :=
  (l.take n, (l.drop n).headD (mkJob {} ""), (l.drop n).tail)

/-- Splitting a list pointwise related to `A ++ c :: B` at `A.length`
recovers a pointwise-related decomposition. -/
theorem splitState_spec {R : Job → Job → Prop} {A B : List Job} {c : Job}
    {l' : List Job} (h : List.Forall₂ R (A ++ c :: B) l') :
    ∃ c' B', R c c' ∧ List.Forall₂ R B B' ∧
      List.Forall₂ R A (l'.take A.length) ∧
      l' = l'.take A.length ++ c' :: B' ∧
      splitState A.length l' = (l'.take A.length, c', B') := by
  have htake := List.forall₂_take A.length h
  have hdrop := List.forall₂_drop A.length h
  rw [List.take_left] at htake
  rw [List.drop_left] at hdrop
  obtain ⟨c', B', heq, hc, hB⟩ : ∃ c' B', l'.drop A.length = c' :: B' ∧
      R c c' ∧ List.Forall₂ R B B' := by
    cases hx : l'.drop A.length with
    | nil =>
        rw [hx] at hdrop
        cases hdrop
    | cons c' B' =>
        rw [hx] at hdrop
        cases hdrop with
        | cons hc hB => exact ⟨c', B', rfl, hc, hB⟩
  refine ⟨c', B', hc, hB, htake, ?_, ?_⟩
  · conv_lhs => rw [← List.take_append_drop A.length l']
    rw [heq]
  · rw [splitState, heq]
    rfl

theorem forall2_stepMF_trans {ora : EvalOracle} :
    ∀ {a b c : List Step}, List.Forall₂ (StepMF ora) a b →
      List.Forall₂ (StepMF ora) b c → List.Forall₂ (StepMF ora) a c := by
  intro a
  induction a with
  | nil =>
      intro b c h1 h2
      cases h1
      cases h2
      exact List.Forall₂.nil
  | cons x xs ih =>
      intro b c h1 h2
      cases h1 with
      | cons hx hxs =>
          cases h2 with
          | cons hy hys =>
              refine List.Forall₂.cons ?_ (ih hxs hys)
              rcases hx with rfl | rfl
              · exact hy
              · rcases hy with rfl | rfl
                · exact Or.inr rfl
                · rw [stepMemoFix_memoFix]
                  exact Or.inr rfl

theorem forall2_stepMF_append {ora : EvalOracle} :
    ∀ {a b : List Step}, List.Forall₂ (StepMF ora) a b →
      ∀ {c d : List Step}, List.Forall₂ (StepMF ora) c d →
      List.Forall₂ (StepMF ora) (a ++ c) (b ++ d) := by
  intro a b h1
  induction h1 with
  | nil => intro c d h2; exact h2
  | cons hx _ ih => intro c d h2; exact List.Forall₂.cons hx (ih h2)

theorem forall2_stepMF_update (ora : EvalOracle) (A B : List Step) {s s1 : Step}
    (h : StepMF ora s s1) :
    List.Forall₂ (StepMF ora) (A ++ s :: B) (A ++ s1 :: B) :=
  forall2_stepMF_append (forall2_stepMF_refl ora A)
    (List.Forall₂.cons h (forall2_stepMF_refl ora B))

/-- The step loop of `analyze_checkouts` (lines 234-265), stateful: the
scan memoizes the guard of every checkout and sink step it evaluates,
and `backtrack_gate` mutates the job-list state; the job's own step
list is written back by the caller from the returned finalized steps. -/
def ackStepsSt (ora : EvalOracle) (fuel : Nat) (jobNeeds : Needs)
    (jobIf : Option String) :
    List Step → List Step → CkSt → List Job → Option (CkSt × List Step × List Job)
  | doneRev, [], st, jobs => some (st, doneRev.reverse, jobs)
  | doneRev, s :: rest, st, jobs =>
      if s.is_gate then
        ackStepsSt ora fuel jobNeeds jobIf (s :: doneRev) rest
          { st with gated := true } jobs
      else if s.is_checkout then
        match (if truthyNeeds jobNeeds then backtrackGateSt ora fuel jobs jobNeeds
               else some (st.gated, jobs)) with
        | none => none
        | some (g, jobs1) =>
            if g && pinnedMeta s.metadata then
              some ({ st with gated := g }, doneRev.reverse ++ s :: rest, jobs1)
            else
              let r := s.evaluateIf ora
              let bump' :=
                if truthyOS r.1 && startsWithOS "EVALUATED" r.1 then true
                else if truthyOS r.1 && containsSubOS r.1 "RESTRICTED" then false
                else st.bump
              ackStepsSt ora fuel jobNeeds jobIf (r.2 :: doneRev) rest
                { details := st.details ++ [⟨s.metadata, r.1, s.name⟩]
                  bump := bump'
                  gated := g
                  conf := st.conf } jobs1
      else if !st.details.isEmpty && s.is_sink then
        let r := s.evaluateIf ora
        let conf' :=
          if (truthyOS jobIf && startsWithOS "EVALUATED" jobIf)
              || (st.bump && !truthyOS jobIf)
              || (!truthyOS jobIf && (!truthyOS r.1 || startsWithOS "EVALUATED" r.1))
          then "HIGH" else "MEDIUM"
        ackStepsSt ora fuel jobNeeds jobIf (r.2 :: doneRev) rest
          { st with conf := conf' } jobs
      else ackStepsSt ora fuel jobNeeds jobIf (s :: doneRev) rest st jobs

theorem stepFrame_push {ora : EvalOracle} {doneRev rest steps' : List Step}
    {s x : Step} (hsx : StepMF ora s x)
    (h : List.Forall₂ (StepMF ora) ((x :: doneRev).reverse ++ rest) steps') :
    List.Forall₂ (StepMF ora) (doneRev.reverse ++ s :: rest) steps' := by
  rw [List.reverse_cons, List.append_assoc] at h
  exact forall2_stepMF_trans (forall2_stepMF_update ora doneRev.reverse rest hsx) h

/-- Refinement and frame of the stateful step scan of
`analyze_checkouts`: it computes the pure scan's `CkSt` over the
original job list, finalizes the job's steps by at most memoizing each,
and mutates the job list only by guard memoization. -/
theorem ackStepsSt_ref (ora : EvalOracle) (fuel : Nat) (jp : List Job)
    (jobNeeds : Needs) (jobIf : Option String) :
    ∀ (stepsP steps : List Step), List.Forall₂ (StepML ora) stepsP steps →
    ∀ (doneRev : List Step) (st : CkSt) (jobs : List Job),
      List.Forall₂ (JobML ora) jp jobs →
      ackStepsP ora jp fuel jobNeeds jobIf stepsP st =
        (ackStepsSt ora fuel jobNeeds jobIf doneRev steps st jobs).map
          (fun r => r.1) ∧
      (∀ st' steps' jobs',
        ackStepsSt ora fuel jobNeeds jobIf doneRev steps st jobs =
          some (st', steps', jobs') →
        List.Forall₂ (StepMF ora) (doneRev.reverse ++ steps) steps' ∧
        List.Forall₂ (JobMF ora) jobs jobs' ∧
        List.Forall₂ (JobML ora) jp jobs') := by
  intro stepsP steps hsteps
  induction hsteps with
  | nil =>
      intro doneRev st jobs hjp
      refine ⟨rfl, fun st' steps' jobs' h => ?_⟩
      have e := Option.some.inj h
      obtain ⟨rfl, rfl, rfl⟩ : st = st' ∧ doneRev.reverse = steps' ∧ jobs = jobs' :=
        ⟨congrArg (fun r => r.1) e, congrArg (fun r => r.2.1) e,
          congrArg (fun r => r.2.2) e⟩
      refine ⟨?_, forall2_jobMF_refl ora jobs, hjp⟩
      rw [List.append_nil]
      exact forall2_stepMF_refl ora doneRev.reverse
  | @cons sP s restP rest hs hrest ih =>
      intro doneRev st jobs hjp
      obtain ⟨hnm, hgate, hck, hscript, hsink, hmeta, htok, henv, hpure⟩ :=
        stepML_fields hs
      simp only [ackStepsP, ackStepsSt]
      by_cases hg : s.is_gate = true
      · have hgP : sP.is_gate = true := hgate ▸ hg
        rw [if_pos hg, if_pos hgP]
        obtain ⟨ih1, ih2⟩ := ih (s :: doneRev) { st with gated := true } jobs hjp
        refine ⟨ih1, fun st' steps' jobs' h => ?_⟩
        obtain ⟨hf1, hf2, hf3⟩ := ih2 st' steps' jobs' h
        exact ⟨stepFrame_push (stepMF_refl ora s) hf1, hf2, hf3⟩
      · have hgP : ¬ sP.is_gate = true := fun hx => hg (hgate.symm ▸ hx)
        rw [if_neg hg, if_neg hgP]
        by_cases hc : s.is_checkout = true
        · have hcP : sP.is_checkout = true := hck ▸ hc
          rw [if_pos hc, if_pos hcP]
          by_cases ht : truthyNeeds jobNeeds = true
          · rw [if_pos ht, if_pos ht]
            obtain ⟨hbt1, hbt2⟩ :=
              btRun_ref ora jp fuel (.needs jobs jobNeeds) (.needs jobNeeds)
                ⟨rfl, hjp⟩
            cases hb : btRun ora fuel (.needs jobs jobNeeds) with
            | none =>
                rw [hb] at hbt1
                have hpn : backtrackGateP ora jp fuel jobNeeds = none := hbt1
                have hsn : backtrackGateSt ora fuel jobs jobNeeds = none := hb
                rw [hpn, hsn]
                simp only []
                exact ⟨rfl, fun st' steps' jobs' h => by simp at h⟩
            | some br =>
                obtain ⟨g, jobs1⟩ := br
                rw [hb] at hbt1
                have hpn : backtrackGateP ora jp fuel jobNeeds = some g := hbt1
                have hsn : backtrackGateSt ora fuel jobs jobNeeds =
                    some (g, jobs1) := hb
                rw [hpn, hsn]
                simp only []
                obtain ⟨hmf1, hml1⟩ := hbt2 g jobs1 hb
                by_cases hpin : (g && pinnedMeta s.metadata) = true
                · have hpinP : (g && pinnedMeta sP.metadata) = true := hmeta ▸ hpin
                  rw [if_pos hpin, if_pos hpinP]
                  refine ⟨rfl, fun st' steps' jobs' h => ?_⟩
                  have e := Option.some.inj h
                  obtain ⟨rfl, rfl, rfl⟩ : { st with gated := g } = st' ∧
                      doneRev.reverse ++ s :: rest = steps' ∧ jobs1 = jobs' :=
                    ⟨congrArg (fun r => r.1) e, congrArg (fun r => r.2.1) e,
                      congrArg (fun r => r.2.2) e⟩
                  exact ⟨forall2_stepMF_refl ora _, hmf1, hml1⟩
                · have hpinP : ¬ (g && pinnedMeta sP.metadata) = true :=
                    fun hx => hpin (hmeta.symm ▸ hx)
                  rw [if_neg hpin, if_neg hpinP]
                  simp only [stepEvaluateIf_eq, hmeta, hnm, hpure]
                  obtain ⟨ih1, ih2⟩ := ih (s.memoFix ora :: doneRev)
                    { details := st.details ++ [⟨sP.metadata, sP.evalPure ora, sP.name⟩]
                      bump :=
                        if truthyOS (sP.evalPure ora) &&
                            startsWithOS "EVALUATED" (sP.evalPure ora) then true
                        else if truthyOS (sP.evalPure ora) &&
                            containsSubOS (sP.evalPure ora) "RESTRICTED" then false
                        else st.bump
                      gated := g
                      conf := st.conf } jobs1 hml1
                  refine ⟨ih1, fun st' steps' jobs' h => ?_⟩
                  obtain ⟨hf1, hf2, hf3⟩ := ih2 st' steps' jobs' h
                  exact ⟨stepFrame_push (Or.inr rfl) hf1,
                    forall2_jobMF_trans hmf1 hf2, hf3⟩
          · rw [if_neg ht, if_neg ht]
            simp only []
            by_cases hpin : (st.gated && pinnedMeta s.metadata) = true
            · have hpinP : (st.gated && pinnedMeta sP.metadata) = true :=
                hmeta ▸ hpin
              rw [if_pos hpin, if_pos hpinP]
              refine ⟨rfl, fun st' steps' jobs' h => ?_⟩
              have e := Option.some.inj h
              obtain ⟨rfl, rfl, rfl⟩ : { st with gated := st.gated } = st' ∧
                  doneRev.reverse ++ s :: rest = steps' ∧ jobs = jobs' :=
                ⟨congrArg (fun r => r.1) e, congrArg (fun r => r.2.1) e,
                  congrArg (fun r => r.2.2) e⟩
              exact ⟨forall2_stepMF_refl ora _, forall2_jobMF_refl ora jobs, hjp⟩
            · have hpinP : ¬ (st.gated && pinnedMeta sP.metadata) = true :=
                fun hx => hpin (hmeta.symm ▸ hx)
              rw [if_neg hpin, if_neg hpinP]
              simp only [stepEvaluateIf_eq, hmeta, hnm, hpure]
              obtain ⟨ih1, ih2⟩ := ih (s.memoFix ora :: doneRev)
                { details := st.details ++ [⟨sP.metadata, sP.evalPure ora, sP.name⟩]
                  bump :=
                    if truthyOS (sP.evalPure ora) &&
                        startsWithOS "EVALUATED" (sP.evalPure ora) then true
                    else if truthyOS (sP.evalPure ora) &&
                        containsSubOS (sP.evalPure ora) "RESTRICTED" then false
                    else st.bump
                  gated := st.gated
                  conf := st.conf } jobs hjp
              refine ⟨ih1, fun st' steps' jobs' h => ?_⟩
              obtain ⟨hf1, hf2, hf3⟩ := ih2 st' steps' jobs' h
              exact ⟨stepFrame_push (Or.inr rfl) hf1, hf2, hf3⟩
        · have hcP : ¬ sP.is_checkout = true := fun hx => hc (hck.symm ▸ hx)
          rw [if_neg hc, if_neg hcP]
          by_cases hsnk : (!st.details.isEmpty && s.is_sink) = true
          · have hsnkP : (!st.details.isEmpty && sP.is_sink) = true := hsink ▸ hsnk
            rw [if_pos hsnk, if_pos hsnkP]
            simp only [stepEvaluateIf_eq, hpure]
            obtain ⟨ih1, ih2⟩ := ih (s.memoFix ora :: doneRev)
              { st with conf :=
                  if (truthyOS jobIf && startsWithOS "EVALUATED" jobIf)
                      || (st.bump && !truthyOS jobIf)
                      || (!truthyOS jobIf && (!truthyOS (sP.evalPure ora)
                          || startsWithOS "EVALUATED" (sP.evalPure ora)))
                  then "HIGH" else "MEDIUM" } jobs hjp
            refine ⟨ih1, fun st' steps' jobs' h => ?_⟩
            obtain ⟨hf1, hf2, hf3⟩ := ih2 st' steps' jobs' h
            exact ⟨stepFrame_push (Or.inr rfl) hf1, hf2, hf3⟩
          · have hsnkP : ¬ (!st.details.isEmpty && sP.is_sink) = true :=
              fun hx => hsnk (hsink.symm ▸ hx)
            rw [if_neg hsnk, if_neg hsnkP]
            obtain ⟨ih1, ih2⟩ := ih (s :: doneRev) st jobs hjp
            refine ⟨ih1, fun st' steps' jobs' h => ?_⟩
            obtain ⟨hf1, hf2, hf3⟩ := ih2 st' steps' jobs' h
            exact ⟨stepFrame_push (stepMF_refl ora s) hf1, hf2, hf3⟩

/-- The `callees` additions of one job iteration of `analyze_checkouts`
(lines 226-229). -/
def jobAdds (j : Job) : List String :=
  if j.caller then [lastSplit (j.uses.getD "") '/']
  else if j.external_caller then [j.uses.getD ""] else []

/-- The `callees` additions of a whole pass over the job list. -/
def ackAdds : List Job → List String
  | [] => []
  | j :: rest => jobAdds j ++ ackAdds rest

/-- The job loop of `analyze_checkouts` (lines 216-268), stateful: the
iteration reads the job at the current position of the evolving job
list, memoizes its guard (line 219), appends its `callees` additions,
runs the step scan (which may mutate every job through
`backtrack_gate`), and writes the finalized steps back. -/
def ackLoopSt (ora : EvalOracle) (fuel : Nat) :
    Nat → Nat → List Job → List (String × JobCk) → List String →
    Option (List Job × List (String × JobCk) × List String)
  | 0, _, jobs, res, adds => some (jobs, res, adds)
  | cnt+1, pos, jobs, res, adds =>
      let sp := splitState pos jobs
      let j := sp.2.1
      let j1 := j.memoFix ora
      let ifc := (j.evaluateIf ora).1
      let jobs0 := sp.1 ++ j1 :: sp.2.2
      match ackStepsSt ora fuel j1.needs ifc [] j1.steps
          ⟨[], false, truthyOS ifc && startsWithOS "RESTRICTED" ifc, "UNKNOWN"⟩
          jobs0 with
      | none => none
      | some (st, steps2, jobs1) =>
          let sp1 := splitState pos jobs1
          let jobs2 := sp1.1 ++ { sp1.2.1 with steps := steps2 } :: sp1.2.2
          ackLoopSt ora fuel cnt (pos+1) jobs2
            (dictUpsert j.job_name ⟨st.details, ifc, st.conf, st.gated⟩ res)
            (adds ++ jobAdds j)

/-- `WorkflowParser.analyze_checkouts` (lines 205-270), stateful: the
returned mapping together with the mutated parser (guard memoizations
in the job list; the per-job `callees` additions). -/
def analyzeCheckoutsSt (ora : EvalOracle) (P : WFParser) (fuel : Nat) :
    Option (List (String × JobCk) × WFParser) :=
  match P.parsed_yml.jobs with
  | .absent => some ([], P)
  | _ =>
      match ackLoopSt ora fuel P.jobs.length 0 P.jobs [] [] with
      | none => none
      | some (jobs', res, adds) =>
          some (res, { P with jobs := jobs', callees := P.callees ++ adds })

theorem jobAdds_ml {ora : EvalOracle} {jP c : Job} (h : JobML ora jP c) :
    jobAdds c = jobAdds jP := by
  obtain ⟨_, _, _, _, _, h6, h7, h8, _⟩ := JobML.fields h
  unfold jobAdds
  rw [h6, h7, h8]

theorem JobML.setSteps {ora : EvalOracle} {jP c : Job} (h : JobML ora jP c)
    {steps' : List Step} (hst : List.Forall₂ (StepML ora) jP.steps steps') :
    JobML ora jP { c with steps := steps' } := by
  obtain ⟨s2, _, hc⟩ := h
  rcases hc with rfl | rfl
  · exact ⟨steps', hst, Or.inl rfl⟩
  · exact ⟨steps', hst, Or.inr rfl⟩

theorem JobML.selfSetSteps (ora : EvalOracle) (c : Job) {steps' : List Step}
    (hst : List.Forall₂ (StepML ora) c.steps steps') :
    JobML ora c { c with steps := steps' } :=
  ⟨steps', hst, Or.inl rfl⟩

/-- Refinement and frame of the stateful job loop of
`analyze_checkouts`: it returns the pure fold's mapping computed over
the original job list, mutates jobs only by memoization, and appends
exactly the per-job `callees` additions. -/
theorem ackLoopSt_ref (ora : EvalOracle) (fuel : Nat) :
    ∀ (todoP A jobs : List Job) (res : List (String × JobCk)) (adds : List String),
      List.Forall₂ (JobML ora) (A ++ todoP) jobs →
      ackAllP ora (A ++ todoP) fuel todoP res =
        (ackLoopSt ora fuel todoP.length A.length jobs res adds).map
          (fun r => r.2.1) ∧
      (∀ jobs' res' adds',
        ackLoopSt ora fuel todoP.length A.length jobs res adds =
          some (jobs', res', adds') →
        List.Forall₂ (JobML ora) jobs jobs' ∧
        List.Forall₂ (JobML ora) (A ++ todoP) jobs' ∧
        adds' = adds ++ ackAdds todoP) := by
  intro todoP
  induction todoP with
  | nil =>
      intro A jobs res adds hjp
      refine ⟨rfl, fun jobs' res' adds' h => ?_⟩
      have e := Option.some.inj h
      obtain ⟨rfl, rfl, rfl⟩ : jobs = jobs' ∧ res = res' ∧ adds = adds' :=
        ⟨congrArg (fun r => r.1) e, congrArg (fun r => r.2.1) e,
          congrArg (fun r => r.2.2) e⟩
      exact ⟨forall2_jobML_refl ora jobs, hjp, by simp [ackAdds]⟩
  | cons jP restP ih =>
      intro A jobs res adds hjp
      obtain ⟨c, B', hcML, hB, htake, hdecomp, hsplit⟩ :=
        splitState_spec (R := JobML ora) (A := A) (B := restP) (c := jP) hjp
      have hfld := JobML.fields hcML
      have hname : c.job_name = jP.job_name := hfld.1
      have hifc : (c.evaluateIf ora).1 = jP.evalPure ora := by
        rw [Job.evaluateIf_eq]
        exact hfld.2.2.2.2.2.2.2.2.2.1
      have hml1 : JobML ora jP (c.memoFix ora) :=
        hcML.trans (JobML.ofMemoFix ora c)
      have hneeds1 : (c.memoFix ora).needs = jP.needs := (JobML.fields hml1).2.2.1
      have hsteps1 : List.Forall₂ (StepML ora) jP.steps (c.memoFix ora).steps :=
        (JobML.fields hml1).2.2.2.2.2.2.2.2.2.2
      have hjobs0 : List.Forall₂ (JobML ora) (A ++ jP :: restP)
          (jobs.take A.length ++ c.memoFix ora :: B') :=
        forall2_jobML_append htake (List.Forall₂.cons hml1 hB)
      obtain ⟨hs1, hs2⟩ := ackStepsSt_ref ora fuel (A ++ jP :: restP) jP.needs
        (jP.evalPure ora) jP.steps (c.memoFix ora).steps hsteps1 []
        ⟨[], false, truthyOS (jP.evalPure ora) &&
          startsWithOS "RESTRICTED" (jP.evalPure ora), "UNKNOWN"⟩
        (jobs.take A.length ++ c.memoFix ora :: B') hjobs0
      simp only [List.length_cons, ackLoopSt, ackAllP, ackJobP, jobRestricted]
      rw [hsplit]
      simp only [hifc, hneeds1, hname, jobAdds_ml hcML]
      cases hsc : ackStepsSt ora fuel jP.needs (jP.evalPure ora) []
          (c.memoFix ora).steps
          ⟨[], false, truthyOS (jP.evalPure ora) &&
            startsWithOS "RESTRICTED" (jP.evalPure ora), "UNKNOWN"⟩
          (jobs.take A.length ++ c.memoFix ora :: B') with
      | none =>
          rw [hsc] at hs1
          rw [hs1]
          exact ⟨rfl, fun jobs' res' adds' h => by simp at h⟩
      | some tr =>
          obtain ⟨st, steps2, jobs1⟩ := tr
          rw [hsc] at hs1
          rw [hs1]
          simp only []
          obtain ⟨hfS, hfJ, hfJP⟩ := hs2 st steps2 jobs1 hsc
          have hfS' : List.Forall₂ (StepMF ora) (c.memoFix ora).steps steps2 := hfS
          have hlen : (jobs.take A.length).length = A.length :=
            htake.length_eq.symm
          obtain ⟨c1, B1, hc1, hB1, htake1, hdecomp1, hsplit1⟩ :=
            splitState_spec (R := JobMF ora) (A := jobs.take A.length)
              (B := B') (c := c.memoFix ora) hfJ
          rw [hlen] at htake1 hdecomp1 hsplit1
          rw [hsplit1]
          simp only []
          have hstC1 : List.Forall₂ (StepML ora) c1.steps steps2 := by
            rw [JobMF.steps_eq hc1]
            exact forall2_stepMF_toML hfS'
          have hstML : List.Forall₂ (StepML ora) jP.steps steps2 :=
            forall2_stepML_trans hsteps1 (forall2_stepMF_toML hfS')
          have hinv : List.Forall₂ (JobML ora) (A ++ jP :: restP)
              (jobs1.take A.length ++ { c1 with steps := steps2 } :: B1) :=
            forall2_jobML_append
              (forall2_jobML_trans htake (forall2_jobMF_toML htake1))
              (List.Forall₂.cons
                (JobML.setSteps (hml1.trans (jobMF_toML hc1)) hstML)
                (forall2_jobML_trans hB (forall2_jobMF_toML hB1)))
          have hinv' : List.Forall₂ (JobML ora) ((A ++ [jP]) ++ restP)
              (jobs1.take A.length ++ { c1 with steps := steps2 } :: B1) := by
            rw [List.append_assoc, List.singleton_append]
            exact hinv
          obtain ⟨ih1, ih2⟩ := ih (A ++ [jP])
            (jobs1.take A.length ++ { c1 with steps := steps2 } :: B1)
            (dictUpsert jP.job_name
              ⟨st.details, jP.evalPure ora, st.conf, st.gated⟩ res)
            (adds ++ jobAdds jP) hinv'
          rw [List.append_assoc, List.singleton_append] at ih1
          have hApos : (A ++ [jP]).length = A.length + 1 := by simp
          rw [hApos] at ih1 ih2
          refine ⟨ih1, fun jobs' res' adds' h => ?_⟩
          obtain ⟨hF1, hF2, hAdds⟩ := ih2 jobs' res' adds' h
          rw [List.append_assoc, List.singleton_append] at hF2
          have h01 : List.Forall₂ (JobML ora) jobs
              (jobs.take A.length ++ c.memoFix ora :: B') := by
            have := forall2_jobML_update ora (jobs.take A.length) B'
              (JobML.ofMemoFix ora c)
            rw [← hdecomp] at this
            exact this
          have h23 : List.Forall₂ (JobML ora) jobs1
              (jobs1.take A.length ++ { c1 with steps := steps2 } :: B1) := by
            have := forall2_jobML_update ora (jobs1.take A.length) B1
              (JobML.selfSetSteps ora c1 hstC1)
            rw [← hdecomp1] at this
            exact this
          refine ⟨?_, hF2, ?_⟩
          · exact forall2_jobML_trans h01
              (forall2_jobML_trans (forall2_jobMF_toML hfJ)
                (forall2_jobML_trans h23 hF1))
          · rw [hAdds, List.append_assoc]
            rfl

theorem ackAdds_ml {ora : EvalOracle} :
    ∀ {a b : List Job}, List.Forall₂ (JobML ora) a b → ackAdds b = ackAdds a := by
  intro a
  induction a with
  | nil => intro b h; cases h; rfl
  | cons x xs ih =>
      intro b h
      cases h with
      | cons hx hxs =>
          simp only [ackAdds]
          rw [jobAdds_ml hx, ih hxs]

/-- The net `callees` additions of one `analyze_checkouts` run. -/
def ackCalleeAdds (P : WFParser) : List String :=
  match P.parsed_yml.jobs with
  | .absent => []
  | _ => ackAdds P.jobs

/-- Refinement and frame of stateful `analyze_checkouts`: it returns
the pure analysis of any memo-ancestor `jp` of the current job list,
mutates jobs only by memoization, appends exactly the per-job `callees`
additions, and touches no other parser field. -/
theorem analyzeCheckoutsSt_ref (ora : EvalOracle) (fuel : Nat) (P : WFParser)
    (jp : List Job) (hjp : List.Forall₂ (JobML ora) jp P.jobs) :
    analyzeCheckoutsP ora { P with jobs := jp } fuel =
      (analyzeCheckoutsSt ora P fuel).map (fun r => r.1) ∧
    (∀ res P', analyzeCheckoutsSt ora P fuel = some (res, P') →
      List.Forall₂ (JobML ora) P.jobs P'.jobs ∧
      List.Forall₂ (JobML ora) jp P'.jobs ∧
      P'.callees = P.callees ++ ackCalleeAdds P ∧
      P'.parsed_yml = P.parsed_yml ∧ P'.raw_yaml = P.raw_yaml ∧
      P'.repo_name = P.repo_name ∧ P'.wf_name = P.wf_name ∧
      P'.external_ref = P.external_ref ∧ P'.external_path = P.external_path ∧
      P'.branch = P.branch ∧ P'.composites = P.composites) := by
  have hlen : jp.length = P.jobs.length := hjp.length_eq
  obtain ⟨lp1, lp2⟩ := ackLoopSt_ref ora fuel jp [] P.jobs [] [] hjp
  rw [List.length_nil] at lp1 lp2
  rw [hlen] at lp1 lp2
  cases hshape : P.parsed_yml.jobs with
  | absent =>
      constructor
      · simp only [analyzeCheckoutsP, analyzeCheckoutsSt, hshape]
        rfl
      · intro res P' h
        simp only [analyzeCheckoutsSt, hshape] at h
        have e := Option.some.inj h
        obtain ⟨rfl, rfl⟩ : ([] : List (String × JobCk)) = res ∧ P = P' :=
          ⟨congrArg (fun r => r.1) e, congrArg (fun r => r.2) e⟩
        refine ⟨forall2_jobML_refl ora P.jobs, hjp,
          by rw [ackCalleeAdds, hshape, List.append_nil],
          rfl, rfl, rfl, rfl, rfl, rfl, rfl, rfl⟩
  | null =>
      simp only [analyzeCheckoutsP, analyzeCheckoutsSt, hshape]
      cases hloop : ackLoopSt ora fuel P.jobs.length 0 P.jobs [] [] with
      | none =>
          rw [hloop] at lp1
          exact ⟨lp1, fun res P' h => by simp at h⟩
      | some tr =>
          obtain ⟨jobs', res0, adds⟩ := tr
          rw [hloop] at lp1
          obtain ⟨hF1, hF2, hAdds⟩ := lp2 jobs' res0 adds hloop
          refine ⟨lp1, fun res P' h => ?_⟩
          simp only [] at h
          have e := Option.some.inj h
          obtain ⟨rfl, rfl⟩ : res0 = res ∧
              { P with jobs := jobs', callees := P.callees ++ adds } = P' :=
            ⟨congrArg (fun r => r.1) e, congrArg (fun r => r.2) e⟩
          refine ⟨hF1, hF2, ?_, rfl, rfl, rfl, rfl, rfl, rfl, rfl, rfl⟩
          rw [hAdds, ackCalleeAdds, hshape]
          rw [ackAdds_ml hjp]
          rfl
  | table kvs =>
      simp only [analyzeCheckoutsP, analyzeCheckoutsSt, hshape]
      cases hloop : ackLoopSt ora fuel P.jobs.length 0 P.jobs [] [] with
      | none =>
          rw [hloop] at lp1
          exact ⟨lp1, fun res P' h => by simp at h⟩
      | some tr =>
          obtain ⟨jobs', res0, adds⟩ := tr
          rw [hloop] at lp1
          obtain ⟨hF1, hF2, hAdds⟩ := lp2 jobs' res0 adds hloop
          refine ⟨lp1, fun res P' h => ?_⟩
          simp only [] at h
          have e := Option.some.inj h
          obtain ⟨rfl, rfl⟩ : res0 = res ∧
              { P with jobs := jobs', callees := P.callees ++ adds } = P' :=
            ⟨congrArg (fun r => r.1) e, congrArg (fun r => r.2) e⟩
          refine ⟨hF1, hF2, ?_, rfl, rfl, rfl, rfl, rfl, rfl, rfl, rfl⟩
          rw [hAdds, ackCalleeAdds, hshape]
          rw [ackAdds_ml hjp]
          rfl

/-- `WorkflowParser.check_pwn_request` (lines 272-308), stateful: the
early no-triggers return leaves the parser untouched; otherwise the
mutation is exactly that of `analyze_checkouts`. -/
def checkPwnRequestSt (ora : EvalOracle) (P : WFParser) (fuel : Nat)
    (bypass : Bool) :
    Option ((List (String × PwnCand) × List String) × WFParser) :=
  match getVulnerableTriggersOn P.parsed_yml.onBlock none with
  | none => none
  | some vt =>
      if vt.isEmpty && !bypass then some (([], []), P)
      else
        match analyzeCheckoutsSt ora P fuel with
        | none => none
        | some (info, P') =>
            let cands := pwnCandFold info []
            if cands.isEmpty then some (([], []), P')
            else some ((cands, vt), P')

/-- The net `callees` additions of one `check_pwn_request` run. -/
def pwnCalleeAdds (P : WFParser) (bypass : Bool) : List String :=
  match getVulnerableTriggersOn P.parsed_yml.onBlock none with
  | none => []
  | some vt => if vt.isEmpty && !bypass then [] else ackCalleeAdds P

/-- Refinement and frame of stateful `check_pwn_request`. -/
theorem checkPwnRequestSt_ref (ora : EvalOracle) (fuel : Nat) (P : WFParser)
    (bypass : Bool) (jp : List Job)
    (hjp : List.Forall₂ (JobML ora) jp P.jobs) :
    checkPwnRequestP ora { P with jobs := jp } fuel bypass =
      (checkPwnRequestSt ora P fuel bypass).map (fun r => r.1) ∧
    (∀ res P', checkPwnRequestSt ora P fuel bypass = some (res, P') →
      List.Forall₂ (JobML ora) P.jobs P'.jobs ∧
      List.Forall₂ (JobML ora) jp P'.jobs ∧
      P'.callees = P.callees ++ pwnCalleeAdds P bypass ∧
      P'.parsed_yml = P.parsed_yml ∧ P'.raw_yaml = P.raw_yaml ∧
      P'.repo_name = P.repo_name ∧ P'.wf_name = P.wf_name ∧
      P'.external_ref = P.external_ref ∧ P'.external_path = P.external_path ∧
      P'.branch = P.branch ∧ P'.composites = P.composites) := by
  obtain ⟨ha1, ha2⟩ := analyzeCheckoutsSt_ref ora fuel P jp hjp
  simp only [checkPwnRequestP, checkPwnRequestSt, pwnCalleeAdds]
  cases hvt : getVulnerableTriggersOn P.parsed_yml.onBlock none with
  | none => exact ⟨rfl, fun res P' h => by simp at h⟩
  | some vt =>
      simp only []
      by_cases hemp : (vt.isEmpty && !bypass) = true
      · rw [if_pos hemp, if_pos hemp]
        refine ⟨rfl, fun res P' h => ?_⟩
        have e := Option.some.inj h
        obtain ⟨rfl, rfl⟩ : (([], []) : List (String × PwnCand) × List String) = res ∧
            P = P' :=
          ⟨congrArg (fun r => r.1) e, congrArg (fun r => r.2) e⟩
        exact ⟨forall2_jobML_refl ora P.jobs, hjp,
          by rw [if_pos hemp, List.append_nil],
          rfl, rfl, rfl, rfl, rfl, rfl, rfl, rfl⟩
      · rw [if_neg hemp, if_neg hemp]
        cases hack : analyzeCheckoutsSt ora P fuel with
        | none =>
            rw [hack] at ha1
            rw [ha1]
            exact ⟨rfl, fun res P' h => by simp at h⟩
        | some pr =>
            obtain ⟨info, P1⟩ := pr
            rw [hack] at ha1
            rw [ha1]
            simp only [Option.map_some']
            obtain ⟨hb1, hb2, hb3, hb4, hb5, hb6, hb7, hb8, hb9, hb10, hb11⟩ :=
              ha2 info P1 hack
            by_cases hc : (pwnCandFold info []).isEmpty = true
            · rw [if_pos hc, if_pos hc]
              refine ⟨rfl, fun res P' h => ?_⟩
              have e := Option.some.inj h
              obtain ⟨rfl, rfl⟩ :
                  (([], []) : List (String × PwnCand) × List String) = res ∧
                  P1 = P' :=
                ⟨congrArg (fun r => r.1) e, congrArg (fun r => r.2) e⟩
              exact ⟨hb1, hb2, by rw [if_neg hemp]; exact hb3,
                hb4, hb5, hb6, hb7, hb8, hb9, hb10, hb11⟩
            · rw [if_neg hc, if_neg hc]
              refine ⟨rfl, fun res P' h => ?_⟩
              have e := Option.some.inj h
              obtain ⟨rfl, rfl⟩ : (pwnCandFold info [], vt) = res ∧ P1 = P' :=
                ⟨congrArg (fun r => r.1) e, congrArg (fun r => r.2) e⟩
              exact ⟨hb1, hb2, by rw [if_neg hemp]; exact hb3,
                hb4, hb5, hb6, hb7, hb8, hb9, hb10, hb11⟩

/-- `WorkflowParser.get_vulnerable_triggers` (lines 147-183), stateful:
a pure read of the parsed document; the parser is returned untouched. -/
def getVulnerableTriggersSt (P : WFParser)
    (alternate : Option String) :
    Option (List String) × WFParser :=
  (getVulnerableTriggersOn P.parsed_yml.onBlock alternate, P)

/-- Work items of the stateful runner checks.  `anyLive` models
Python's `any(...)` iterating the *live* `strategy.matrix[key]` list
(line 461): `os_list = matrix.get(matrix_key, [])` aliases the list
stored in the job data, so elements appended by nested checks are seen
by the ongoing iteration; `anyOf` iterates a fresh (snapshot) list —
the `runs-on` list, or the fresh `[]`-based list of the key-absent
case. -/
inductive RunTaskSt
  | single (label : String)
  | matrix (label : String)
  | anyOf (labels : List String)
  | anyLive (i : Nat) (k : String) (pos : Nat)

/-- The current `strategy.matrix[k]` list of the job at index `i`. -/
def matrixListOf (jobs : List Job) (i : Nat) (k : String) : List String :=
  match jobs[i]? with
  | none => []
  | some jd =>
      match jd.job_data.strategy with
      | none => []
      | some strat =>
          match strat.matrix with
          | none => []
          | some m => (dictGet k m.entries).getD []

/-- Write the `strategy.matrix[k]` list of the job at index `i`
(models the in-place `os_list.extend` of line 460 through the alias
returned by `matrix.get`). -/
def setMatrixEntry (jobs : List Job) (i : Nat) (k : String)
    (l : List String) : List Job :=
  match jobs[i]? with
  | none => jobs
  | some jd =>
      match jd.job_data.strategy with
      | none => jobs
      | some strat =>
          match strat.matrix with
          | none => jobs
          | some m =>
              jobs.set i ({ jd with job_data := ({ jd.job_data with
                strategy := (some ({ strat with matrix := (some ({ m with
                  entries := dictUpsert k l m.entries })) })) }) })

/-- The runner checks (`_check_single_runner` / `_check_matrix_runner`,
lines 426-461), stateful: when the line-454 name lookup succeeds and
both the matrix key and an `include` block are present, line 460's
`os_list.extend` mutates the aliased `strategy.matrix[key]` list in
place — the job data of the found job (and, through the document
alias, the parsed YAML) grows, and the subsequent `any` iterates the
live list.  (`runChk` above is the value-level reading of a single
fresh invocation, as used for the C4 verdict.) -/
def runChkSt (hosted : List String) (sku : String → Bool) :
    Nat → RunTaskSt → List Job → Option (Bool × List Job)
  | 0, _, _ => none
  | fuel+1, .single label, jobs =>
      if containsSub label "self-hosted" then some (true, jobs)
      else
        match findMatrixKey label with
        | some _ => runChkSt hosted sku fuel (.matrix label) jobs
        | none => some (!(label ∈ hosted : Bool) && !sku label, jobs)
  | fuel+1, .matrix label, jobs =>
      match findMatrixKey label with
      | none => some (false, jobs)
      | some matrix_key =>
          match jobs.findIdx? (fun j => j.job_name = headSplit label '.') with
          | none => some (false, jobs)
          | some i =>
              match jobs[i]? with
              | none => some (false, jobs)
              | some jd =>
                  match jd.job_data.strategy with
                  | none => some (false, jobs)
                  | some strat =>
                      match strat.matrix with
                      | none => some (false, jobs)
                      | some m =>
                          let inc := match m.include_ with
                            | none => []
                            | some incl =>
                                incl.filterMap (fun e => dictGet matrix_key e)
                          match dictGet matrix_key m.entries with
                          | none => runChkSt hosted sku fuel (.anyOf inc) jobs
                          | some l =>
                              match m.include_ with
                              | none =>
                                  runChkSt hosted sku fuel
                                    (.anyLive i matrix_key 0) jobs
                              | some _ =>
                                  runChkSt hosted sku fuel
                                    (.anyLive i matrix_key 0)
                                    (setMatrixEntry jobs i matrix_key (l ++ inc))
  | _+1, .anyOf [], jobs => some (false, jobs)
  | fuel+1, .anyOf (l :: rest), jobs =>
      match runChkSt hosted sku fuel (.single l) jobs with
      | none => none
      | some (true, jobs1) => some (true, jobs1)
      | some (false, jobs1) => runChkSt hosted sku fuel (.anyOf rest) jobs1
  | fuel+1, .anyLive i k pos, jobs =>
      match (matrixListOf jobs i k)[pos]? with
      | none => some (false, jobs)
      | some label =>
          match runChkSt hosted sku fuel (.single label) jobs with
          | none => none
          | some (true, jobs1) => some (true, jobs1)
          | some (false, jobs1) =>
              runChkSt hosted sku fuel (.anyLive i k (pos+1)) jobs1

/-- `WorkflowParser._is_self_hosted` (lines 411-424), stateful. -/
def isSelfHostedSt (hosted : List String) (sku : String → Bool)
    (fuel : Nat) (jobs : List Job) : RunsOn → Option (Bool × List Job)
  | .str s => runChkSt hosted sku fuel (.single s) jobs
  | .list xs => runChkSt hosted sku fuel (.anyOf xs) jobs

/-- The per-job fold of `self_hosted` (lines 403-407), stateful. -/
def shGoSt (hosted : List String) (sku : String → Bool) (fuel : Nat) :
    List (String × JobData) → List Job →
    Option (List (String × JobData) × List Job)
  | [], jobs => some ([], jobs)
  | (nm, jd) :: rest, jobs =>
      match jd.runs_on with
      | none => shGoSt hosted sku fuel rest jobs
      | some ro =>
          match isSelfHostedSt hosted sku fuel jobs ro with
          | none => none
          | some (true, jobs1) =>
              match shGoSt hosted sku fuel rest jobs1 with
              | none => none
              | some (r, jobs2) => some ((nm, jd) :: r, jobs2)
          | some (false, jobs1) => shGoSt hosted sku fuel rest jobs1

/-- `WorkflowParser.self_hosted` (lines 391-409), stateful: *not* a
pure read — through `_check_matrix_runner` it can extend matrix lists
of the job data in place.  The model keeps the authoritative mutable
copy of a job declaration in the `Job` objects (the only readers of
`strategy` consult `self.jobs`); in Python the returned `job_details`
dicts and the parsed document alias the same mutated dicts, so the
growth is visible through them as well. -/
def selfHostedSt (hosted : List String) (sku : String → Bool) (P : WFParser)
    (fuel : Nat) : Option (List (String × JobData) × WFParser) :=
  match P.parsed_yml.jobs with
  | .table kvs =>
      if kvs.isEmpty then some ([], P)
      else
        match shGoSt hosted sku fuel kvs P.jobs with
        | none => none
        | some (r, jobs') => some (r, { P with jobs := jobs' })
  | _ => some ([], P)

example : selfHostedSt ["ubuntu-latest"] (fun _ => false) P4 10 =
    some ([], P4) := by rfl

example : (selfHostedSt ["ubuntu-latest"] (fun _ => false) P4control 10).map
    (fun r => r.1) = some [("$\x7b\x7b matrix", jdMatrix)] := by rfl

/-- Pointwise matrix-table extension: same keys in order, each
candidate list extended by some suffix. -/
def EntriesExt (e e' : List (String × List String)) : Prop :=
  List.Forall₂ (fun kv kv' => kv'.1 = kv.1 ∧ ∃ extra, kv'.2 = kv.2 ++ extra) e e'

/-- Matrix-block extension. -/
def matrixExtOpt : Option MatrixDecl → Option MatrixDecl → Prop
  | none, none => True
  | some m, some m' => m'.include_ = m.include_ ∧ EntriesExt m.entries m'.entries
  | _, _ => False

/-- Strategy-block extension: only the matrix entry lists may have
grown. -/
def strategyExt : Option StrategyDecl → Option StrategyDecl → Prop
  | none, none => True
  | some s, some s' => matrixExtOpt s.matrix s'.matrix
  | _, _ => False

/-- Declaration extension: every field equal except the strategy
matrix lists, which may only have grown. -/
def JobDataExt (d d' : JobData) : Prop :=
  d'.environment = d.environment ∧ d'.env = d.env ∧
  d'.permissions = d.permissions ∧ d'.if_ = d.if_ ∧ d'.needs = d.needs ∧
  d'.uses = d.uses ∧ d'.runs_on = d.runs_on ∧ d'.steps = d.steps ∧
  strategyExt d.strategy d'.strategy

/-- The frame of `self_hosted` on a job: every field unchanged
(including the two memoization fields — `self_hosted` never evaluates a
guard) except the `strategy.matrix` candidate lists, which may only
have been extended in place by `_check_matrix_runner`. -/
def MatrixExt (j j' : Job) : Prop :=
  j'.job_name = j.job_name ∧ j'.needs = j.needs ∧ j'.steps = j.steps ∧
  j'.env = j.env ∧ j'.permissions = j.permissions ∧
  j'.deployments = j.deployments ∧ j'.if_condition = j.if_condition ∧
  j'.uses = j.uses ∧ j'.caller = j.caller ∧
  j'.external_caller = j.external_caller ∧ j'.has_gate = j.has_gate ∧
  j'.evaluated = j.evaluated ∧ JobDataExt j.job_data j'.job_data

theorem entriesExt_refl (e : List (String × List String)) : EntriesExt e e :=
  List.forall₂_same.mpr (fun kv _ => ⟨rfl, [], (List.append_nil kv.2).symm⟩)

theorem matrixExtOpt_refl (x : Option MatrixDecl) : matrixExtOpt x x := by
  cases x with
  | none => trivial
  | some m => exact ⟨rfl, entriesExt_refl m.entries⟩

theorem strategyExt_refl (s : Option StrategyDecl) : strategyExt s s := by
  cases s with
  | none => trivial
  | some s0 => exact matrixExtOpt_refl s0.matrix

theorem jobDataExt_refl (d : JobData) : JobDataExt d d :=
  ⟨rfl, rfl, rfl, rfl, rfl, rfl, rfl, rfl, strategyExt_refl d.strategy⟩

theorem matrixExt_refl (j : Job) : MatrixExt j j :=
  ⟨rfl, rfl, rfl, rfl, rfl, rfl, rfl, rfl, rfl, rfl, rfl, rfl,
    jobDataExt_refl j.job_data⟩

theorem entriesExt_trans {a b c : List (String × List String)}
    (h1 : EntriesExt a b) (h2 : EntriesExt b c) : EntriesExt a c := by
  induction h1 generalizing c with
  | nil => cases h2; exact List.Forall₂.nil
  | cons hx hxs ih =>
      cases h2 with
      | cons hy hys =>
          refine List.Forall₂.cons ?_ (ih hys)
          obtain ⟨hk1, e1, he1⟩ := hx
          obtain ⟨hk2, e2, he2⟩ := hy
          exact ⟨hk2.trans hk1, e1 ++ e2,
            by rw [he2, he1, List.append_assoc]⟩

theorem matrixExtOpt_trans {x y z : Option MatrixDecl}
    (h1 : matrixExtOpt x y) (h2 : matrixExtOpt y z) : matrixExtOpt x z := by
  cases x with
  | none =>
      cases y with
      | none => exact h2
      | some my => exact h1.elim
  | some mx =>
      cases y with
      | none => exact h1.elim
      | some my =>
          cases z with
          | none => exact h2.elim
          | some mz => exact ⟨h2.1.trans h1.1, entriesExt_trans h1.2 h2.2⟩

theorem strategyExt_trans {a b c : Option StrategyDecl}
    (h1 : strategyExt a b) (h2 : strategyExt b c) : strategyExt a c := by
  cases a with
  | none =>
      cases b with
      | none => exact h2
      | some b0 => exact h1.elim
  | some a0 =>
      cases b with
      | none => exact h1.elim
      | some b0 =>
          cases c with
          | none => exact h2.elim
          | some c0 => exact matrixExtOpt_trans h1 h2

theorem jobDataExt_trans {a b c : JobData} (h1 : JobDataExt a b)
    (h2 : JobDataExt b c) : JobDataExt a c := by
  obtain ⟨a1, a2, a3, a4, a5, a6, a7, a8, a9⟩ := h1
  obtain ⟨b1, b2, b3, b4, b5, b6, b7, b8, b9⟩ := h2
  exact ⟨b1.trans a1, b2.trans a2, b3.trans a3, b4.trans a4, b5.trans a5,
    b6.trans a6, b7.trans a7, b8.trans a8, strategyExt_trans a9 b9⟩

theorem matrixExt_trans {a b c : Job} (h1 : MatrixExt a b)
    (h2 : MatrixExt b c) : MatrixExt a c := by
  obtain ⟨a1, a2, a3, a4, a5, a6, a7, a8, a9, a10, a11, a12, a13⟩ := h1
  obtain ⟨b1, b2, b3, b4, b5, b6, b7, b8, b9, b10, b11, b12, b13⟩ := h2
  exact ⟨b1.trans a1, b2.trans a2, b3.trans a3, b4.trans a4, b5.trans a5,
    b6.trans a6, b7.trans a7, b8.trans a8, b9.trans a9, b10.trans a10,
    b11.trans a11, b12.trans a12, jobDataExt_trans a13 b13⟩

theorem forall2_matrixExt_refl (l : List Job) :
    List.Forall₂ MatrixExt l l :=
  List.forall₂_same.mpr (fun j _ => matrixExt_refl j)

theorem forall2_matrixExt_trans :
    ∀ {a b c : List Job}, List.Forall₂ MatrixExt a b →
      List.Forall₂ MatrixExt b c → List.Forall₂ MatrixExt a c := by
  intro a
  induction a with
  | nil =>
      intro b c h1 h2
      cases h1
      cases h2
      exact List.Forall₂.nil
  | cons x xs ih =>
      intro b c h1 h2
      cases h1 with
      | cons hx hxs =>
          cases h2 with
          | cons hy hys =>
              exact List.Forall₂.cons (matrixExt_trans hx hy) (ih hxs hys)

theorem entriesExt_upsert {k : String} {l inc : List String} :
    ∀ {e : List (String × List String)}, dictGet k e = some l →
      EntriesExt e (dictUpsert k (l ++ inc) e) := by
  intro e
  induction e with
  | nil => intro h; cases h
  | cons kv rest ih =>
      intro h
      obtain ⟨k0, v0⟩ := kv
      simp only [dictGet] at h
      simp only [dictUpsert]
      by_cases hk : k0 = k
      · rw [if_pos hk] at h ⊢
        have hv : v0 = l := Option.some.inj h
        exact List.Forall₂.cons ⟨hk.symm, inc, by rw [hv]⟩
          (entriesExt_refl rest)
      · rw [if_neg hk] at h ⊢
        exact List.Forall₂.cons ⟨rfl, [], (List.append_nil v0).symm⟩ (ih h)

theorem forall2_matrixExt_set :
    ∀ {jobs : List Job} {i : Nat} {jd jd' : Job},
      jobs[i]? = some jd → MatrixExt jd jd' →
      List.Forall₂ MatrixExt jobs (jobs.set i jd') := by
  intro jobs
  induction jobs with
  | nil => intro i jd jd' hget _; cases hget
  | cons x xs ih =>
      intro i jd jd' hget h
      cases i with
      | zero =>
          rw [List.getElem?_cons_zero] at hget
          have hx : x = jd := Option.some.inj hget
          rw [List.set_cons_zero]
          exact List.Forall₂.cons (hx ▸ h) (forall2_matrixExt_refl xs)
      | succ n =>
          rw [List.getElem?_cons_succ] at hget
          rw [List.set_cons_succ]
          exact List.Forall₂.cons (matrixExt_refl x) (ih hget h)

theorem setMatrixEntry_ext {jobs : List Job} {i : Nat} {jd : Job}
    {strat : StrategyDecl} {m : MatrixDecl} {k : String} {l inc : List String}
    (hget : jobs[i]? = some jd) (hstrat : jd.job_data.strategy = some strat)
    (hm : strat.matrix = some m) (hl : dictGet k m.entries = some l) :
    List.Forall₂ MatrixExt jobs (setMatrixEntry jobs i k (l ++ inc)) := by
  simp only [setMatrixEntry, hget, hstrat, hm]
  refine forall2_matrixExt_set hget
    ⟨rfl, rfl, rfl, rfl, rfl, rfl, rfl, rfl, rfl, rfl, rfl, rfl,
      rfl, rfl, rfl, rfl, rfl, rfl, rfl, rfl, ?_⟩
  simp only []
  rw [hstrat]
  simp only [strategyExt]
  rw [hm]
  exact ⟨rfl, entriesExt_upsert hl⟩

/-- Frame of the stateful runner checks: the only state change is the
in-place extension of matrix candidate lists. -/
theorem runChkSt_frame (hosted : List String) (sku : String → Bool) :
    ∀ (fuel : Nat) (t : RunTaskSt) (jobs : List Job) (b : Bool)
      (jobs' : List Job),
      runChkSt hosted sku fuel t jobs = some (b, jobs') →
      List.Forall₂ MatrixExt jobs jobs' := by
  intro fuel
  induction fuel with
  | zero =>
      intro t jobs b jobs' h
      simp [runChkSt] at h
  | succ g ih =>
      intro t jobs b jobs' h
      cases t with
      | single label =>
          simp only [runChkSt] at h
          by_cases hc : containsSub label "self-hosted" = true
          · rw [if_pos hc] at h
            obtain rfl : jobs = jobs' := congrArg Prod.snd (Option.some.inj h)
            exact forall2_matrixExt_refl jobs
          · rw [if_neg hc] at h
            cases hf : findMatrixKey label with
            | some k =>
                simp only [hf] at h
                exact ih _ _ _ _ h
            | none =>
                simp only [hf] at h
                obtain rfl : jobs = jobs' := congrArg Prod.snd (Option.some.inj h)
                exact forall2_matrixExt_refl jobs
      | matrix label =>
          simp only [runChkSt] at h
          cases hf : findMatrixKey label with
          | none =>
              simp only [hf] at h
              obtain rfl : jobs = jobs' := congrArg Prod.snd (Option.some.inj h)
              exact forall2_matrixExt_refl jobs
          | some mk =>
              simp only [hf] at h
              cases hidx : jobs.findIdx? (fun j => j.job_name = headSplit label '.') with
              | none =>
                  simp only [hidx] at h
                  obtain rfl : jobs = jobs' := congrArg Prod.snd (Option.some.inj h)
                  exact forall2_matrixExt_refl jobs
              | some i =>
                  simp only [hidx] at h
                  cases hget : jobs[i]? with
                  | none =>
                      simp only [hget] at h
                      obtain rfl : jobs = jobs' :=
                        congrArg Prod.snd (Option.some.inj h)
                      exact forall2_matrixExt_refl jobs
                  | some jd =>
                      simp only [hget] at h
                      cases hstrat : jd.job_data.strategy with
                      | none =>
                          simp only [hstrat] at h
                          obtain rfl : jobs = jobs' :=
                            congrArg Prod.snd (Option.some.inj h)
                          exact forall2_matrixExt_refl jobs
                      | some strat =>
                          simp only [hstrat] at h
                          cases hm : strat.matrix with
                          | none =>
                              simp only [hm] at h
                              obtain rfl : jobs = jobs' :=
                                congrArg Prod.snd (Option.some.inj h)
                              exact forall2_matrixExt_refl jobs
                          | some m =>
                              simp only [hm] at h
                              cases hdg : dictGet mk m.entries with
                              | none =>
                                  simp only [hdg] at h
                                  exact ih _ _ _ _ h
                              | some l =>
                                  simp only [hdg] at h
                                  cases hincl : m.include_ with
                                  | none =>
                                      simp only [hincl] at h
                                      exact ih _ _ _ _ h
                                  | some incl =>
                                      simp only [hincl] at h
                                      exact forall2_matrixExt_trans
                                        (setMatrixEntry_ext hget hstrat hm hdg)
                                        (ih _ _ _ _ h)
      | anyOf labels =>
          cases labels with
          | nil =>
              simp only [runChkSt] at h
              obtain rfl : jobs = jobs' := congrArg Prod.snd (Option.some.inj h)
              exact forall2_matrixExt_refl jobs
          | cons l rest =>
              simp only [runChkSt] at h
              cases h1 : runChkSt hosted sku g (.single l) jobs with
              | none =>
                  simp only [h1] at h
                  exact Option.noConfusion h
              | some br =>
                  obtain ⟨b1, jobs1⟩ := br
                  simp only [h1] at h
                  cases b1 with
                  | true =>
                      obtain rfl : jobs1 = jobs' :=
                        congrArg Prod.snd (Option.some.inj h)
                      exact ih _ _ _ _ h1
                  | false =>
                      exact forall2_matrixExt_trans (ih _ _ _ _ h1)
                        (ih _ _ _ _ h)
      | anyLive i k pos =>
          simp only [runChkSt] at h
          cases hl : (matrixListOf jobs i k)[pos]? with
          | none =>
              simp only [hl] at h
              obtain rfl : jobs = jobs' := congrArg Prod.snd (Option.some.inj h)
              exact forall2_matrixExt_refl jobs
          | some label =>
              simp only [hl] at h
              cases h1 : runChkSt hosted sku g (.single label) jobs with
              | none =>
                  simp only [h1] at h
                  exact Option.noConfusion h
              | some br =>
                  obtain ⟨b1, jobs1⟩ := br
                  simp only [h1] at h
                  cases b1 with
                  | true =>
                      obtain rfl : jobs1 = jobs' :=
                        congrArg Prod.snd (Option.some.inj h)
                      exact ih _ _ _ _ h1
                  | false =>
                      exact forall2_matrixExt_trans (ih _ _ _ _ h1)
                        (ih _ _ _ _ h)

theorem isSelfHostedSt_frame (hosted : List String) (sku : String → Bool)
    (fuel : Nat) (jobs : List Job) (ro : RunsOn) (b : Bool)
    (jobs' : List Job)
    (h : isSelfHostedSt hosted sku fuel jobs ro = some (b, jobs')) :
    List.Forall₂ MatrixExt jobs jobs' := by
  cases ro with
  | str s => exact runChkSt_frame hosted sku fuel _ _ _ _ h
  | list xs => exact runChkSt_frame hosted sku fuel _ _ _ _ h

theorem shGoSt_frame (hosted : List String) (sku : String → Bool)
    (fuel : Nat) :
    ∀ (kvs : List (String × JobData)) (jobs : List Job)
      (r : List (String × JobData)) (jobs' : List Job),
      shGoSt hosted sku fuel kvs jobs = some (r, jobs') →
      List.Forall₂ MatrixExt jobs jobs' := by
  intro kvs
  induction kvs with
  | nil =>
      intro jobs r jobs' h
      obtain rfl : jobs = jobs' := congrArg Prod.snd (Option.some.inj h)
      exact forall2_matrixExt_refl jobs
  | cons kv rest ih =>
      intro jobs r jobs' h
      obtain ⟨nm, jd⟩ := kv
      simp only [shGoSt] at h
      cases hro : jd.runs_on with
      | none =>
          simp only [hro] at h
          exact ih _ _ _ h
      | some ro =>
          simp only [hro] at h
          cases his : isSelfHostedSt hosted sku fuel jobs ro with
          | none =>
              simp only [his] at h
              exact Option.noConfusion h
          | some br =>
              obtain ⟨bb, jobs1⟩ := br
              simp only [his] at h
              cases bb with
              | false =>
                  exact forall2_matrixExt_trans
                    (isSelfHostedSt_frame hosted sku fuel jobs ro false jobs1 his)
                    (ih _ _ _ h)
              | true =>
                  cases h2 : shGoSt hosted sku fuel rest jobs1 with
                  | none =>
                      simp only [h2] at h
                      exact Option.noConfusion h
                  | some pr =>
                      obtain ⟨r2, jobs2⟩ := pr
                      simp only [h2] at h
                      obtain rfl : jobs2 = jobs' :=
                        congrArg Prod.snd (Option.some.inj h)
                      exact forall2_matrixExt_trans
                        (isSelfHostedSt_frame hosted sku fuel jobs ro true jobs1 his)
                        (ih _ _ _ h2)

/-- Frame of stateful `self_hosted`: jobs change only by in-place
matrix-list extension (no memoization, nothing else); `callees` and
every non-jobs parser field are untouched.  No claim is made about the
parsed document or the returned `job_details`, which in Python alias
the mutated dicts. -/
theorem selfHostedSt_frame (hosted : List String) (sku : String → Bool)
    (P : WFParser) (fuel : Nat) :
    ∀ res P', selfHostedSt hosted sku P fuel = some (res, P') →
      List.Forall₂ MatrixExt P.jobs P'.jobs ∧
      P'.callees = P.callees ∧ P'.raw_yaml = P.raw_yaml ∧
      P'.repo_name = P.repo_name ∧ P'.wf_name = P.wf_name ∧
      P'.external_ref = P.external_ref ∧ P'.external_path = P.external_path ∧
      P'.branch = P.branch ∧ P'.composites = P.composites := by
  intro res P' h
  cases hshape : P.parsed_yml.jobs with
  | absent =>
      simp only [selfHostedSt, hshape] at h
      obtain rfl : P = P' := congrArg Prod.snd (Option.some.inj h)
      exact ⟨forall2_matrixExt_refl P.jobs, rfl, rfl, rfl, rfl, rfl, rfl,
        rfl, rfl⟩
  | null =>
      simp only [selfHostedSt, hshape] at h
      obtain rfl : P = P' := congrArg Prod.snd (Option.some.inj h)
      exact ⟨forall2_matrixExt_refl P.jobs, rfl, rfl, rfl, rfl, rfl, rfl,
        rfl, rfl⟩
  | table kvs =>
      simp only [selfHostedSt, hshape] at h
      by_cases hk : kvs.isEmpty = true
      · rw [if_pos hk] at h
        obtain rfl : P = P' := congrArg Prod.snd (Option.some.inj h)
        exact ⟨forall2_matrixExt_refl P.jobs, rfl, rfl, rfl, rfl, rfl, rfl,
          rfl, rfl⟩
      · rw [if_neg hk] at h
        cases hgo : shGoSt hosted sku fuel kvs P.jobs with
        | none =>
            simp only [hgo] at h
            exact Option.noConfusion h
        | some pr =>
            obtain ⟨r, jobs1⟩ := pr
            simp only [hgo] at h
            obtain rfl : { P with jobs := jobs1 } = P' :=
              congrArg Prod.snd (Option.some.inj h)
            exact ⟨shGoSt_frame hosted sku fuel kvs P.jobs r jobs1 hgo,
              rfl, rfl, rfl, rfl, rfl, rfl, rfl, rfl⟩

/-- `WorkflowParser.check_rules` (lines 310-324): a pure read of job
deployment declarations. -/
def checkRulesP (P : WFParser) (gate_rules : List String) : Bool :=
  !(gate_rules.any (fun rule =>
    P.jobs.any (fun j => j.deployments.any (fun d => containsSub d rule))))

/-- `check_rules`, stateful: the parser is returned untouched. -/
def checkRulesSt (P : WFParser) (gate_rules : List String) :
    Bool × WFParser :=
  (checkRulesP P gate_rules, P)

/-- The step loop of `check_injection` for one job (lines 344-385),
stateful: `backtrack_gate` mutates the job list; on first entry
creation the job's guard is memoized (line 379, at the position of the
current job); each recorded step's guard is memoized (lines 384-385);
the finalized steps are written back by the caller. -/
def injStepsSt (ora : EvalOracle) (fuel : Nat)
    (filtT : List String → List String)
    (wfEnv : Option (List (String × EnvVal))) (jD : JobData) (jNeeds : Needs)
    (pos : Nat) :
    List Step → List Step → Option JobInj → List Job →
    Option (Option JobInj × List Step × List Job)
  | doneRev, [], cur, jobs => some (cur, doneRev.reverse, jobs)
  | doneRev, s :: rest, cur, jobs =>
      if s.is_gate then some (cur, doneRev.reverse ++ s :: rest, jobs)
      else if s.is_script then
        let tokens := filterEnvSource (filterEnvSource (filterEnvSource
          (filtT s.getTokens) wfEnv) jD.env) s.env
        if !tokens.isEmpty then
          if truthyNeeds jNeeds then
            match backtrackGateSt ora fuel jobs jNeeds with
            | none => none
            | some (true, jobs1) =>
                some (cur, doneRev.reverse ++ s :: rest, jobs1)
            | some (false, jobs1) =>
                match cur with
                | none =>
                    let sp := splitState pos jobs1
                    let ifc := (sp.2.1.evaluateIf ora).1
                    let jobs2 := sp.1 ++ sp.2.1.memoFix ora :: sp.2.2
                    let r := s.evaluateIf ora
                    injStepsSt ora fuel filtT wfEnv jD jNeeds pos
                      (r.2 :: doneRev) rest
                      (some { if_check := ifc,
                              steps := (dictUpsert s.name
                                (StepInj.mk tokens.eraseDups
                                  (if truthyOS r.1 then r.1 else none)) []) })
                      jobs2
                | some e =>
                    let r := s.evaluateIf ora
                    injStepsSt ora fuel filtT wfEnv jD jNeeds pos
                      (r.2 :: doneRev) rest
                      (some { e with steps := (dictUpsert s.name
                        (StepInj.mk tokens.eraseDups
                          (if truthyOS r.1 then r.1 else none)) e.steps) })
                      jobs1
          else
            match cur with
            | none =>
                let sp := splitState pos jobs
                let ifc := (sp.2.1.evaluateIf ora).1
                let jobs2 := sp.1 ++ sp.2.1.memoFix ora :: sp.2.2
                let r := s.evaluateIf ora
                injStepsSt ora fuel filtT wfEnv jD jNeeds pos
                  (r.2 :: doneRev) rest
                  (some { if_check := ifc,
                          steps := (dictUpsert s.name
                            (StepInj.mk tokens.eraseDups
                              (if truthyOS r.1 then r.1 else none)) []) })
                  jobs2
            | some e =>
                let r := s.evaluateIf ora
                injStepsSt ora fuel filtT wfEnv jD jNeeds pos
                  (r.2 :: doneRev) rest
                  (some { e with steps := (dictUpsert s.name
                    (StepInj.mk tokens.eraseDups
                      (if truthyOS r.1 then r.1 else none)) e.steps) })
                  jobs
        else injStepsSt ora fuel filtT wfEnv jD jNeeds pos
          (s :: doneRev) rest cur jobs
      else injStepsSt ora fuel filtT wfEnv jD jNeeds pos
        (s :: doneRev) rest cur jobs

/-- The job fold of `check_injection` (lines 342-385), stateful. -/
def injLoopSt (ora : EvalOracle) (fuel : Nat)
    (filtT : List String → List String)
    (wfEnv : Option (List (String × EnvVal))) :
    Nat → Nat → List Job → List (String × JobInj) →
    Option (List Job × List (String × JobInj))
  | 0, _, jobs, acc => some (jobs, acc)
  | cnt+1, pos, jobs, acc =>
      let sp := splitState pos jobs
      let j := sp.2.1
      match injStepsSt ora fuel filtT wfEnv j.job_data j.needs pos [] j.steps
          (dictGet j.job_name acc) jobs with
      | none => none
      | some (r, steps2, jobs1) =>
          let sp1 := splitState pos jobs1
          let jobs2 := sp1.1 ++ { sp1.2.1 with steps := steps2 } :: sp1.2.2
          match r with
          | none => injLoopSt ora fuel filtT wfEnv cnt (pos+1) jobs2 acc
          | some e =>
              injLoopSt ora fuel filtT wfEnv cnt (pos+1) jobs2
                (dictUpsert j.job_name e acc)

/-- `WorkflowParser.check_injection` (lines 326-389), stateful. -/
def checkInjectionSt (ora : EvalOracle) (P : WFParser) (fuel : Nat)
    (filtT : List String → List String) (bypass : Bool) :
    Option (InjResult × WFParser) :=
  match getVulnerableTriggersOn P.parsed_yml.onBlock none with
  | none => none
  | some vt =>
      if vt.isEmpty && !bypass then some (⟨[], []⟩, P)
      else
        match injLoopSt ora fuel filtT P.parsed_yml.env P.jobs.length 0
            P.jobs [] with
        | none => none
        | some (jobs', entries) =>
            if entries.isEmpty then
              some (⟨entries, []⟩, { P with jobs := jobs' })
            else some (⟨entries, vt⟩, { P with jobs := jobs' })

/-- Refinement and frame of the stateful step loop of
`check_injection` for the job at position `A.length`: it computes the
pure loop's entry over the original job list, finalizes the job's steps
by at most memoizing each, and mutates the job list only by guard
memoization. -/
theorem injStepsSt_ref (ora : EvalOracle) (fuel : Nat)
    (filtT : List String → List String)
    (wfEnv : Option (List (String × EnvVal))) (A B : List Job) (jP : Job) :
    ∀ (stepsP steps : List Step), List.Forall₂ (StepML ora) stepsP steps →
    ∀ (doneRev : List Step) (cur : Option JobInj) (jobs : List Job),
      List.Forall₂ (JobML ora) (A ++ jP :: B) jobs →
      injStepsP ora (A ++ jP :: B) fuel filtT wfEnv jP stepsP cur =
        (injStepsSt ora fuel filtT wfEnv jP.job_data jP.needs A.length
          doneRev steps cur jobs).map (fun r => r.1) ∧
      (∀ cur' steps' jobs',
        injStepsSt ora fuel filtT wfEnv jP.job_data jP.needs A.length
          doneRev steps cur jobs = some (cur', steps', jobs') →
        List.Forall₂ (StepMF ora) (doneRev.reverse ++ steps) steps' ∧
        List.Forall₂ (JobMF ora) jobs jobs' ∧
        List.Forall₂ (JobML ora) (A ++ jP :: B) jobs') := by
  intro stepsP steps hsteps
  induction hsteps with
  | nil =>
      intro doneRev cur jobs hjp
      refine ⟨rfl, fun cur' steps' jobs' h => ?_⟩
      have e := Option.some.inj h
      obtain ⟨rfl, rfl, rfl⟩ : cur = cur' ∧ doneRev.reverse = steps' ∧
          jobs = jobs' :=
        ⟨congrArg (fun r => r.1) e, congrArg (fun r => r.2.1) e,
          congrArg (fun r => r.2.2) e⟩
      refine ⟨?_, forall2_jobMF_refl ora jobs, hjp⟩
      rw [List.append_nil]
      exact forall2_stepMF_refl ora doneRev.reverse
  | @cons sP s restP rest hs hrest ih =>
      intro doneRev cur jobs hjp
      obtain ⟨hnm, hgate, hck, hscript, hsink, hmeta, htok, henv, hpure⟩ :=
        stepML_fields hs
      simp only [injStepsP, injStepsSt]
      have htokeq : filterEnvSource (filterEnvSource (filterEnvSource
          (filtT s.getTokens) wfEnv) jP.job_data.env) s.env =
          stepInjTokens filtT wfEnv jP sP := by
        simp only [stepInjTokens, Step.getTokens, htok, henv]
      rw [htokeq]
      by_cases hg : s.is_gate = true
      · have hgP : sP.is_gate = true := hgate ▸ hg
        rw [if_pos hg, if_pos hgP]
        refine ⟨rfl, fun cur' steps' jobs' h => ?_⟩
        have e := Option.some.inj h
        obtain ⟨rfl, rfl, rfl⟩ : cur = cur' ∧
            doneRev.reverse ++ s :: rest = steps' ∧ jobs = jobs' :=
          ⟨congrArg (fun r => r.1) e, congrArg (fun r => r.2.1) e,
            congrArg (fun r => r.2.2) e⟩
        exact ⟨forall2_stepMF_refl ora _, forall2_jobMF_refl ora jobs, hjp⟩
      · have hgP : ¬ sP.is_gate = true := fun hx => hg (hgate.symm ▸ hx)
        rw [if_neg hg, if_neg hgP]
        by_cases hscr : s.is_script = true
        · have hscrP : sP.is_script = true := hscript ▸ hscr
          rw [if_pos hscr, if_pos hscrP]
          by_cases hemp : (!(stepInjTokens filtT wfEnv jP sP).isEmpty) = true
          · rw [if_pos hemp, if_pos hemp]
            by_cases hneeds : truthyNeeds jP.needs = true
            · rw [if_pos hneeds, if_pos hneeds]
              obtain ⟨hbt1, hbt2⟩ :=
                btRun_ref ora (A ++ jP :: B) fuel (.needs jobs jP.needs)
                  (.needs jP.needs) ⟨rfl, hjp⟩
              cases hb : btRun ora fuel (.needs jobs jP.needs) with
              | none =>
                  rw [hb] at hbt1
                  have hpn : backtrackGateP ora (A ++ jP :: B) fuel jP.needs =
                      none := hbt1
                  have hsn : backtrackGateSt ora fuel jobs jP.needs = none := hb
                  rw [hpn, hsn]
                  exact ⟨rfl, fun cur' steps' jobs' h => by simp at h⟩
              | some br =>
                  obtain ⟨g, jobs1⟩ := br
                  rw [hb] at hbt1
                  have hpn : backtrackGateP ora (A ++ jP :: B) fuel jP.needs =
                      some g := hbt1
                  have hsn : backtrackGateSt ora fuel jobs jP.needs =
                      some (g, jobs1) := hb
                  rw [hpn, hsn]
                  obtain ⟨hmf1, hml1⟩ := hbt2 g jobs1 hb
                  cases g with
                  | true =>
                      simp only []
                      refine ⟨rfl, fun cur' steps' jobs' h => ?_⟩
                      have e := Option.some.inj h
                      obtain ⟨rfl, rfl, rfl⟩ : cur = cur' ∧
                          doneRev.reverse ++ s :: rest = steps' ∧
                          jobs1 = jobs' :=
                        ⟨congrArg (fun r => r.1) e, congrArg (fun r => r.2.1) e,
                          congrArg (fun r => r.2.2) e⟩
                      exact ⟨forall2_stepMF_refl ora _, hmf1, hml1⟩
                  | false =>
                      simp only []
                      cases cur with
                      | none =>
                          obtain ⟨c1, B1, hc1, hB1, htake1, hdecomp1, hsplit1⟩ :=
                            splitState_spec (R := JobML ora) (A := A) (B := B)
                              (c := jP) hml1
                          rw [hsplit1]
                          simp only [stepEvaluateIf_eq, addInjEntry]
                          have hifc : (c1.evaluateIf ora).1 = jP.evalPure ora := by
                            rw [Job.evaluateIf_eq]
                            exact (JobML.fields hc1).2.2.2.2.2.2.2.2.2.1
                          rw [hifc, hpure, hnm]
                          have hinv : List.Forall₂ (JobML ora) (A ++ jP :: B)
                              (jobs1.take A.length ++ c1.memoFix ora :: B1) :=
                            forall2_jobML_append htake1
                              (List.Forall₂.cons
                                (hc1.trans (JobML.ofMemoFix ora c1)) hB1)
                          obtain ⟨ih1, ih2⟩ := ih (s.memoFix ora :: doneRev)
                            (some { if_check := jP.evalPure ora,
                                    steps := (dictUpsert sP.name
                                      (StepInj.mk
                                        (stepInjTokens filtT wfEnv jP sP).eraseDups
                                        (if truthyOS (sP.evalPure ora) then
                                          sP.evalPure ora else none)) []) })
                            (jobs1.take A.length ++ c1.memoFix ora :: B1) hinv
                          refine ⟨ih1, fun cur' steps' jobs' h => ?_⟩
                          obtain ⟨hf1, hf2, hf3⟩ := ih2 cur' steps' jobs' h
                          have h12 : List.Forall₂ (JobMF ora) jobs1
                              (jobs1.take A.length ++ c1.memoFix ora :: B1) := by
                            have := forall2_jobMF_update ora
                              (jobs1.take A.length) B1
                              (Or.inr rfl : JobMF ora c1 (c1.memoFix ora))
                            rw [← hdecomp1] at this
                            exact this
                          exact ⟨stepFrame_push (Or.inr rfl) hf1,
                            forall2_jobMF_trans hmf1
                              (forall2_jobMF_trans h12 hf2), hf3⟩
                      | some e0 =>
                          simp only [stepEvaluateIf_eq, addInjEntry]
                          rw [hpure, hnm]
                          obtain ⟨ih1, ih2⟩ := ih (s.memoFix ora :: doneRev)
                            (some { e0 with steps := (dictUpsert sP.name
                              (StepInj.mk
                                (stepInjTokens filtT wfEnv jP sP).eraseDups
                                (if truthyOS (sP.evalPure ora) then
                                  sP.evalPure ora else none)) e0.steps) })
                            jobs1 hml1
                          refine ⟨ih1, fun cur' steps' jobs' h => ?_⟩
                          obtain ⟨hf1, hf2, hf3⟩ := ih2 cur' steps' jobs' h
                          exact ⟨stepFrame_push (Or.inr rfl) hf1,
                            forall2_jobMF_trans hmf1 hf2, hf3⟩
            · rw [if_neg hneeds, if_neg hneeds]
              cases cur with
              | none =>
                  obtain ⟨c1, B1, hc1, hB1, htake1, hdecomp1, hsplit1⟩ :=
                    splitState_spec (R := JobML ora) (A := A) (B := B)
                      (c := jP) hjp
                  rw [hsplit1]
                  simp only [stepEvaluateIf_eq, addInjEntry]
                  have hifc : (c1.evaluateIf ora).1 = jP.evalPure ora := by
                    rw [Job.evaluateIf_eq]
                    exact (JobML.fields hc1).2.2.2.2.2.2.2.2.2.1
                  rw [hifc, hpure, hnm]
                  have hinv : List.Forall₂ (JobML ora) (A ++ jP :: B)
                      (jobs.take A.length ++ c1.memoFix ora :: B1) :=
                    forall2_jobML_append htake1
                      (List.Forall₂.cons
                        (hc1.trans (JobML.ofMemoFix ora c1)) hB1)
                  obtain ⟨ih1, ih2⟩ := ih (s.memoFix ora :: doneRev)
                    (some { if_check := jP.evalPure ora,
                            steps := (dictUpsert sP.name
                              (StepInj.mk
                                (stepInjTokens filtT wfEnv jP sP).eraseDups
                                (if truthyOS (sP.evalPure ora) then
                                  sP.evalPure ora else none)) []) })
                    (jobs.take A.length ++ c1.memoFix ora :: B1) hinv
                  refine ⟨ih1, fun cur' steps' jobs' h => ?_⟩
                  obtain ⟨hf1, hf2, hf3⟩ := ih2 cur' steps' jobs' h
                  have h12 : List.Forall₂ (JobMF ora) jobs
                      (jobs.take A.length ++ c1.memoFix ora :: B1) := by
                    have := forall2_jobMF_update ora (jobs.take A.length) B1
                      (Or.inr rfl : JobMF ora c1 (c1.memoFix ora))
                    rw [← hdecomp1] at this
                    exact this
                  exact ⟨stepFrame_push (Or.inr rfl) hf1,
                    forall2_jobMF_trans h12 hf2, hf3⟩
              | some e0 =>
                  simp only [stepEvaluateIf_eq, addInjEntry]
                  rw [hpure, hnm]
                  obtain ⟨ih1, ih2⟩ := ih (s.memoFix ora :: doneRev)
                    (some { e0 with steps := (dictUpsert sP.name
                      (StepInj.mk
                        (stepInjTokens filtT wfEnv jP sP).eraseDups
                        (if truthyOS (sP.evalPure ora) then
                          sP.evalPure ora else none)) e0.steps) })
                    jobs hjp
                  refine ⟨ih1, fun cur' steps' jobs' h => ?_⟩
                  obtain ⟨hf1, hf2, hf3⟩ := ih2 cur' steps' jobs' h
                  exact ⟨stepFrame_push (Or.inr rfl) hf1, hf2, hf3⟩
          · rw [if_neg hemp, if_neg hemp]
            obtain ⟨ih1, ih2⟩ := ih (s :: doneRev) cur jobs hjp
            refine ⟨ih1, fun cur' steps' jobs' h => ?_⟩
            obtain ⟨hf1, hf2, hf3⟩ := ih2 cur' steps' jobs' h
            exact ⟨stepFrame_push (stepMF_refl ora s) hf1, hf2, hf3⟩
        · have hscrP : ¬ sP.is_script = true := fun hx => hscr (hscript.symm ▸ hx)
          rw [if_neg hscr, if_neg hscrP]
          obtain ⟨ih1, ih2⟩ := ih (s :: doneRev) cur jobs hjp
          refine ⟨ih1, fun cur' steps' jobs' h => ?_⟩
          obtain ⟨hf1, hf2, hf3⟩ := ih2 cur' steps' jobs' h
          exact ⟨stepFrame_push (stepMF_refl ora s) hf1, hf2, hf3⟩

/-- Refinement and frame of the stateful job fold of
`check_injection`. -/
theorem injLoopSt_ref (ora : EvalOracle) (fuel : Nat)
    (filtT : List String → List String)
    (wfEnv : Option (List (String × EnvVal))) :
    ∀ (todoP A jobs : List Job) (acc : List (String × JobInj)),
      List.Forall₂ (JobML ora) (A ++ todoP) jobs →
      injAllP ora (A ++ todoP) fuel filtT wfEnv todoP acc =
        (injLoopSt ora fuel filtT wfEnv todoP.length A.length jobs acc).map
          (fun r => r.2) ∧
      (∀ jobs' acc',
        injLoopSt ora fuel filtT wfEnv todoP.length A.length jobs acc =
          some (jobs', acc') →
        List.Forall₂ (JobML ora) jobs jobs' ∧
        List.Forall₂ (JobML ora) (A ++ todoP) jobs') := by
  intro todoP
  induction todoP with
  | nil =>
      intro A jobs acc hjp
      refine ⟨rfl, fun jobs' acc' h => ?_⟩
      have e := Option.some.inj h
      obtain ⟨rfl, rfl⟩ : jobs = jobs' ∧ acc = acc' :=
        ⟨congrArg (fun r => r.1) e, congrArg (fun r => r.2) e⟩
      exact ⟨forall2_jobML_refl ora jobs, hjp⟩
  | cons jP restP ih =>
      intro A jobs acc hjp
      obtain ⟨c, B', hcML, hB, htake, hdecomp, hsplit⟩ :=
        splitState_spec (R := JobML ora) (A := A) (B := restP) (c := jP) hjp
      have hfld := JobML.fields hcML
      have hname : c.job_name = jP.job_name := hfld.1
      have hdata : c.job_data = jP.job_data := hfld.2.1
      have hneeds : c.needs = jP.needs := hfld.2.2.1
      have hstepsML : List.Forall₂ (StepML ora) jP.steps c.steps :=
        hfld.2.2.2.2.2.2.2.2.2.2
      obtain ⟨hs1, hs2⟩ := injStepsSt_ref ora fuel filtT wfEnv A restP jP
        jP.steps c.steps hstepsML [] (dictGet jP.job_name acc) jobs hjp
      simp only [List.length_cons, injLoopSt, injAllP]
      rw [hsplit]
      simp only [hname, hdata, hneeds]
      cases hsc : injStepsSt ora fuel filtT wfEnv jP.job_data jP.needs A.length
          [] c.steps (dictGet jP.job_name acc) jobs with
      | none =>
          rw [hsc] at hs1
          rw [hs1]
          exact ⟨rfl, fun jobs' acc' h => by simp at h⟩
      | some tr =>
          obtain ⟨r, steps2, jobs1⟩ := tr
          rw [hsc] at hs1
          rw [hs1]
          simp only [Option.map_some']
          obtain ⟨hfS, hfJ, hfJP⟩ := hs2 r steps2 jobs1 hsc
          have hfS' : List.Forall₂ (StepMF ora) c.steps steps2 := hfS
          have hlen : (jobs.take A.length).length = A.length :=
            htake.length_eq.symm
          rw [hdecomp] at hfJ
          obtain ⟨c1, B1, hc1, hB1, htake1, hdecomp1, hsplit1⟩ :=
            splitState_spec (R := JobMF ora) (A := jobs.take A.length)
              (B := B') (c := c) hfJ
          rw [hlen] at htake1 hdecomp1 hsplit1
          rw [hsplit1]
          simp only []
          have hstC1 : List.Forall₂ (StepML ora) c1.steps steps2 := by
            rw [JobMF.steps_eq hc1]
            exact forall2_stepMF_toML hfS'
          have hstML : List.Forall₂ (StepML ora) jP.steps steps2 :=
            forall2_stepML_trans hstepsML (forall2_stepMF_toML hfS')
          have hinv' : List.Forall₂ (JobML ora) ((A ++ [jP]) ++ restP)
              (jobs1.take A.length ++ { c1 with steps := steps2 } :: B1) := by
            rw [List.append_assoc, List.singleton_append]
            exact forall2_jobML_append
              (forall2_jobML_trans htake (forall2_jobMF_toML htake1))
              (List.Forall₂.cons
                (JobML.setSteps (hcML.trans (jobMF_toML hc1)) hstML)
                (forall2_jobML_trans hB (forall2_jobMF_toML hB1)))
          have h01 : List.Forall₂ (JobML ora) jobs jobs1 := by
            rw [hdecomp]
            exact forall2_jobMF_toML hfJ
          have h23 : List.Forall₂ (JobML ora) jobs1
              (jobs1.take A.length ++ { c1 with steps := steps2 } :: B1) := by
            have := forall2_jobML_update ora (jobs1.take A.length) B1
              (JobML.selfSetSteps ora c1 hstC1)
            rw [← hdecomp1] at this
            exact this
          cases r with
          | none =>
              obtain ⟨ih1, ih2⟩ := ih (A ++ [jP])
                (jobs1.take A.length ++ { c1 with steps := steps2 } :: B1)
                acc hinv'
              rw [List.append_assoc, List.singleton_append] at ih1
              have hApos : (A ++ [jP]).length = A.length + 1 := by simp
              rw [hApos] at ih1 ih2
              refine ⟨ih1, fun jobs' acc' h => ?_⟩
              obtain ⟨hF1, hF2⟩ := ih2 jobs' acc' h
              rw [List.append_assoc, List.singleton_append] at hF2
              exact ⟨forall2_jobML_trans h01 (forall2_jobML_trans h23 hF1), hF2⟩
          | some e =>
              obtain ⟨ih1, ih2⟩ := ih (A ++ [jP])
                (jobs1.take A.length ++ { c1 with steps := steps2 } :: B1)
                (dictUpsert jP.job_name e acc) hinv'
              rw [List.append_assoc, List.singleton_append] at ih1
              have hApos : (A ++ [jP]).length = A.length + 1 := by simp
              rw [hApos] at ih1 ih2
              refine ⟨ih1, fun jobs' acc' h => ?_⟩
              obtain ⟨hF1, hF2⟩ := ih2 jobs' acc' h
              rw [List.append_assoc, List.singleton_append] at hF2
              exact ⟨forall2_jobML_trans h01 (forall2_jobML_trans h23 hF1), hF2⟩

/-- Refinement and frame of stateful `check_injection`: it returns the
pure analysis of any memo-ancestor of the current job list, and the
only parser mutation is guard memoization inside the jobs (in
particular `callees` is untouched). -/
theorem checkInjectionSt_ref (ora : EvalOracle) (fuel : Nat)
    (filtT : List String → List String) (P : WFParser) (bypass : Bool)
    (jp : List Job) (hjp : List.Forall₂ (JobML ora) jp P.jobs) :
    checkInjectionP ora { P with jobs := jp } fuel filtT bypass =
      (checkInjectionSt ora P fuel filtT bypass).map (fun r => r.1) ∧
    (∀ res P', checkInjectionSt ora P fuel filtT bypass = some (res, P') →
      List.Forall₂ (JobML ora) P.jobs P'.jobs ∧
      List.Forall₂ (JobML ora) jp P'.jobs ∧
      P'.callees = P.callees ∧
      P'.parsed_yml = P.parsed_yml ∧ P'.raw_yaml = P.raw_yaml ∧
      P'.repo_name = P.repo_name ∧ P'.wf_name = P.wf_name ∧
      P'.external_ref = P.external_ref ∧ P'.external_path = P.external_path ∧
      P'.branch = P.branch ∧ P'.composites = P.composites) := by
  have hlen : jp.length = P.jobs.length := hjp.length_eq
  obtain ⟨lp1, lp2⟩ :=
    injLoopSt_ref ora fuel filtT P.parsed_yml.env jp [] P.jobs [] hjp
  rw [List.length_nil] at lp1 lp2
  rw [hlen] at lp1 lp2
  rw [List.nil_append] at lp1 lp2
  simp only [checkInjectionP, checkInjectionSt]
  cases hvt : getVulnerableTriggersOn P.parsed_yml.onBlock none with
  | none => exact ⟨rfl, fun res P' h => by simp at h⟩
  | some vt =>
      simp only []
      by_cases hemp : (vt.isEmpty && !bypass) = true
      · rw [if_pos hemp, if_pos hemp]
        refine ⟨rfl, fun res P' h => ?_⟩
        have e := Option.some.inj h
        obtain ⟨rfl, rfl⟩ : (⟨[], []⟩ : InjResult) = res ∧ P = P' :=
          ⟨congrArg (fun r => r.1) e, congrArg (fun r => r.2) e⟩
        exact ⟨forall2_jobML_refl ora P.jobs, hjp, rfl,
          rfl, rfl, rfl, rfl, rfl, rfl, rfl, rfl⟩
      · rw [if_neg hemp, if_neg hemp]
        cases hloop : injLoopSt ora fuel filtT P.parsed_yml.env
            P.jobs.length 0 P.jobs [] with
        | none =>
            rw [hloop] at lp1
            rw [lp1]
            exact ⟨rfl, fun res P' h => by simp at h⟩
        | some tr =>
            obtain ⟨jobs', entries⟩ := tr
            rw [hloop] at lp1
            rw [lp1]
            simp only [Option.map_some']
            obtain ⟨hF1, hF2⟩ := lp2 jobs' entries hloop
            by_cases he : entries.isEmpty = true
            · rw [if_pos he, if_pos he]
              refine ⟨rfl, fun res P' h => ?_⟩
              have e := Option.some.inj h
              obtain ⟨rfl, rfl⟩ : (⟨entries, []⟩ : InjResult) = res ∧
                  { P with jobs := jobs' } = P' :=
                ⟨congrArg (fun r => r.1) e, congrArg (fun r => r.2) e⟩
              exact ⟨hF1, hF2, rfl, rfl, rfl, rfl, rfl, rfl, rfl, rfl, rfl⟩
            · rw [if_neg he, if_neg he]
              refine ⟨rfl, fun res P' h => ?_⟩
              have e := Option.some.inj h
              obtain ⟨rfl, rfl⟩ : (⟨entries, vt⟩ : InjResult) = res ∧
                  { P with jobs := jobs' } = P' :=
                ⟨congrArg (fun r => r.1) e, congrArg (fun r => r.2) e⟩
              exact ⟨hF1, hF2, rfl, rfl, rfl, rfl, rfl, rfl, rfl, rfl, rfl⟩

theorem analyzeCheckoutsP_congr (ora : EvalOracle) (fuel : Nat)
    {P Q : WFParser} (hpy : Q.parsed_yml = P.parsed_yml)
    (hjobs : Q.jobs = P.jobs) :
    analyzeCheckoutsP ora Q fuel = analyzeCheckoutsP ora P fuel := by
  simp only [analyzeCheckoutsP, hpy, hjobs]

theorem checkPwnRequestP_congr (ora : EvalOracle) (fuel : Nat) (bypass : Bool)
    {P Q : WFParser} (hpy : Q.parsed_yml = P.parsed_yml)
    (hjobs : Q.jobs = P.jobs) :
    checkPwnRequestP ora Q fuel bypass = checkPwnRequestP ora P fuel bypass := by
  simp only [checkPwnRequestP, hpy, analyzeCheckoutsP_congr ora fuel hpy hjobs]

theorem checkInjectionP_congr (ora : EvalOracle) (fuel : Nat)
    (filtT : List String → List String) (bypass : Bool)
    {P Q : WFParser} (hpy : Q.parsed_yml = P.parsed_yml)
    (hjobs : Q.jobs = P.jobs) :
    checkInjectionP ora Q fuel filtT bypass =
      checkInjectionP ora P fuel filtT bypass := by
  simp only [checkInjectionP, hpy, hjobs]

theorem ackCalleeAdds_congr (ora : EvalOracle) {P P' : WFParser}
    (hpy : P'.parsed_yml = P.parsed_yml)
    (hjobs : List.Forall₂ (JobML ora) P.jobs P'.jobs) :
    ackCalleeAdds P' = ackCalleeAdds P := by
  cases hsh : P.parsed_yml.jobs <;>
    simp [ackCalleeAdds, hpy, hsh, ackAdds_ml hjobs]

theorem pwnCalleeAdds_congr (ora : EvalOracle) {P P' : WFParser}
    (bypass : Bool) (hpy : P'.parsed_yml = P.parsed_yml)
    (hjobs : List.Forall₂ (JobML ora) P.jobs P'.jobs) :
    pwnCalleeAdds P' bypass = pwnCalleeAdds P bypass := by
  cases hvt : getVulnerableTriggersOn P.parsed_yml.onBlock none <;>
    simp [pwnCalleeAdds, hpy, hvt, ackCalleeAdds_congr ora hpy hjobs]

/-- C9 (amended): the analysis operations of the core are
side-effect-free except for (a) the one-time guard-annotation
memoization inside Job/Step instances, (b) the `callees` list, which
`analyze_checkouts` (and `check_pwn_request`, which calls it) extends
by the caller references of the scanned jobs on *every* invocation
(lines 226-229), and (c) `self_hosted`, whose matrix-resolution branch
extends the aliased `strategy.matrix[key]` candidate list *in place*
(line 460, reachable whenever the line-454 name lookup succeeds) —
mutating job data, and through the document alias the parsed YAML and
the returned `job_details`, on every invocation.  So repeated
invocations do *not* observe identical state.  Precisely:
`get_vulnerable_triggers` and `check_rules` return the parser
unchanged; `self_hosted` changes jobs only by extending matrix
candidate lists (no memoization, every other job field and every
non-jobs parser field untouched); `analyze_checkouts` and
`check_pwn_request` return the pure analysis of the pre-state, change
jobs only by memoization (pointwise memo-descendants), append exactly
the per-job `callees` additions, leave every other parser field
unchanged, and on a second invocation return an equal result while
appending the same additions again; `check_injection` likewise returns
the pure analysis, memoizes only, leaves `callees` and every other
field unchanged, and a second invocation returns an equal result. -/
theorem c9_frame_amended (ora : EvalOracle) (fuel : Nat)
    (filtT : List String → List String) (P : WFParser) (bypass : Bool)
    (alternate : Option String) (hosted : List String) (sku : String → Bool)
    (rules : List String) :
    (getVulnerableTriggersSt P alternate).2 = P ∧
    (checkRulesSt P rules).2 = P ∧
    (∀ res P', selfHostedSt hosted sku P fuel = some (res, P') →
      List.Forall₂ MatrixExt P.jobs P'.jobs ∧
      P'.callees = P.callees ∧ P'.raw_yaml = P.raw_yaml ∧
      P'.repo_name = P.repo_name ∧ P'.wf_name = P.wf_name ∧
      P'.external_ref = P.external_ref ∧ P'.external_path = P.external_path ∧
      P'.branch = P.branch ∧ P'.composites = P.composites) ∧
    (∀ res P', analyzeCheckoutsSt ora P fuel = some (res, P') →
      analyzeCheckoutsP ora P fuel = some res ∧
      List.Forall₂ (JobML ora) P.jobs P'.jobs ∧
      P'.callees = P.callees ++ ackCalleeAdds P ∧
      P'.parsed_yml = P.parsed_yml ∧ P'.raw_yaml = P.raw_yaml ∧
      P'.repo_name = P.repo_name ∧ P'.wf_name = P.wf_name ∧
      P'.external_ref = P.external_ref ∧ P'.external_path = P.external_path ∧
      P'.branch = P.branch ∧ P'.composites = P.composites ∧
      (∀ res2 P'', analyzeCheckoutsSt ora P' fuel = some (res2, P'') →
        res2 = res ∧ P''.callees = P'.callees ++ ackCalleeAdds P)) ∧
    (∀ res P', checkPwnRequestSt ora P fuel bypass = some (res, P') →
      checkPwnRequestP ora P fuel bypass = some res ∧
      List.Forall₂ (JobML ora) P.jobs P'.jobs ∧
      P'.callees = P.callees ++ pwnCalleeAdds P bypass ∧
      P'.parsed_yml = P.parsed_yml ∧
      (∀ res2 P'', checkPwnRequestSt ora P' fuel bypass = some (res2, P'') →
        res2 = res ∧ P''.callees = P'.callees ++ pwnCalleeAdds P bypass)) ∧
    (∀ res P', checkInjectionSt ora P fuel filtT bypass = some (res, P') →
      checkInjectionP ora P fuel filtT bypass = some res ∧
      List.Forall₂ (JobML ora) P.jobs P'.jobs ∧
      P'.callees = P.callees ∧ P'.parsed_yml = P.parsed_yml ∧
      (∀ res2 P'', checkInjectionSt ora P' fuel filtT bypass =
          some (res2, P'') →
        res2 = res ∧ P''.callees = P'.callees)) := by
  refine ⟨rfl, rfl, selfHostedSt_frame hosted sku P fuel, ?_, ?_, ?_⟩
  · intro res P' hrun
    obtain ⟨ha1, ha2⟩ :=
      analyzeCheckoutsSt_ref ora fuel P P.jobs (forall2_jobML_refl ora P.jobs)
    have hpure : analyzeCheckoutsP ora P fuel = some res := by
      have h := ha1
      rw [hrun] at h
      exact h
    obtain ⟨hb1, _, hb3, hb4, hb5, hb6, hb7, hb8, hb9, hb10, hb11⟩ :=
      ha2 res P' hrun
    refine ⟨hpure, hb1, hb3, hb4, hb5, hb6, hb7, hb8, hb9, hb10, hb11, ?_⟩
    intro res2 P'' hrun2
    obtain ⟨hc1, hc2⟩ := analyzeCheckoutsSt_ref ora fuel P' P.jobs hb1
    have hpure2 : analyzeCheckoutsP ora { P' with jobs := P.jobs } fuel =
        some res2 := by
      have h := hc1
      rw [hrun2] at h
      exact h
    have hres : res2 = res := by
      have h : (some res2 : Option (List (String × JobCk))) = some res := by
        rw [← hpure2, analyzeCheckoutsP_congr ora fuel (P := P)
          (Q := { P' with jobs := P.jobs }) hb4 rfl, hpure]
      exact Option.some.inj h
    obtain ⟨_, _, hd3, _⟩ := hc2 res2 P'' hrun2
    refine ⟨hres, ?_⟩
    rw [hd3, ackCalleeAdds_congr ora hb4 hb1]
  · intro res P' hrun
    obtain ⟨ha1, ha2⟩ :=
      checkPwnRequestSt_ref ora fuel P bypass P.jobs
        (forall2_jobML_refl ora P.jobs)
    have hpure : checkPwnRequestP ora P fuel bypass = some res := by
      have h := ha1
      rw [hrun] at h
      exact h
    obtain ⟨hb1, _, hb3, hb4, _⟩ := ha2 res P' hrun
    refine ⟨hpure, hb1, hb3, hb4, ?_⟩
    intro res2 P'' hrun2
    obtain ⟨hc1, hc2⟩ := checkPwnRequestSt_ref ora fuel P' bypass P.jobs hb1
    have hpure2 : checkPwnRequestP ora { P' with jobs := P.jobs } fuel bypass =
        some res2 := by
      have h := hc1
      rw [hrun2] at h
      exact h
    have hres : res2 = res := by
      have h : (some res2 :
          Option (List (String × PwnCand) × List String)) = some res := by
        rw [← hpure2, checkPwnRequestP_congr ora fuel bypass (P := P)
          (Q := { P' with jobs := P.jobs }) hb4 rfl, hpure]
      exact Option.some.inj h
    obtain ⟨_, _, hd3, _⟩ := hc2 res2 P'' hrun2
    refine ⟨hres, ?_⟩
    rw [hd3, pwnCalleeAdds_congr ora bypass hb4 hb1]
  · intro res P' hrun
    obtain ⟨ha1, ha2⟩ :=
      checkInjectionSt_ref ora fuel filtT P bypass P.jobs
        (forall2_jobML_refl ora P.jobs)
    have hpure : checkInjectionP ora P fuel filtT bypass = some res := by
      have h := ha1
      rw [hrun] at h
      exact h
    obtain ⟨hb1, _, hb3, hb4, _⟩ := ha2 res P' hrun
    refine ⟨hpure, hb1, hb3, hb4, ?_⟩
    intro res2 P'' hrun2
    obtain ⟨hc1, hc2⟩ := checkInjectionSt_ref ora fuel filtT P' bypass P.jobs hb1
    have hpure2 : checkInjectionP ora { P' with jobs := P.jobs } fuel filtT
        bypass = some res2 := by
      have h := hc1
      rw [hrun2] at h
      exact h
    have hres : res2 = res := by
      have h : (some res2 : Option InjResult) = some res := by
        rw [← hpure2, checkInjectionP_congr ora fuel filtT bypass (P := P)
          (Q := { P' with jobs := P.jobs }) hb4 rfl, hpure]
      exact Option.some.inj h
    obtain ⟨_, _, hd3, _⟩ := hc2 res2 P'' hrun2
    exact ⟨hres, hd3⟩

/-- The caller-job declaration of the counterexample: a job that
references a local reusable workflow. -/
def jdCallerC9 : JobData := { uses := some "./.github/workflows/reuse.yml" }

/-- The caller job. -/
def jobCallerC9 : Job := mkJob jdCallerC9 "invoke"

/-- Parser holding the single caller job. -/
def P9 : WFParser :=
  { parsed_yml := { jobs := .table [("invoke", jdCallerC9)] }
    jobs := [jobCallerC9] }

/-- The self-hosted counterexample job: literally named
`"$\x7b\x7b matrix"` (the only name the line-454 lookup can find for a
matrix-templated label), with a matrix key `os` and an `include`
block.  Representable in YAML, which gatox ingests untrusted. -/
def mixMatrix : MatrixDecl :=
  { entries := [("os", ["self-hosted-x"])]
    include_ := some [[("os", "extra")]] }

def jdMix : JobData :=
  { runs_on := some (.str "$\x7b\x7b matrix.os \x7d\x7d")
    strategy := some { matrix := some mixMatrix } }

/-- Parser holding the self-hosted counterexample job. -/
def Pmix : WFParser :=
  { parsed_yml := { jobs := .table [("$\x7b\x7b matrix", jdMix)] }
    jobs := [mkJob jdMix "$\x7b\x7b matrix"] }

/-- The current `strategy.matrix.os` candidate list of the (single)
job of a parser. -/
def matrixOsOf (P : WFParser) : List String :=
  matrixListOf P.jobs 0 "os"

/-- C9 counterexample, in two parts.  (1) `analyze_checkouts` appends
`reuse.yml` to the parser's `callees` list (lines 226-229) — parser
state beyond the guard memoization — and a second invocation appends
it *again*.  (2) `self_hosted`'s matrix branch fires on the job named
`"$\x7b\x7b matrix"`: the job is reported self-hosted and line 460's
`os_list.extend` grows the aliased `strategy.matrix[os]` list in place
from one to two candidates, and a second invocation grows it to three.
Either way, state changes beyond memoization and the two invocations
do not observe identical state. -/
theorem c9_cex_callees_mutation :
    ((analyzeCheckoutsSt oraConst P9 2).map (fun r => r.2.callees) =
      some ["reuse.yml"]) ∧
    ((analyzeCheckoutsSt oraConst P9 2).bind
        (fun r => (analyzeCheckoutsSt oraConst r.2 2).map
          (fun r2 => r2.2.callees)) = some ["reuse.yml", "reuse.yml"]) ∧
    P9.callees = [] ∧
    matrixOsOf Pmix = ["self-hosted-x"] ∧
    ((selfHostedSt [] (fun _ => false) Pmix 10).map
        (fun r => (r.1.map (fun kv => kv.1), matrixOsOf r.2)) =
      some (["$\x7b\x7b matrix"], ["self-hosted-x", "extra"])) ∧
    ((selfHostedSt [] (fun _ => false) Pmix 10).bind
        (fun r => (selfHostedSt [] (fun _ => false) r.2 10).map
          (fun r2 => matrixOsOf r2.2)) =
      some ["self-hosted-x", "extra", "extra"]) := by
  refine ⟨rfl, rfl, rfl, rfl, rfl, rfl⟩

/-- C9 witness: the amended frame theorem applied to the concrete
caller-job parser, with the run hypotheses discharged by computation:
the read-only operations leave the parser untouched, `self_hosted`'s
frame holds at its concrete run, the stateful `analyze_checkouts`
agrees with the pure analysis, and the `callees` effect is exactly the
per-job additions. -/
theorem c9_frame_amended_witness :
    (getVulnerableTriggersSt P9 none).2 = P9 ∧
    List.Forall₂ MatrixExt P9.jobs P9.jobs ∧
    analyzeCheckoutsP oraConst P9 2 =
      some [("invoke", ⟨[], none, "UNKNOWN", false⟩)] ∧
    ({ P9 with jobs := [jobCallerC9], callees := ["reuse.yml"] }).callees =
      P9.callees ++ ackCalleeAdds P9 := by
  have H := c9_frame_amended oraConst 2 (fun l => l) P9 false none []
    (fun _ => false) []
  have h3 := H.2.2.1 [] P9 rfl
  have h4 := H.2.2.2.1 [("invoke", ⟨[], none, "UNKNOWN", false⟩)]
    { P9 with jobs := [jobCallerC9], callees := ["reuse.yml"] } rfl
  exact ⟨H.1, h3.1, h4.1, h4.2.2.1⟩
